import Mathlib

/-!
Verification of the halfedge-based polyhedral-surface core (CGAL
`Polyhedron_3` interface).  The repository contains the interface
documentation of the class only; every operation below is therefore
modelled from the specification text (the doc comments of
`src/unnamed/part_000` and `spec.md`).  The embedding fixes the fully
capable instantiation of the data structure: stored `prev`, stored
incident vertex, stored incident facet, and removal support are all
active, matching the default `Polyhedron_items_3` configuration the spec
describes.

Handles are natural numbers.  A polyhedron owns a sequence of edges
(each edge is the pair of its two opposite halfedges, kept in storage
order so that border normalization can be expressed), a sequence of
vertices and a sequence of facets, together with the incidence functions
`opp`, `next`, `prev`, `vtx` (target vertex) and `fct` (incident facet,
`none` for border halfedges).  The two counter fields hold the numbers
recorded by the last `normalize_border` call; the spec says they are a
cache that is not maintained by other operations, and indeed no other
operation below touches them.
-/

namespace HalfedgeDS

/-- Modelled from the spec: the state of a `Polyhedron_3` instance.  The
halfedge sequence is stored edge-pair by edge-pair, as the spec's
`Edge_iterator` ("every other halfedge") requires. -/
@[ext]
structure Poly where
  edges : List (Nat × Nat)
  verts : List Nat
  facets : List Nat
  opp : Nat → Nat
  next : Nat → Nat
  prev : Nat → Nat
  vtx : Nat → Nat
  fct : Nat → Option Nat
  nbBorderEdges : Nat
  nbBorderHalfedges : Nat

/-- Pointwise function update on halfedge handles. -/
def upd (f : Nat → Nat) (a v : Nat) : Nat → Nat := fun x => if x = a then v else f x

@[simp] theorem upd_self (f : Nat → Nat) (a v : Nat) : upd f a v a = v := by
  simp [upd]

theorem upd_ne (f : Nat → Nat) (a v x : Nat) (h : x ≠ a) : upd f a v x = f x := by
  simp [upd, h]

/-- The halfedge sequence: the edge-pair sequence flattened. -/
def halfedges (P : Poly) : List Nat := P.edges.flatMap (fun e => [e.1, e.2])

/-- Largest halfedge handle in use (`0` when none). -/
def maxHandle (P : Poly) : Nat := (halfedges P).foldr max 0

/-- Largest vertex handle in use. -/
def maxVert (P : Poly) : Nat := P.verts.foldr max 0

/-- Largest facet handle in use. -/
def maxFacet (P : Poly) : Nat := P.facets.foldr max 0

theorem le_foldr_max (l : List Nat) (x : Nat) : x ∈ l → x ≤ l.foldr max 0 := by
  induction l with
  | nil => intro h; cases h
  | cons a t ih =>
    intro h
    rcases List.mem_cons.mp h with rfl | h
    · exact le_max_left _ _
    · exact le_trans (ih h) (le_max_right _ _)

theorem mem_le_maxHandle (P : Poly) (x : Nat) (h : x ∈ halfedges P) : x ≤ maxHandle P :=
  le_foldr_max _ _ h

theorem maxHandle_lt_fresh (P : Poly) (k : Nat) (x : Nat) (h : x ∈ halfedges P) :
    x ≠ maxHandle P + k + 1 := by
  have := mem_le_maxHandle P x h
  omega

/-- Modelled from the spec: a border halfedge is one with no incident
facet ("the halfedges along the boundary of a hole are called border
halfedges and have no incident facet"). -/
def isBorder (P : Poly) (h : Nat) : Bool := (P.fct h).isNone

/-- Modelled from the spec: an edge is a border edge iff one of its two
halfedges is a border halfedge. -/
def isBorderEdge (P : Poly) (h : Nat) : Bool := isBorder P h || isBorder P (P.opp h)

/-- Number of vertices. -/
def size_of_vertices (P : Poly) : Nat := P.verts.length

/-- Number of halfedges (including border halfedges). -/
def size_of_halfedges (P : Poly) : Nat := (halfedges P).length

/-- Number of facets. -/
def size_of_facets (P : Poly) : Nat := P.facets.length

/-- Number of border edges recorded by the last `normalize_border` call. -/
def size_of_border_edges (P : Poly) : Nat := P.nbBorderEdges

/-- Number of border halfedges recorded by the last `normalize_border` call. -/
def size_of_border_halfedges (P : Poly) : Nat := P.nbBorderHalfedges

/-- Modelled from the spec: `is_closed` returns true iff there are no
border edges (equivalently, no border halfedges). -/
def is_closed (P : Poly) : Bool := (halfedges P).all (fun h => !(isBorder P h))

/-- Fuel used by the cycle walkers: strictly more than the number of
halfedges, so a simple cycle is always traversed completely. -/
def fuelOf (P : Poly) : Nat := 2 * P.edges.length + 2

/-- Walk along `nx` from `cur`, collecting the visited handles, until
the successor would be `start` again (or the fuel runs out).  This is
the do-while loop used by the facet and vertex circulator walks. -/
def cycleFrom (nx : Nat → Nat) (start : Nat) : Nat → Nat → List Nat
  | 0, cur => [cur]
  | fuel + 1, cur => cur :: (if nx cur = start then [] else cycleFrom nx start fuel (nx cur))

/-- Modelled from the spec: the degree of the facet (or hole) incident
to `h`, i.e. the length of its `next` cycle. -/
def facet_degree (P : Poly) (h : Nat) : Nat := (cycleFrom P.next h (fuelOf P) h).length

/-- Modelled from the spec: `next_on_vertex` is the next halfedge around
the target vertex (clockwise), equal to `h->next()->opposite()`. -/
def next_on_vertex (P : Poly) (h : Nat) : Nat := P.opp (P.next h)

/-- Modelled from the spec: `prev_on_vertex` is the previous halfedge
around the target vertex, equal to `h->opposite()->prev()`. -/
def prev_on_vertex (P : Poly) (h : Nat) : Nat := P.prev (P.opp h)

/-- Modelled from the spec: the degree of the vertex incident to `h`,
the length of the `next_on_vertex` cycle through `h`. -/
def vertex_degree (P : Poly) (h : Nat) : Nat :=
  (cycleFrom (fun x => P.opp (P.next x)) h (fuelOf P) h).length

/-- Modelled from the spec: `is_pure_triangle` holds iff every facet is
a triangle, i.e. every non-border halfedge lies on a `next` cycle of
length three. -/
def is_pure_triangle (P : Poly) : Bool :=
  (halfedges P).all (fun h => isBorder P h || (facet_degree P h == 3))

/-- One closure step used to enumerate a connected component. -/
def compStep (P : Poly) (L : List Nat) : List Nat :=
  (L ++ L.map P.next ++ L.map P.opp).dedup

/-- Iterated closure steps. -/
def componentFrom (P : Poly) : Nat → List Nat → List Nat
  | 0, L => L
  | n + 1, L => componentFrom P n (compStep P L)

/-- The halfedges of the connected component of `h` (fuel-bounded
closure under `next` and `opposite`). -/
def component (P : Poly) (h : Nat) : List Nat := componentFrom P (fuelOf P) [h]

/-- Modelled from the spec: `is_tetrahedron h` holds iff the connected
component denoted by `h` is a tetrahedron: twelve halfedges, all
non-border, arranged in triangles, over four vertices and four
facets. -/
def is_tetrahedron (P : Poly) (h : Nat) : Bool :=
  let c := component P h
  c.length == 12 &&
    c.all (fun x => !(isBorder P x) && (P.next (P.next (P.next x)) == x) && (P.next x != x)) &&
    ((c.map P.vtx).dedup.length == 4) && ((c.map P.fct).dedup.length == 4)

/-- The empty polyhedron. -/
def emptyPoly : Poly :=
  { edges := [], verts := [], facets := [],
    opp := fun _ => 0, next := fun _ => 0, prev := fun _ => 0,
    vtx := fun _ => 0, fct := fun _ => none,
    nbBorderEdges := 0, nbBorderHalfedges := 0 }

/-- Modelled from the spec: `clear` removes all vertices, halfedges and
facets. -/
def clear (_P : Poly) : Poly := emptyPoly

/-!  The common halfedge-pair insertion underlying the splitting Euler
operators.  A fresh pair `(u, v)` with `opp u = v` is spliced into the
`next` structure: `h` now continues to `u`, `g` now continues to `v`,
`u` continues to `A` and `v` continues to `B`, where `{A, B}` are the
old successors of `h` and `g`; `prev` is updated accordingly.  With
`A = next g, B = next h` this is the diagonal insertion of
`split_facet`; with `A = next h, B = next g` it is the edge insertion of
`split_vertex`.  -/

/-- Splice a fresh opposite pair `(u, v)` into the `next`/`prev`
structure at `h` and `g`. -/
def insertEdge (P : Poly) (h g u v A B : Nat) : Poly :=
  { P with
    edges := P.edges ++ [(u, v)],
    next := upd (upd (upd (upd P.next h u) g v) u A) v B,
    prev := upd (upd (upd (upd P.prev A u) B v) u h) v g,
    opp := upd (upd P.opp u v) v u }

/-- Modelled from the spec: `split_facet h g` splits the facet incident
to `h` and `g` with a new diagonal between the vertices of `h` and `g`.
The old facet keeps the side of `h` (left of the diagonal); the
halfedges on the side from `h->next()` to `g` (right of the diagonal)
are walked and assigned the new facet, which is appended to the facet
sequence.  Returns `h->next()` after the operation, i.e. the new
diagonal halfedge. -/
def split_facet (P : Poly) (h g : Nat) : Poly × Nat :=
  let u := maxHandle P + 1
  let v := maxHandle P + 2
  let fnew := maxFacet P + 1
  let Q := insertEdge P h g u v (P.next g) (P.next h)
  let loop := cycleFrom Q.next v (fuelOf Q) v
  ({ Q with
      facets := P.facets ++ [fnew],
      vtx := upd (upd P.vtx u (P.vtx g)) v (P.vtx h),
      fct := fun x => if x ∈ loop then some fnew else if x = u then P.fct h else P.fct x },
   u)

/-- Modelled from the spec: `split_vertex h g` splits the vertex
incident to `h` and `g` in two; the old vertex keeps the halfedge
sequence from `hnew` to `h`, a fresh vertex (appended to the vertex
sequence) collects the cycle from `hnew->opposite()` to `g`, which is
walked with the vertex circulator and reassigned.  Returns `hnew`, the
new halfedge incident to the old vertex (equal to
`h->next()->opposite()` after the split). -/
def split_vertex (P : Poly) (h g : Nat) : Poly × Nat :=
  let hnew := maxHandle P + 1
  let gnew := maxHandle P + 2
  let vnew := maxVert P + 1
  let Q := insertEdge P h g gnew hnew (P.next h) (P.next g)
  let loop := cycleFrom (fun x => Q.opp (Q.next x)) gnew (fuelOf Q) gnew
  ({ Q with
      verts := P.verts ++ [vnew],
      fct := fun x => if x = hnew then P.fct g else if x = gnew then P.fct h else P.fct x,
      vtx := fun x =>
        if x ∈ loop then vnew
        else if x = hnew then P.vtx h else if x = gnew then P.vtx g else P.vtx x },
   hnew)

/-- Modelled from the spec: `split_edge h` subdivides the halfedge `h`
with a fresh vertex, a copy of `h->opposite()->vertex()`; it is the
edge-splitting special case of `split_vertex` applied at
`(h->prev(), h->opposite())`, and returns the new halfedge `hnew`
pointing to the inserted vertex, with `hnew->next() == h`. -/
def split_edge (P : Poly) (h : Nat) : Poly × Nat :=
  let a := P.prev h
  let b := P.opp h
  let hnew := maxHandle P + 1
  let gnew := maxHandle P + 2
  let vnew := maxVert P + 1
  let Q := insertEdge P a b gnew hnew h (P.next b)
  ({ Q with
      verts := P.verts ++ [vnew],
      fct := fun x => if x = hnew then P.fct b else if x = gnew then P.fct h else P.fct x,
      vtx := fun x =>
        if x = gnew then vnew else if x = b then vnew
        else if x = hnew then P.vtx a else P.vtx x },
   gnew)

/-- Modelled from the spec: `join_facet h` joins the two facets incident
to `h`: the edge of `h` is removed from the sequence, its predecessor
halfedges are relinked across the gap, the facet incident to
`h->opposite()` is removed from the facet sequence and every halfedge
that carried it is reassigned to the facet of `h`.  Returns the
predecessor of `h` around the merged facet. -/
def join_facet (P : Poly) (h : Nat) : Poly × Nat :=
  let o := P.opp h
  let hp := P.prev h
  let op := P.prev o
  let na := P.next o
  let nb := P.next h
  let fdel := P.fct o
  let fkeep := P.fct h
  ({ P with
      edges := P.edges.filter (fun e => e.1 ≠ h ∧ e.2 ≠ h),
      facets := match fdel with
        | some f => P.facets.filter (fun x => x ≠ f)
        | none => P.facets,
      next := upd (upd P.next hp na) op nb,
      prev := upd (upd P.prev na hp) nb op,
      fct := fun x => if P.fct x = fdel then fkeep else P.fct x },
   hp)

/-!  Construction primitives.  `addBlock` appends a block of `k` fresh
halfedges, `nv` fresh vertices and `nf` fresh facets whose wiring is
given by offset tables; `make_tetrahedron` and `make_triangle`
instantiate it.  -/

/-- Append a block of fresh elements wired according to offset tables. -/
def addBlock (P : Poly) (k nv nf : Nat) (tN tP tO tV : Nat → Nat) (tF : Nat → Option Nat)
    (pr : List (Nat × Nat)) : Poly :=
  let b := maxHandle P + 1
  let vb := maxVert P + 1
  let fb := maxFacet P + 1
  { edges := P.edges ++ pr.map (fun e => (b + e.1, b + e.2)),
    verts := P.verts ++ (List.range nv).map (fun i => vb + i),
    facets := P.facets ++ (List.range nf).map (fun i => fb + i),
    opp := fun x => if b ≤ x ∧ x < b + k then b + tO (x - b) else P.opp x,
    next := fun x => if b ≤ x ∧ x < b + k then b + tN (x - b) else P.next x,
    prev := fun x => if b ≤ x ∧ x < b + k then b + tP (x - b) else P.prev x,
    vtx := fun x => if b ≤ x ∧ x < b + k then vb + tV (x - b) else P.vtx x,
    fct := fun x => if b ≤ x ∧ x < b + k then (tF (x - b)).map (fun i => fb + i) else P.fct x,
    nbBorderEdges := P.nbBorderEdges, nbBorderHalfedges := P.nbBorderHalfedges }

/-- Tetrahedron wiring: successor table. -/
def tetN : Nat → Nat
  | 0 => 1 | 1 => 2 | 2 => 0
  | 3 => 4 | 4 => 5 | 5 => 3
  | 6 => 7 | 7 => 8 | 8 => 6
  | 9 => 10 | 10 => 11 | _ => 9

/-- Tetrahedron wiring: predecessor table. -/
def tetP : Nat → Nat
  | 0 => 2 | 1 => 0 | 2 => 1
  | 3 => 5 | 4 => 3 | 5 => 4
  | 6 => 8 | 7 => 6 | 8 => 7
  | 9 => 11 | 10 => 9 | _ => 10

/-- Tetrahedron wiring: opposite table. -/
def tetO : Nat → Nat
  | 0 => 5 | 5 => 0 | 1 => 8 | 8 => 1 | 2 => 9 | 9 => 2
  | 3 => 11 | 11 => 3 | 4 => 6 | 6 => 4 | 7 => 10 | _ => 7

/-- Tetrahedron wiring: target-vertex table. -/
def tetV : Nat → Nat
  | 0 => 1 | 1 => 2 | 2 => 0
  | 3 => 3 | 4 => 1 | 5 => 0
  | 6 => 3 | 7 => 2 | 8 => 1
  | 9 => 2 | 10 => 3 | _ => 0

/-- Tetrahedron wiring: facet table. -/
def tetF : Nat → Option Nat := fun i => some (i / 3)

/-- Tetrahedron wiring: the six opposite pairs in storage order. -/
def tetPairs : List (Nat × Nat) := [(0, 5), (1, 8), (2, 9), (3, 11), (4, 6), (7, 10)]

/-- Modelled from the spec: `make_tetrahedron` adds a tetrahedron (four
vertices, twelve halfedges in six edges, four triangular facets) to the
surface and returns one of its halfedges. -/
def make_tetrahedron (P : Poly) : Poly × Nat :=
  (addBlock P 12 4 4 tetN tetP tetO tetV tetF tetPairs, maxHandle P + 1)

/-- Triangle wiring: successor table (halfedges 0,1,2 around the facet,
3,4,5 around the hole). -/
def triN : Nat → Nat
  | 0 => 1 | 1 => 2 | 2 => 0
  | 3 => 5 | 4 => 3 | _ => 4

/-- Triangle wiring: predecessor table. -/
def triP : Nat → Nat
  | 0 => 2 | 1 => 0 | 2 => 1
  | 3 => 4 | 4 => 5 | _ => 3

/-- Triangle wiring: opposite table. -/
def triO : Nat → Nat
  | 0 => 3 | 3 => 0 | 1 => 4 | 4 => 1 | 2 => 5 | _ => 2

/-- Triangle wiring: target-vertex table. -/
def triV : Nat → Nat
  | 0 => 1 | 1 => 2 | 2 => 0
  | 3 => 0 | 4 => 1 | _ => 2

/-- Triangle wiring: facet table (`none` on the hole side). -/
def triF : Nat → Option Nat := fun i => if i < 3 then some 0 else none

/-- Triangle wiring: the three opposite pairs. -/
def triPairs : List (Nat × Nat) := [(0, 3), (1, 4), (2, 5)]

/-- Modelled from the spec: `make_triangle` adds a triangle with border
edges (three vertices, six halfedges of which three are border, one
facet) and returns a non-border halfedge of it. -/
def make_triangle (P : Poly) : Poly × Nat :=
  (addBlock P 6 3 1 triN triP triO triV triF triPairs, maxHandle P + 1)

/-- Swap a border pair so that the facet-incident halfedge comes first. -/
def swapPair (P : Poly) (e : Nat × Nat) : Nat × Nat :=
  if isBorder P e.1 then (e.2, e.1) else e

/-- Modelled from the spec: `normalize_border` sorts the edge sequence
so that the non-border edges precede the border edges, orders each
border pair with the facet-incident halfedge first, and records the
number of border edges and border halfedges. -/
def normalize_border (P : Poly) : Poly :=
  let nonB := P.edges.filter (fun e => !(isBorder P e.1 || isBorder P e.2))
  let bord := (P.edges.filter (fun e => isBorder P e.1 || isBorder P e.2)).map (swapPair P)
  { P with
    edges := nonB ++ bord,
    nbBorderEdges := bord.length,
    nbBorderHalfedges := (bord.flatMap (fun e => [e.1, e.2])).countP (fun x => isBorder P x) }

/-!  Validity.  `invC1` is the halfedge-pairing/successor invariant the
spec states must hold before and after every public operation; `Valid`
is the full structural audit corresponding to `is_valid`: `invC1`,
consistency of the stored pairs with `opp`, duplicate-freedom, facet
and hole degrees at least three, facet constancy along `next` cycles,
vertex coherence (`vtx (opp (next h)) = vtx h`), liveness of the stored
vertex/facet references, and distinctness of the two facets of every
edge (which subsumes "each border edge has exactly one border
halfedge").  -/

/-- The claim-1 invariant: `opp` is an involution without fixed points
and `prev`/`next` are inverse, with all values live. -/
def invC1 (P : Poly) : Prop :=
  ∀ h ∈ halfedges P,
    P.opp (P.opp h) = h ∧ P.opp h ≠ h ∧ P.opp h ∈ halfedges P ∧
    P.next h ∈ halfedges P ∧ P.prev h ∈ halfedges P ∧
    P.prev (P.next h) = h ∧ P.next (P.prev h) = h

instance (P : Poly) : Decidable (invC1 P) := by
  unfold invC1; infer_instance

/-- Full structural validity of a polyhedron. -/
def Valid (P : Poly) : Prop :=
  (halfedges P).Nodup ∧ P.verts.Nodup ∧ P.facets.Nodup ∧
  (∀ e ∈ P.edges, P.opp e.1 = e.2 ∧ P.opp e.2 = e.1) ∧
  invC1 P ∧
  (∀ h ∈ halfedges P, P.next h ≠ h ∧ P.next (P.next h) ≠ h) ∧
  (∀ h ∈ halfedges P, P.fct (P.next h) = P.fct h) ∧
  (∀ h ∈ halfedges P, ∀ f, P.fct h = some f → f ∈ P.facets) ∧
  (∀ h ∈ halfedges P, P.vtx h ∈ P.verts) ∧
  (∀ h ∈ halfedges P, P.vtx (P.opp (P.next h)) = P.vtx h) ∧
  (∀ h ∈ halfedges P, P.fct h ≠ P.fct (P.opp h))

instance (P : Poly) : Decidable (Valid P) := by
  unfold Valid; infer_instance

/-!  Concrete surfaces used as witnesses and counterexamples.  -/

/-- The tetrahedron built on the empty surface. -/
def tetra : Poly := (make_tetrahedron emptyPoly).1

/-- The triangle with border built on the empty surface. -/
def triangle : Poly := (make_triangle emptyPoly).1

/-- A sphere made of two quadrilaterals glued along their boundary:
facet 1 carries halfedges 1-4 (cycle 1,2,3,4), facet 2 carries their
opposites 5-8 (cycle 5,8,7,6). -/
def quadSphere : Poly :=
  { edges := [(1, 5), (2, 6), (3, 7), (4, 8)],
    verts := [1, 2, 3, 4],
    facets := [1, 2],
    opp := fun x => if x = 1 then 5 else if x = 5 then 1 else if x = 2 then 6 else
      if x = 6 then 2 else if x = 3 then 7 else if x = 7 then 3 else
      if x = 4 then 8 else if x = 8 then 4 else 0,
    next := fun x => if x = 1 then 2 else if x = 2 then 3 else if x = 3 then 4 else
      if x = 4 then 1 else if x = 5 then 8 else if x = 8 then 7 else
      if x = 7 then 6 else if x = 6 then 5 else 0,
    prev := fun x => if x = 2 then 1 else if x = 3 then 2 else if x = 4 then 3 else
      if x = 1 then 4 else if x = 8 then 5 else if x = 7 then 8 else
      if x = 6 then 7 else if x = 5 then 6 else 0,
    vtx := fun x => if x = 1 then 2 else if x = 2 then 3 else if x = 3 then 4 else
      if x = 4 then 1 else if x = 5 then 1 else if x = 6 then 2 else
      if x = 7 then 3 else if x = 8 then 4 else 0,
    fct := fun x => if 1 ≤ x ∧ x ≤ 4 then some 1 else if 5 ≤ x ∧ x ≤ 8 then some 2 else none,
    nbBorderEdges := 0, nbBorderHalfedges := 0 }

/-- A sphere made of two triangles glued along their boundary: facet 1
carries halfedges 1-3 (cycle 1,2,3), facet 2 their opposites 4-6 (cycle
4,6,5).  Every vertex has degree two. -/
def twoTriSphere : Poly :=
  { edges := [(1, 4), (2, 5), (3, 6)],
    verts := [1, 2, 3],
    facets := [1, 2],
    opp := fun x => if x = 1 then 4 else if x = 4 then 1 else if x = 2 then 5 else
      if x = 5 then 2 else if x = 3 then 6 else if x = 6 then 3 else 0,
    next := fun x => if x = 1 then 2 else if x = 2 then 3 else if x = 3 then 1 else
      if x = 4 then 6 else if x = 6 then 5 else if x = 5 then 4 else 0,
    prev := fun x => if x = 2 then 1 else if x = 3 then 2 else if x = 1 then 3 else
      if x = 6 then 4 else if x = 5 then 6 else if x = 4 then 5 else 0,
    vtx := fun x => if x = 1 then 2 else if x = 2 then 3 else if x = 3 then 1 else
      if x = 4 then 1 else if x = 5 then 2 else if x = 6 then 3 else 0,
    fct := fun x => if 1 ≤ x ∧ x ≤ 3 then some 1 else if 4 ≤ x ∧ x ≤ 6 then some 2 else none,
    nbBorderEdges := 0, nbBorderHalfedges := 0 }

/-!  Projections of `Valid` and derived combinatorial facts.  -/

theorem vNodupH {P : Poly} (hv : Valid P) : (halfedges P).Nodup := hv.1

theorem vNodupF {P : Poly} (hv : Valid P) : P.facets.Nodup := hv.2.2.1

theorem vPairs {P : Poly} (hv : Valid P) :
    ∀ e ∈ P.edges, P.opp e.1 = e.2 ∧ P.opp e.2 = e.1 := hv.2.2.2.1

theorem vInv {P : Poly} (hv : Valid P) : invC1 P := hv.2.2.2.2.1

theorem vMinDeg {P : Poly} (hv : Valid P) :
    ∀ h ∈ halfedges P, P.next h ≠ h ∧ P.next (P.next h) ≠ h := hv.2.2.2.2.2.1

theorem vFctNext {P : Poly} (hv : Valid P) :
    ∀ h ∈ halfedges P, P.fct (P.next h) = P.fct h := hv.2.2.2.2.2.2.1

theorem vFctLive {P : Poly} (hv : Valid P) :
    ∀ h ∈ halfedges P, ∀ f, P.fct h = some f → f ∈ P.facets := hv.2.2.2.2.2.2.2.1

theorem vVtxCoh {P : Poly} (hv : Valid P) :
    ∀ h ∈ halfedges P, P.vtx (P.opp (P.next h)) = P.vtx h := hv.2.2.2.2.2.2.2.2.2.1

theorem vFctOppNe {P : Poly} (hv : Valid P) :
    ∀ h ∈ halfedges P, P.fct h ≠ P.fct (P.opp h) := hv.2.2.2.2.2.2.2.2.2.2

theorem next_mem {P : Poly} (inv : invC1 P) {h : Nat} (hh : h ∈ halfedges P) :
    P.next h ∈ halfedges P := (inv h hh).2.2.2.1

theorem prev_mem {P : Poly} (inv : invC1 P) {h : Nat} (hh : h ∈ halfedges P) :
    P.prev h ∈ halfedges P := (inv h hh).2.2.2.2.1

theorem opp_mem {P : Poly} (inv : invC1 P) {h : Nat} (hh : h ∈ halfedges P) :
    P.opp h ∈ halfedges P := (inv h hh).2.2.1

theorem prev_next {P : Poly} (inv : invC1 P) {h : Nat} (hh : h ∈ halfedges P) :
    P.prev (P.next h) = h := (inv h hh).2.2.2.2.2.1

theorem next_prev {P : Poly} (inv : invC1 P) {h : Nat} (hh : h ∈ halfedges P) :
    P.next (P.prev h) = h := (inv h hh).2.2.2.2.2.2

theorem opp_opp {P : Poly} (inv : invC1 P) {h : Nat} (hh : h ∈ halfedges P) :
    P.opp (P.opp h) = h := (inv h hh).1

theorem opp_ne {P : Poly} (inv : invC1 P) {h : Nat} (hh : h ∈ halfedges P) :
    P.opp h ≠ h := (inv h hh).2.1

theorem next_inj {P : Poly} (inv : invC1 P) {x y : Nat} (hx : x ∈ halfedges P)
    (hy : y ∈ halfedges P) (e : P.next x = P.next y) : x = y := by
  have h1 := prev_next inv hx
  have h2 := prev_next inv hy
  rw [← h1, e, h2]

theorem prev_inj {P : Poly} (inv : invC1 P) {x y : Nat} (hx : x ∈ halfedges P)
    (hy : y ∈ halfedges P) (e : P.prev x = P.prev y) : x = y := by
  have h1 := next_prev inv hx
  have h2 := next_prev inv hy
  rw [← h1, e, h2]

/-- In a valid polyhedron there are no antennas: the successor of the
opposite never comes straight back. -/
theorem no_antenna₁ {P : Poly} (hv : Valid P) {h : Nat} (hh : h ∈ halfedges P) :
    P.next (P.opp h) ≠ h := by
  intro e
  have ho := opp_mem (vInv hv) hh
  have h1 := vFctNext hv (P.opp h) ho
  rw [e] at h1
  exact vFctOppNe hv h hh h1

theorem no_antenna₂ {P : Poly} (hv : Valid P) {h : Nat} (hh : h ∈ halfedges P) :
    P.next h ≠ P.opp h := by
  intro e
  have h1 := vFctNext hv h hh
  rw [e] at h1
  exact vFctOppNe hv h hh h1.symm

theorem prev_ne_opp {P : Poly} (hv : Valid P) {h : Nat} (hh : h ∈ halfedges P) :
    P.prev h ≠ P.opp h := by
  intro e
  have := next_prev (vInv hv) hh
  rw [e] at this
  exact no_antenna₁ hv hh this

theorem prev_ne_self {P : Poly} (hv : Valid P) {h : Nat} (hh : h ∈ halfedges P) :
    P.prev h ≠ h := by
  intro e
  have := next_prev (vInv hv) hh
  rw [e] at this
  exact (vMinDeg hv h hh).1 this

theorem fct_ne_fresh {P : Poly} (hv : Valid P) {h : Nat} (hh : h ∈ halfedges P) (k : Nat) :
    P.fct h ≠ some (maxFacet P + k + 1) := by
  intro e
  have h1 := vFctLive hv h hh _ e
  have h2 : maxFacet P + k + 1 ≤ maxFacet P := le_foldr_max _ _ h1
  omega

/-!  Evaluation lemmas for the operations.  -/

theorem insertEdge_next (P : Poly) (h g u v A B x : Nat) :
    (insertEdge P h g u v A B).next x =
      if x = v then B else if x = u then A else if x = g then v else
      if x = h then u else P.next x := rfl

theorem insertEdge_prev (P : Poly) (h g u v A B x : Nat) :
    (insertEdge P h g u v A B).prev x =
      if x = v then g else if x = u then h else if x = B then v else
      if x = A then u else P.prev x := rfl

theorem insertEdge_opp (P : Poly) (h g u v A B x : Nat) :
    (insertEdge P h g u v A B).opp x =
      if x = v then u else if x = u then v else P.opp x := rfl

theorem halfedges_insertEdge (P : Poly) (h g u v A B : Nat) :
    halfedges (insertEdge P h g u v A B) = halfedges P ++ [u, v] := by
  simp [halfedges, insertEdge]

/-- The splicing of a fresh opposite pair preserves the halfedge
invariants. -/
theorem invC1_insertEdge (P : Poly) (h g u v A B : Nat)
    (inv : invC1 P) (hh : h ∈ halfedges P) (hg : g ∈ halfedges P) (hne : h ≠ g)
    (hu : u ∉ halfedges P) (hv : v ∉ halfedges P) (huv : u ≠ v)
    (hAB : (A = P.next h ∧ B = P.next g) ∨ (A = P.next g ∧ B = P.next h)) :
    invC1 (insertEdge P h g u v A B) := by
  have hA : A ∈ halfedges P := by
    rcases hAB with ⟨rfl, _⟩ | ⟨rfl, _⟩
    · exact next_mem inv hh
    · exact next_mem inv hg
  have hB : B ∈ halfedges P := by
    rcases hAB with ⟨_, rfl⟩ | ⟨_, rfl⟩
    · exact next_mem inv hg
    · exact next_mem inv hh
  have hABne : A ≠ B := by
    rcases hAB with ⟨rfl, rfl⟩ | ⟨rfl, rfl⟩
    · exact fun e => hne (next_inj inv hh hg e)
    · exact fun e => hne (next_inj inv hg hh e).symm
  have hAu : A ≠ u := fun e => hu (e ▸ hA)
  have hAv : A ≠ v := fun e => hv (e ▸ hA)
  have hBu : B ≠ u := fun e => hu (e ▸ hB)
  have hBv : B ≠ v := fun e => hv (e ▸ hB)
  have hhu : h ≠ u := fun e => hu (e ▸ hh)
  have hhv : h ≠ v := fun e => hv (e ▸ hh)
  have hgu : g ≠ u := fun e => hu (e ▸ hg)
  have hgv : g ≠ v := fun e => hv (e ▸ hg)
  intro x hx
  rw [halfedges_insertEdge] at hx
  simp only [insertEdge_next, insertEdge_prev, insertEdge_opp, halfedges_insertEdge]
  rcases List.mem_append.mp hx with hxP | hxN
  · -- old halfedge
    have hxu : x ≠ u := fun e => hu (e ▸ hxP)
    have hxv : x ≠ v := fun e => hv (e ▸ hxP)
    have hox : P.opp x ∈ halfedges P := opp_mem inv hxP
    have hnx : P.next x ∈ halfedges P := next_mem inv hxP
    have hpx : P.prev x ∈ halfedges P := prev_mem inv hxP
    have hoxu : P.opp x ≠ u := fun e => hu (e ▸ hox)
    have hoxv : P.opp x ≠ v := fun e => hv (e ▸ hox)
    have hnxu : P.next x ≠ u := fun e => hu (e ▸ hnx)
    have hnxv : P.next x ≠ v := fun e => hv (e ▸ hnx)
    have hpxu : P.prev x ≠ u := fun e => hu (e ▸ hpx)
    have hpxv : P.prev x ≠ v := fun e => hv (e ▸ hpx)
    refine ⟨?_, ?_, ?_, ?_, ?_, ?_, ?_⟩
    · simp only [if_neg hxv, if_neg hxu, if_neg hoxv, if_neg hoxu]
      exact opp_opp inv hxP
    · simp only [if_neg hxv, if_neg hxu]
      exact opp_ne inv hxP
    · simp only [if_neg hxv, if_neg hxu]
      exact List.mem_append.mpr (Or.inl hox)
    · simp only [if_neg hxv, if_neg hxu]
      by_cases hxg : x = g
      · simp only [if_pos hxg]
        exact List.mem_append.mpr (Or.inr (by simp))
      by_cases hxh : x = h
      · simp only [if_neg hxg, if_pos hxh]
        exact List.mem_append.mpr (Or.inr (by simp))
      · simp only [if_neg hxg, if_neg hxh]
        exact List.mem_append.mpr (Or.inl hnx)
    · simp only [if_neg hxv, if_neg hxu]
      by_cases hxB : x = B
      · simp only [if_pos hxB]
        exact List.mem_append.mpr (Or.inr (by simp))
      by_cases hxA : x = A
      · simp only [if_neg hxB, if_pos hxA]
        exact List.mem_append.mpr (Or.inr (by simp))
      · simp only [if_neg hxB, if_neg hxA]
        exact List.mem_append.mpr (Or.inl hpx)
    · -- prev' (next' x) = x
      simp only [if_neg hxv, if_neg hxu]
      by_cases hxg : x = g
      · subst hxg
        simp
      by_cases hxh : x = h
      · subst hxh
        simp [huv, hxg]
      · have hnB : P.next x ≠ B := by
          rcases hAB with ⟨_, rfl⟩ | ⟨_, rfl⟩
          · exact fun e => hxg (next_inj inv hxP hg e)
          · exact fun e => hxh (next_inj inv hxP hh e)
        have hnA : P.next x ≠ A := by
          rcases hAB with ⟨rfl, _⟩ | ⟨rfl, _⟩
          · exact fun e => hxh (next_inj inv hxP hh e)
          · exact fun e => hxg (next_inj inv hxP hg e)
        simp only [if_neg hxg, if_neg hxh, if_neg hnxv, if_neg hnxu, if_neg hnB, if_neg hnA]
        exact prev_next inv hxP
    · -- next' (prev' x) = x
      simp only [if_neg hxv, if_neg hxu]
      by_cases hxB : x = B
      · subst hxB
        simp [hBv, hBu]
      by_cases hxA : x = A
      · subst hxA
        simp [hAv, hAu, hxB, huv]
      · have hpg : P.prev x ≠ g := by
          intro e
          have hnp := next_prev inv hxP
          rw [e] at hnp
          rcases hAB with ⟨_, hB'⟩ | ⟨hA', _⟩
          · exact hxB (hnp.symm.trans hB'.symm)
          · exact hxA (hnp.symm.trans hA'.symm)
        have hph : P.prev x ≠ h := by
          intro e
          have hnp := next_prev inv hxP
          rw [e] at hnp
          rcases hAB with ⟨hA', _⟩ | ⟨_, hB'⟩
          · exact hxA (hnp.symm.trans hA'.symm)
          · exact hxB (hnp.symm.trans hB'.symm)
        simp only [if_neg hxB, if_neg hxA, if_neg hpxv, if_neg hpxu, if_neg hpg, if_neg hph]
        exact next_prev inv hxP
  · -- fresh halfedge
    have hxuv : x = u ∨ x = v := by simpa using hxN
    have memu : u ∈ halfedges P ++ [u, v] := by simp
    have memv : v ∈ halfedges P ++ [u, v] := by simp
    have hgh : g ≠ h := fun e => hne e.symm
    rcases hxuv with hxu | hxv
    · subst hxu
      refine ⟨?_, ?_, ?_, ?_, ?_, ?_, ?_⟩
      · simp [huv]
      · simp only [if_neg huv, if_pos rfl]
        exact huv.symm
      · simp only [if_neg huv, if_pos rfl]
        exact memv
      · simp only [if_neg huv, if_pos rfl]
        exact List.mem_append.mpr (Or.inl hA)
      · simp only [if_neg huv, if_pos rfl]
        exact List.mem_append.mpr (Or.inl hh)
      · simp [huv, hAv, hAu, hABne]
      · simp [huv, hhv, hhu, hne]
    · subst hxv
      refine ⟨?_, ?_, ?_, ?_, ?_, ?_, ?_⟩
      · simp [huv]
      · simp only [if_pos rfl]
        exact huv
      · simp only [if_pos rfl]
        exact memu
      · simp only [if_pos rfl]
        exact List.mem_append.mpr (Or.inl hB)
      · simp only [if_pos rfl]
        exact List.mem_append.mpr (Or.inl hg)
      · simp [hBv, hBu]
      · simp [hgv, hgu, hgh]

theorem invC1_congr {P Q : Poly} (he : Q.edges = P.edges) (hn : Q.next = P.next)
    (hp : Q.prev = P.prev) (ho : Q.opp = P.opp) (hI : invC1 P) : invC1 Q := by
  have hH : halfedges Q = halfedges P := by rw [halfedges, halfedges, he]
  intro x hx
  rw [hH] at hx
  rw [hn, hp, ho, hH]
  exact hI x hx

theorem fresh1_not_mem (P : Poly) : maxHandle P + 1 ∉ halfedges P := by
  intro m
  have := mem_le_maxHandle P _ m
  omega

theorem fresh2_not_mem (P : Poly) : maxHandle P + 2 ∉ halfedges P := by
  intro m
  have := mem_le_maxHandle P _ m
  omega

/-- `split_facet` preserves the halfedge invariants. -/
theorem invC1_split_facet {P : Poly} {h g : Nat} (hv : Valid P)
    (hh : h ∈ halfedges P) (hg : g ∈ halfedges P) (hne : h ≠ g) :
    invC1 (split_facet P h g).1 := by
  have base := invC1_insertEdge P h g (maxHandle P + 1) (maxHandle P + 2)
    (P.next g) (P.next h) (vInv hv) hh hg hne (fresh1_not_mem P) (fresh2_not_mem P)
    (by omega) (Or.inr ⟨rfl, rfl⟩)
  exact invC1_congr rfl rfl rfl rfl base

/-- `split_vertex` preserves the halfedge invariants. -/
theorem invC1_split_vertex {P : Poly} {h g : Nat} (hv : Valid P)
    (hh : h ∈ halfedges P) (hg : g ∈ halfedges P) (hne : h ≠ g) :
    invC1 (split_vertex P h g).1 := by
  have base := invC1_insertEdge P h g (maxHandle P + 2) (maxHandle P + 1)
    (P.next h) (P.next g) (vInv hv) hh hg hne (fresh2_not_mem P) (fresh1_not_mem P)
    (by omega) (Or.inl ⟨rfl, rfl⟩)
  exact invC1_congr rfl rfl rfl rfl base

/-- `split_edge` preserves the halfedge invariants. -/
theorem invC1_split_edge {P : Poly} {h : Nat} (hv : Valid P) (hh : h ∈ halfedges P) :
    invC1 (split_edge P h).1 := by
  have ha : P.prev h ∈ halfedges P := prev_mem (vInv hv) hh
  have hb : P.opp h ∈ halfedges P := opp_mem (vInv hv) hh
  have base := invC1_insertEdge P (P.prev h) (P.opp h) (maxHandle P + 2) (maxHandle P + 1)
    h (P.next (P.opp h)) (vInv hv) ha hb (prev_ne_opp hv hh) (fresh2_not_mem P)
    (fresh1_not_mem P) (by omega) (Or.inl ⟨(next_prev (vInv hv) hh).symm, rfl⟩)
  exact invC1_congr rfl rfl rfl rfl base

/-!  `join_facet`.  -/

theorem join_facet_next (P : Poly) (h x : Nat) :
    (join_facet P h).1.next x =
      if x = P.prev (P.opp h) then P.next h else
      if x = P.prev h then P.next (P.opp h) else P.next x := rfl

theorem join_facet_prev (P : Poly) (h x : Nat) :
    (join_facet P h).1.prev x =
      if x = P.next h then P.prev (P.opp h) else
      if x = P.next (P.opp h) then P.prev h else P.prev x := rfl

theorem join_facet_opp (P : Poly) (h x : Nat) :
    (join_facet P h).1.opp x = P.opp x := rfl

theorem join_facet_ret (P : Poly) (h : Nat) : (join_facet P h).2 = P.prev h := rfl

theorem join_facet_edges (P : Poly) (h : Nat) :
    (join_facet P h).1.edges = P.edges.filter (fun e => e.1 ≠ h ∧ e.2 ≠ h) := rfl

theorem mem_halfedges_join_facet {P : Poly} {h : Nat} (hv : Valid P)
    (hh : h ∈ halfedges P) (x : Nat) :
    x ∈ halfedges (join_facet P h).1 ↔
      x ∈ halfedges P ∧ x ≠ h ∧ x ≠ P.opp h := by
  have hoo := opp_opp (vInv hv) hh
  constructor
  · intro hx
    rw [halfedges, join_facet_edges, List.mem_flatMap] at hx
    obtain ⟨e, he, hxe⟩ := hx
    rw [List.mem_filter] at he
    obtain ⟨heM, heP⟩ := he
    have hcond : e.1 ≠ h ∧ e.2 ≠ h := by simpa using heP
    have pairs := vPairs hv e heM
    have hxP : x ∈ halfedges P := by
      rw [halfedges, List.mem_flatMap]
      exact ⟨e, heM, hxe⟩
    have hx12 : x = e.1 ∨ x = e.2 := by simpa using hxe
    refine ⟨hxP, ?_, ?_⟩
    · rcases hx12 with rfl | rfl
      · exact hcond.1
      · exact hcond.2
    · intro hxo
      rcases hx12 with rfl | rfl
      · have : e.2 = h := by rw [← pairs.1, hxo, hoo]
        exact hcond.2 this
      · have : e.1 = h := by rw [← pairs.2, hxo, hoo]
        exact hcond.1 this
  · rintro ⟨hxP, hxh, hxo⟩
    rw [halfedges, List.mem_flatMap] at hxP
    obtain ⟨e, heM, hxe⟩ := hxP
    have pairs := vPairs hv e heM
    have hx12 : x = e.1 ∨ x = e.2 := by simpa using hxe
    rw [halfedges, join_facet_edges, List.mem_flatMap]
    refine ⟨e, ?_, hxe⟩
    rw [List.mem_filter]
    refine ⟨heM, ?_⟩
    have h1 : e.1 ≠ h := by
      intro e1h
      rcases hx12 with rfl | rfl
      · exact hxh e1h
      · rw [e1h] at pairs
        exact hxo pairs.1.symm
    have h2 : e.2 ≠ h := by
      intro e2h
      rcases hx12 with rfl | rfl
      · rw [e2h] at pairs
        exact hxo pairs.2.symm
      · exact hxh e2h
    simp [h1, h2]

/-- `join_facet` preserves the halfedge invariants: under validity it
relinks the predecessors of the removed edge consistently. -/
theorem invC1_join_facet {P : Poly} {h : Nat} (hv : Valid P) (hh : h ∈ halfedges P) :
    invC1 (join_facet P h).1 := by
  have inv := vInv hv
  have ho : P.opp h ∈ halfedges P := opp_mem inv hh
  have hoo : P.opp (P.opp h) = h := opp_opp inv hh
  have hhp : P.prev h ∈ halfedges P := prev_mem inv hh
  have hop : P.prev (P.opp h) ∈ halfedges P := prev_mem inv ho
  have hna : P.next (P.opp h) ∈ halfedges P := next_mem inv ho
  have hnb : P.next h ∈ halfedges P := next_mem inv hh
  have f1 : P.prev h ≠ h := prev_ne_self hv hh
  have f2 : P.prev h ≠ P.opp h := prev_ne_opp hv hh
  have f3 : P.prev (P.opp h) ≠ P.opp h := prev_ne_self hv ho
  have f4 : P.prev (P.opp h) ≠ h := by
    intro e
    have hnp := next_prev inv ho
    rw [e] at hnp
    exact no_antenna₂ hv hh hnp
  have f5 : P.next (P.opp h) ≠ h := no_antenna₁ hv hh
  have f6 : P.next (P.opp h) ≠ P.opp h := (vMinDeg hv _ ho).1
  have f7 : P.next h ≠ h := (vMinDeg hv _ hh).1
  have f8 : P.next h ≠ P.opp h := no_antenna₂ hv hh
  have f9 : P.next (P.opp h) ≠ P.next h := by
    intro e
    exact opp_ne inv hh (next_inj inv ho hh e)
  have f10 : P.prev (P.opp h) ≠ P.prev h := by
    intro e
    exact opp_ne inv hh (prev_inj inv ho hh e)
  intro x hx
  rw [mem_halfedges_join_facet hv hh] at hx
  obtain ⟨hxP, hxh, hxo⟩ := hx
  have hox : P.opp x ∈ halfedges P := opp_mem inv hxP
  have hoxh : P.opp x ≠ h := by
    intro e
    apply hxo
    rw [← opp_opp inv hxP, e]
  have hoxo : P.opp x ≠ P.opp h := by
    intro e
    apply hxh
    rw [← opp_opp inv hxP, e, hoo]
  refine ⟨?_, ?_, ?_, ?_, ?_, ?_, ?_⟩
  · rw [join_facet_opp, join_facet_opp]
    exact opp_opp inv hxP
  · rw [join_facet_opp]
    exact opp_ne inv hxP
  · rw [join_facet_opp, mem_halfedges_join_facet hv hh]
    exact ⟨hox, hoxh, hoxo⟩
  · rw [join_facet_next, mem_halfedges_join_facet hv hh]
    by_cases hxop : x = P.prev (P.opp h)
    · rw [if_pos hxop]
      exact ⟨hnb, f7, f8⟩
    by_cases hxhp : x = P.prev h
    · rw [if_neg hxop, if_pos hxhp]
      exact ⟨hna, f5, f6⟩
    · rw [if_neg hxop, if_neg hxhp]
      refine ⟨next_mem inv hxP, ?_, ?_⟩
      · intro e
        apply hxhp
        rw [← prev_next inv hxP, e]
      · intro e
        apply hxop
        rw [← prev_next inv hxP, e]
  · rw [join_facet_prev, mem_halfedges_join_facet hv hh]
    by_cases hxnb : x = P.next h
    · rw [if_pos hxnb]
      exact ⟨hop, f4, f3⟩
    by_cases hxna : x = P.next (P.opp h)
    · rw [if_neg hxnb, if_pos hxna]
      exact ⟨hhp, f1, f2⟩
    · rw [if_neg hxnb, if_neg hxna]
      refine ⟨prev_mem inv hxP, ?_, ?_⟩
      · intro e
        apply hxnb
        rw [← next_prev inv hxP, e]
      · intro e
        apply hxna
        rw [← next_prev inv hxP, e]
  · -- prev' (next' x) = x
    rw [join_facet_next]
    by_cases hxop : x = P.prev (P.opp h)
    · rw [if_pos hxop, join_facet_prev, if_pos rfl, hxop]
    by_cases hxhp : x = P.prev h
    · rw [if_neg hxop, if_pos hxhp, join_facet_prev, if_neg f9, if_pos rfl, hxhp]
    · rw [if_neg hxop, if_neg hxhp, join_facet_prev]
      have g1 : P.next x ≠ P.next h := by
        intro e
        exact hxh (next_inj inv hxP hh e)
      have g2 : P.next x ≠ P.next (P.opp h) := by
        intro e
        exact hxo (next_inj inv hxP ho e)
      rw [if_neg g1, if_neg g2]
      exact prev_next inv hxP
  · -- next' (prev' x) = x
    rw [join_facet_prev]
    by_cases hxnb : x = P.next h
    · rw [if_pos hxnb, join_facet_next, if_pos rfl, hxnb]
    by_cases hxna : x = P.next (P.opp h)
    · rw [if_neg hxnb, if_pos hxna, join_facet_next, if_neg (Ne.symm f10), if_pos rfl, hxna]
    · rw [if_neg hxnb, if_neg hxna, join_facet_next]
      have g1 : P.prev x ≠ P.prev (P.opp h) := by
        intro e
        exact hxo (prev_inj inv hxP ho e)
      have g2 : P.prev x ≠ P.prev h := by
        intro e
        exact hxh (prev_inj inv hxP hh e)
      rw [if_neg g1, if_neg g2]
      exact next_prev inv hxP

/-!  Construction preserves the invariants.  -/

theorem flatMap_pairs_map (b : Nat) (pr : List (Nat × Nat)) :
    (pr.map (fun e => (b + e.1, b + e.2))).flatMap (fun e => [e.1, e.2]) =
      (pr.flatMap (fun e => [e.1, e.2])).map (fun i => b + i) := by
  induction pr with
  | nil => rfl
  | cons e t ih => simp [ih]

theorem halfedges_addBlock (P : Poly) (k nv nf : Nat) (tN tP tO tV : Nat → Nat)
    (tF : Nat → Option Nat) (pr : List (Nat × Nat)) :
    halfedges (addBlock P k nv nf tN tP tO tV tF pr) =
      halfedges P ++
        (pr.flatMap (fun e => [e.1, e.2])).map (fun i => maxHandle P + 1 + i) := by
  show (P.edges ++ pr.map (fun e => (maxHandle P + 1 + e.1, maxHandle P + 1 + e.2))).flatMap
      (fun e => [e.1, e.2]) = _
  rw [List.flatMap_append, flatMap_pairs_map]
  rfl

theorem addBlock_next (P : Poly) (k nv nf : Nat) (tN tP tO tV : Nat → Nat)
    (tF : Nat → Option Nat) (pr : List (Nat × Nat)) (x : Nat) :
    (addBlock P k nv nf tN tP tO tV tF pr).next x =
      if maxHandle P + 1 ≤ x ∧ x < maxHandle P + 1 + k then
        maxHandle P + 1 + tN (x - (maxHandle P + 1)) else P.next x := rfl

theorem addBlock_prev (P : Poly) (k nv nf : Nat) (tN tP tO tV : Nat → Nat)
    (tF : Nat → Option Nat) (pr : List (Nat × Nat)) (x : Nat) :
    (addBlock P k nv nf tN tP tO tV tF pr).prev x =
      if maxHandle P + 1 ≤ x ∧ x < maxHandle P + 1 + k then
        maxHandle P + 1 + tP (x - (maxHandle P + 1)) else P.prev x := rfl

theorem addBlock_opp (P : Poly) (k nv nf : Nat) (tN tP tO tV : Nat → Nat)
    (tF : Nat → Option Nat) (pr : List (Nat × Nat)) (x : Nat) :
    (addBlock P k nv nf tN tP tO tV tF pr).opp x =
      if maxHandle P + 1 ≤ x ∧ x < maxHandle P + 1 + k then
        maxHandle P + 1 + tO (x - (maxHandle P + 1)) else P.opp x := rfl

/-- Appending a self-consistently wired block of fresh halfedges
preserves the halfedge invariants. -/
theorem invC1_addBlock (P : Poly) (k nv nf : Nat) (tN tP tO tV : Nat → Nat)
    (tF : Nat → Option Nat) (pr : List (Nat × Nat)) (inv : invC1 P)
    (htab : ∀ i, i < k → tN i < k ∧ tP i < k ∧ tO i < k ∧ tO (tO i) = i ∧ tO i ≠ i ∧
      tP (tN i) = i ∧ tN (tP i) = i)
    (hpr1 : ∀ e ∈ pr, e.1 < k ∧ e.2 < k)
    (hpr2 : ∀ i, i < k → i ∈ pr.flatMap (fun e => [e.1, e.2])) :
    invC1 (addBlock P k nv nf tN tP tO tV tF pr) := by
  have hflat : ∀ i ∈ pr.flatMap (fun e => [e.1, e.2]), i < k := by
    intro i hi
    rw [List.mem_flatMap] at hi
    obtain ⟨e, he, hie⟩ := hi
    have h12 : i = e.1 ∨ i = e.2 := by simpa using hie
    rcases h12 with rfl | rfl
    · exact (hpr1 e he).1
    · exact (hpr1 e he).2
  have memNew : ∀ i, i < k →
      maxHandle P + 1 + i ∈ halfedges (addBlock P k nv nf tN tP tO tV tF pr) := by
    intro i hik
    rw [halfedges_addBlock, List.mem_append, List.mem_map]
    exact Or.inr ⟨i, hpr2 i hik, rfl⟩
  have memOld : ∀ y, y ∈ halfedges P →
      y ∈ halfedges (addBlock P k nv nf tN tP tO tV tF pr) := by
    intro y hy
    rw [halfedges_addBlock, List.mem_append]
    exact Or.inl hy
  have condOld : ∀ y, y ∈ halfedges P →
      ¬(maxHandle P + 1 ≤ y ∧ y < maxHandle P + 1 + k) := by
    intro y hy
    have := mem_le_maxHandle P y hy
    omega
  intro x hx
  rw [halfedges_addBlock, List.mem_append] at hx
  rcases hx with hxP | hxN
  · have hc := condOld x hxP
    have eo : (addBlock P k nv nf tN tP tO tV tF pr).opp x = P.opp x := by
      rw [addBlock_opp]; exact if_neg hc
    have en : (addBlock P k nv nf tN tP tO tV tF pr).next x = P.next x := by
      rw [addBlock_next]; exact if_neg hc
    have ep : (addBlock P k nv nf tN tP tO tV tF pr).prev x = P.prev x := by
      rw [addBlock_prev]; exact if_neg hc
    have eo2 : (addBlock P k nv nf tN tP tO tV tF pr).opp (P.opp x) = P.opp (P.opp x) := by
      rw [addBlock_opp]; exact if_neg (condOld _ (opp_mem inv hxP))
    have ep2 : (addBlock P k nv nf tN tP tO tV tF pr).prev (P.next x) = P.prev (P.next x) := by
      rw [addBlock_prev]; exact if_neg (condOld _ (next_mem inv hxP))
    have en2 : (addBlock P k nv nf tN tP tO tV tF pr).next (P.prev x) = P.next (P.prev x) := by
      rw [addBlock_next]; exact if_neg (condOld _ (prev_mem inv hxP))
    refine ⟨?_, ?_, ?_, ?_, ?_, ?_, ?_⟩
    · rw [eo, eo2]; exact opp_opp inv hxP
    · rw [eo]; exact opp_ne inv hxP
    · rw [eo]; exact memOld _ (opp_mem inv hxP)
    · rw [en]; exact memOld _ (next_mem inv hxP)
    · rw [ep]; exact memOld _ (prev_mem inv hxP)
    · rw [en, ep2]; exact prev_next inv hxP
    · rw [ep, en2]; exact next_prev inv hxP
  · rw [List.mem_map] at hxN
    obtain ⟨i, hi, rfl⟩ := hxN
    have hik : i < k := hflat i hi
    obtain ⟨t1, t2, t3, t4, t5, t6, t7⟩ := htab i hik
    have evalAt : ∀ j, j < k →
        (addBlock P k nv nf tN tP tO tV tF pr).opp (maxHandle P + 1 + j) =
            maxHandle P + 1 + tO j ∧
        (addBlock P k nv nf tN tP tO tV tF pr).next (maxHandle P + 1 + j) =
            maxHandle P + 1 + tN j ∧
        (addBlock P k nv nf tN tP tO tV tF pr).prev (maxHandle P + 1 + j) =
            maxHandle P + 1 + tP j := by
      intro j hjk
      have hcond : maxHandle P + 1 ≤ maxHandle P + 1 + j ∧
          maxHandle P + 1 + j < maxHandle P + 1 + k := by omega
      have hsub : maxHandle P + 1 + j - (maxHandle P + 1) = j := by omega
      refine ⟨?_, ?_, ?_⟩
      · rw [addBlock_opp, if_pos hcond, hsub]
      · rw [addBlock_next, if_pos hcond, hsub]
      · rw [addBlock_prev, if_pos hcond, hsub]
    obtain ⟨eo, en, ep⟩ := evalAt i hik
    refine ⟨?_, ?_, ?_, ?_, ?_, ?_, ?_⟩
    · rw [eo, (evalAt _ t3).1, t4]
    · rw [eo]; omega
    · rw [eo]; exact memNew _ t3
    · rw [en]; exact memNew _ t1
    · rw [ep]; exact memNew _ t2
    · rw [en, (evalAt _ t1).2.2, t6]
    · rw [ep, (evalAt _ t2).2.1, t7]

/-- `make_tetrahedron` preserves the halfedge invariants. -/
theorem invC1_make_tetrahedron {P : Poly} (inv : invC1 P) :
    invC1 (make_tetrahedron P).1 :=
  invC1_addBlock P 12 4 4 tetN tetP tetO tetV tetF tetPairs inv
    (by decide) (by decide) (by decide)

/-- `make_triangle` preserves the halfedge invariants. -/
theorem invC1_make_triangle {P : Poly} (inv : invC1 P) :
    invC1 (make_triangle P).1 :=
  invC1_addBlock P 6 3 1 triN triP triO triV triF triPairs inv
    (by decide) (by decide) (by decide)

/-!  `normalize_border` permutes the edge sequence only.  -/

theorem swapPair_mem (P : Poly) (e : Nat × Nat) (x : Nat) :
    (x = (swapPair P e).1 ∨ x = (swapPair P e).2) ↔ (x = e.1 ∨ x = e.2) := by
  unfold swapPair
  by_cases hb : isBorder P e.1 <;> simp [hb, or_comm]

theorem mem_halfedges_normalize (P : Poly) (x : Nat) :
    x ∈ halfedges (normalize_border P) ↔ x ∈ halfedges P := by
  show x ∈ ((P.edges.filter (fun e => !(isBorder P e.1 || isBorder P e.2))) ++
      (P.edges.filter (fun e => isBorder P e.1 || isBorder P e.2)).map
        (swapPair P)).flatMap (fun e => [e.1, e.2]) ↔ _
  rw [List.flatMap_append]
  simp only [List.mem_append, List.mem_flatMap, List.mem_map]
  constructor
  · rintro (⟨e, he, hx⟩ | ⟨e', ⟨e, he, rfl⟩, hx⟩)
    · exact List.mem_flatMap.mpr ⟨e, (List.mem_filter.mp he).1, hx⟩
    · refine List.mem_flatMap.mpr ⟨e, (List.mem_filter.mp he).1, ?_⟩
      have h1 : x = e.1 ∨ x = e.2 := (swapPair_mem P e x).mp (by simpa using hx)
      simpa using h1
  · intro hxP
    obtain ⟨e, he, hx⟩ := List.mem_flatMap.mp hxP
    by_cases hb : (isBorder P e.1 || isBorder P e.2) = true
    · right
      refine ⟨swapPair P e, ⟨e, List.mem_filter.mpr ⟨he, hb⟩, rfl⟩, ?_⟩
      have h1 : x = (swapPair P e).1 ∨ x = (swapPair P e).2 :=
        (swapPair_mem P e x).mpr (by simpa using hx)
      simpa using h1
    · left
      exact ⟨e, List.mem_filter.mpr ⟨he, by simpa using hb⟩, hx⟩

/-- `normalize_border` preserves the halfedge invariants. -/
theorem invC1_normalize_border {P : Poly} (inv : invC1 P) :
    invC1 (normalize_border P) := by
  intro x hx
  rw [mem_halfedges_normalize] at hx
  obtain ⟨c1, c2, c3, c4, c5, c6, c7⟩ := inv x hx
  refine ⟨c1, c2, ?_, ?_, ?_, c6, c7⟩
  · rw [mem_halfedges_normalize]
    exact c3
  · rw [mem_halfedges_normalize]
    exact c4
  · rw [mem_halfedges_normalize]
    exact c5

/-- `clear` trivially satisfies the halfedge invariants. -/
theorem invC1_clear (P : Poly) : invC1 (clear P) := by
  intro x hx
  simp [halfedges, clear, emptyPoly] at hx

/-!  Characterization of the cycle walker.  -/

/-- `followsTo nx start cur L` says that from `cur` the map `nx` steps
through exactly the list `L` and then reaches `start`, without touching
`start` in between. -/
def followsTo (nx : Nat → Nat) (start : Nat) : Nat → List Nat → Prop
  | cur, [] => nx cur = start
  | cur, a :: L => nx cur = a ∧ a ≠ start ∧ followsTo nx start a L

theorem cycleFrom_eq (nx : Nat → Nat) (start : Nat) :
    ∀ (L : List Nat) (cur fuel : Nat), followsTo nx start cur L → L.length ≤ fuel →
      cycleFrom nx start fuel cur = cur :: L := by
  intro L
  induction L with
  | nil =>
    intro cur fuel hf _
    cases fuel with
    | zero => rfl
    | succ f =>
      have hf' : nx cur = start := hf
      show cur :: (if nx cur = start then [] else _) = _
      rw [if_pos hf']
  | cons a L ih =>
    intro cur fuel hf hlen
    obtain ⟨h1, h2, h3⟩ := hf
    cases fuel with
    | zero => simp at hlen
    | succ f =>
      show cur :: (if nx cur = start then [] else cycleFrom nx start f (nx cur)) = _
      have hns : nx cur ≠ start := by rw [h1]; exact h2
      rw [if_neg hns, h1, ih a f h3 (by simpa using hlen)]

theorem length_halfedges (P : Poly) : (halfedges P).length = 2 * P.edges.length := by
  show (P.edges.flatMap (fun e => [e.1, e.2])).length = _
  induction P.edges with
  | nil => rfl
  | cons e t ih => simp [ih]; omega

/-!  Orbits of `next`.  -/

theorem iterate_next_mem {P : Poly} (inv : invC1 P) {h : Nat} (hh : h ∈ halfedges P) :
    ∀ i, P.next^[i] h ∈ halfedges P := by
  intro i
  induction i with
  | zero => exact hh
  | succ n ihn =>
    rw [Function.iterate_succ_apply']
    exact next_mem inv ihn

theorem iterate_next_cancel {P : Poly} (inv : invC1 P) {x y : Nat}
    (hx : x ∈ halfedges P) (hy : y ∈ halfedges P) :
    ∀ a, P.next^[a] x = P.next^[a] y → x = y := by
  intro a
  induction a with
  | zero => exact fun e => e
  | succ n ihn =>
    intro e
    rw [Function.iterate_succ_apply', Function.iterate_succ_apply'] at e
    exact ihn (next_inj inv (iterate_next_mem inv hx n) (iterate_next_mem inv hy n) e)

/-- Up to the first time the orbit of `h` reaches `g`, the iterates of
`next` are pairwise distinct. -/
theorem reach_distinct {P : Poly} (inv : invC1 P) {h g : Nat} (hh : h ∈ halfedges P)
    (hne : h ≠ g) (hex : ∃ m, P.next^[m + 1] h = g) :
    ∀ a b, a < b → b ≤ Nat.find hex + 1 → P.next^[a] h ≠ P.next^[b] h := by
  intro a b hab hbm e
  have hper : P.next^[b - a] h = h := by
    have hb : b = a + (b - a) := by omega
    rw [hb, Function.iterate_add_apply] at e
    exact (iterate_next_cancel inv hh (iterate_next_mem inv hh _) a e).symm
  have hp0 : 0 < b - a := by omega
  have hIsPer : Function.IsPeriodicPt P.next (b - a) h := hper
  have hmod : P.next^[(Nat.find hex + 1) % (b - a)] h = P.next^[Nat.find hex + 1] h :=
    hIsPer.iterate_mod_apply _
  have hg : P.next^[(Nat.find hex + 1) % (b - a)] h = g := by
    rw [hmod]
    exact Nat.find_spec hex
  rcases Nat.eq_zero_or_pos ((Nat.find hex + 1) % (b - a)) with hr | hr
  · rw [hr] at hg
    exact hne hg
  · have hrlt : (Nat.find hex + 1) % (b - a) < b - a := Nat.mod_lt _ hp0
    have hsm : (Nat.find hex + 1) % (b - a) - 1 < Nat.find hex := by omega
    have := Nat.find_min hex hsm
    apply this
    have hrr : (Nat.find hex + 1) % (b - a) - 1 + 1 = (Nat.find hex + 1) % (b - a) := by
      omega
    rw [hrr]
    exact hg

theorem iterate_fct {P : Poly} (hv : Valid P) {h : Nat} (hh : h ∈ halfedges P) :
    ∀ i, P.fct (P.next^[i] h) = P.fct h := by
  intro i
  induction i with
  | zero => rfl
  | succ n ihn =>
    rw [Function.iterate_succ_apply']
    rw [vFctNext hv _ (iterate_next_mem (vInv hv) hh n)]
    exact ihn

/-!  The walk performed by `split_facet`: starting at the fresh halfedge
`v`, the rewired `next` steps through exactly the old stretch of the
facet cycle from `h->next()` to `g` and then returns to `v`.  -/

theorem split_facet_loop {P : Poly} {h g : Nat} (hv : Valid P)
    (hh : h ∈ halfedges P) (hg : g ∈ halfedges P) (hne : h ≠ g)
    (hex : ∃ m, P.next^[m + 1] h = g) :
    cycleFrom
        (insertEdge P h g (maxHandle P + 1) (maxHandle P + 2) (P.next g) (P.next h)).next
        (maxHandle P + 2)
        (fuelOf (insertEdge P h g (maxHandle P + 1) (maxHandle P + 2) (P.next g) (P.next h)))
        (maxHandle P + 2) =
      (maxHandle P + 2) ::
        (List.range (Nat.find hex + 1)).map (fun i => P.next^[i + 1] h) := by
  have inv := vInv hv
  have hgm : P.next^[Nat.find hex + 1] h = g := Nat.find_spec hex
  have hdist := reach_distinct inv hh hne hex
  have hmemI : ∀ i, P.next^[i] h ∈ halfedges P := iterate_next_mem inv hh
  have hQnext : ∀ z, z ∈ halfedges P → z ≠ h → z ≠ g →
      (insertEdge P h g (maxHandle P + 1) (maxHandle P + 2) (P.next g) (P.next h)).next z =
        P.next z := by
    intro z hz hzh hzg
    rw [insertEdge_next, if_neg (maxHandle_lt_fresh P 1 z hz),
      if_neg (maxHandle_lt_fresh P 0 z hz), if_neg hzg, if_neg hzh]
  have hQnextg :
      (insertEdge P h g (maxHandle P + 1) (maxHandle P + 2) (P.next g) (P.next h)).next g =
        maxHandle P + 2 := by
    rw [insertEdge_next, if_neg (maxHandle_lt_fresh P 1 g hg),
      if_neg (maxHandle_lt_fresh P 0 g hg), if_pos rfl]
  have hQnextv :
      (insertEdge P h g (maxHandle P + 1) (maxHandle P + 2) (P.next g) (P.next h)).next
        (maxHandle P + 2) = P.next h := by
    rw [insertEdge_next, if_pos rfl]
  have aux : ∀ d j, j + d = Nat.find hex →
      followsTo
        (insertEdge P h g (maxHandle P + 1) (maxHandle P + 2) (P.next g) (P.next h)).next
        (maxHandle P + 2) (P.next^[j + 1] h)
        ((List.range (Nat.find hex - j)).map (fun i => P.next^[j + 2 + i] h)) := by
    intro d
    induction d with
    | zero =>
      intro j hj
      have hj' : j = Nat.find hex := by omega
      subst hj'
      have hz : Nat.find hex - Nat.find hex = 0 := by omega
      rw [hz]
      show (insertEdge P h g _ _ _ _).next (P.next^[Nat.find hex + 1] h) = maxHandle P + 2
      rw [hgm, hQnextg]
    | succ d ihd =>
      intro j hj
      have hjm : j < Nat.find hex := by omega
      have hrange : Nat.find hex - j = d + 1 := by omega
      rw [hrange, List.range_succ_eq_map, List.map_cons, List.map_map]
      have htail : (List.range d).map ((fun i => P.next^[j + 2 + i] h) ∘ Nat.succ) =
          (List.range d).map (fun i => P.next^[j + 1 + 2 + i] h) := by
        apply List.map_congr_left
        intro i _
        show P.next^[j + 2 + (i + 1)] h = P.next^[j + 1 + 2 + i] h
        rw [show j + 2 + (i + 1) = j + 1 + 2 + i from by omega]
      rw [htail]
      have hd : Nat.find hex - (j + 1) = d := by omega
      have ih := ihd (j + 1) (by omega)
      rw [hd] at ih
      refine ⟨?_, ?_, ih⟩
      · have hz : P.next^[j + 1] h ∈ halfedges P := hmemI _
        have hzh : P.next^[j + 1] h ≠ h := by
          intro e
          exact hdist 0 (j + 1) (by omega) (by omega) e.symm
        have hzg : P.next^[j + 1] h ≠ g := by
          intro e
          rw [← hgm] at e
          exact hdist (j + 1) (Nat.find hex + 1) (by omega) (by omega) e
        rw [hQnext _ hz hzh hzg]
        exact (Function.iterate_succ_apply' P.next (j + 1) h).symm
      · rw [show j + 2 + 0 = j + 2 from by omega]
        exact maxHandle_lt_fresh P 1 _ (hmemI _)
  have hfollow : followsTo
      (insertEdge P h g (maxHandle P + 1) (maxHandle P + 2) (P.next g) (P.next h)).next
      (maxHandle P + 2) (maxHandle P + 2)
      ((List.range (Nat.find hex + 1)).map (fun i => P.next^[i + 1] h)) := by
    rw [List.range_succ_eq_map, List.map_cons, List.map_map]
    have htail : (List.range (Nat.find hex)).map ((fun i => P.next^[i + 1] h) ∘ Nat.succ) =
        (List.range (Nat.find hex)).map (fun i => P.next^[0 + 2 + i] h) := by
      apply List.map_congr_left
      intro i _
      show P.next^[i + 1 + 1] h = P.next^[0 + 2 + i] h
      rw [show i + 1 + 1 = 0 + 2 + i from by omega]
    rw [htail]
    have ih := aux (Nat.find hex) 0 (by omega)
    have hd : Nat.find hex - 0 = Nat.find hex := by omega
    rw [hd] at ih
    have ih' : followsTo
        (insertEdge P h g (maxHandle P + 1) (maxHandle P + 2) (P.next g) (P.next h)).next
        (maxHandle P + 2) (P.next^[0 + 1] h)
        ((List.range (Nat.find hex)).map (fun i => P.next^[0 + 2 + i] h)) := ih
    refine ⟨?_, ?_, ih'⟩
    · rw [hQnextv]
      show P.next h = P.next^[0 + 1] h
      rw [show (0 : Nat) + 1 = 1 from rfl, Function.iterate_one]
    · exact maxHandle_lt_fresh P 1 _ (hmemI _)
  have hnodup : ((List.range (Nat.find hex + 1)).map (fun i => P.next^[i + 1] h)).Nodup := by
    apply List.Nodup.map_on _ (List.nodup_range (Nat.find hex + 1))
    intro a ha b hb e
    rw [List.mem_range] at ha hb
    by_contra hab
    rcases Nat.lt_or_ge a b with hlt | hge
    · exact hdist (a + 1) (b + 1) (by omega) (by omega) e
    · have hlt : b < a := by omega
      exact hdist (b + 1) (a + 1) (by omega) (by omega) e.symm
  have hsub : ((List.range (Nat.find hex + 1)).map (fun i => P.next^[i + 1] h)) ⊆
      halfedges P := by
    intro x hx
    rw [List.mem_map] at hx
    obtain ⟨i, _, rfl⟩ := hx
    exact hmemI _
  have hlenle : Nat.find hex + 1 ≤ (halfedges P).length := by
    have := (List.subperm_of_subset hnodup hsub).length_le
    simpa using this
  have hlen : ((List.range (Nat.find hex + 1)).map (fun i => P.next^[i + 1] h)).length ≤
      fuelOf (insertEdge P h g (maxHandle P + 1) (maxHandle P + 2) (P.next g) (P.next h)) := by
    rw [List.length_map, List.length_range]
    have hE : (halfedges P).length = 2 * P.edges.length := length_halfedges P
    show Nat.find hex + 1 ≤ 2 * (P.edges ++ [(maxHandle P + 1, maxHandle P + 2)]).length + 2
    rw [List.length_append]
    omega
  exact cycleFrom_eq _ _ _ _ _ hfollow hlen

/-!  Field evaluations for `split_facet`.  -/

theorem split_facet_ret (P : Poly) (h g : Nat) :
    (split_facet P h g).2 = maxHandle P + 1 := rfl

theorem split_facet_edges (P : Poly) (h g : Nat) :
    (split_facet P h g).1.edges = P.edges ++ [(maxHandle P + 1, maxHandle P + 2)] := rfl

theorem split_facet_verts (P : Poly) (h g : Nat) :
    (split_facet P h g).1.verts = P.verts := rfl

theorem split_facet_facets (P : Poly) (h g : Nat) :
    (split_facet P h g).1.facets = P.facets ++ [maxFacet P + 1] := rfl

theorem split_facet_next (P : Poly) (h g x : Nat) :
    (split_facet P h g).1.next x =
      (insertEdge P h g (maxHandle P + 1) (maxHandle P + 2) (P.next g) (P.next h)).next x :=
  rfl

theorem split_facet_prev (P : Poly) (h g x : Nat) :
    (split_facet P h g).1.prev x =
      (insertEdge P h g (maxHandle P + 1) (maxHandle P + 2) (P.next g) (P.next h)).prev x :=
  rfl

theorem split_facet_opp (P : Poly) (h g x : Nat) :
    (split_facet P h g).1.opp x =
      (insertEdge P h g (maxHandle P + 1) (maxHandle P + 2) (P.next g) (P.next h)).opp x :=
  rfl

theorem split_facet_vtx (P : Poly) (h g x : Nat) :
    (split_facet P h g).1.vtx x =
      upd (upd P.vtx (maxHandle P + 1) (P.vtx g)) (maxHandle P + 2) (P.vtx h) x := rfl

theorem split_facet_fct (P : Poly) (h g x : Nat) :
    (split_facet P h g).1.fct x =
      if x ∈ cycleFrom
          (insertEdge P h g (maxHandle P + 1) (maxHandle P + 2) (P.next g) (P.next h)).next
          (maxHandle P + 2)
          (fuelOf (insertEdge P h g (maxHandle P + 1) (maxHandle P + 2) (P.next g) (P.next h)))
          (maxHandle P + 2)
        then some (maxFacet P + 1)
      else if x = maxHandle P + 1 then P.fct h else P.fct x := rfl

theorem halfedges_split_facet (P : Poly) (h g : Nat) :
    halfedges (split_facet P h g).1 =
      halfedges P ++ [maxHandle P + 1, maxHandle P + 2] := by
  show (P.edges ++ [(maxHandle P + 1, maxHandle P + 2)]).flatMap (fun e => [e.1, e.2]) = _
  rw [List.flatMap_append]
  rfl

theorem edge_fst_mem {P : Poly} {e : Nat × Nat} (he : e ∈ P.edges) : e.1 ∈ halfedges P := by
  rw [halfedges, List.mem_flatMap]
  exact ⟨e, he, by simp⟩

theorem edge_snd_mem {P : Poly} {e : Nat × Nat} (he : e ∈ P.edges) : e.2 ∈ halfedges P := by
  rw [halfedges, List.mem_flatMap]
  exact ⟨e, he, by simp⟩

theorem join_facet_fct (P : Poly) (h x : Nat) :
    (join_facet P h).1.fct x =
      if P.fct x = P.fct (P.opp h) then P.fct h else P.fct x := rfl

theorem join_facet_verts (P : Poly) (h : Nat) : (join_facet P h).1.verts = P.verts := rfl

theorem join_facet_vtx (P : Poly) (h x : Nat) : (join_facet P h).1.vtx x = P.vtx x := rfl

theorem join_facet_facets_some (P : Poly) (h f : Nat) (e : P.fct (P.opp h) = some f) :
    (join_facet P h).1.facets = P.facets.filter (fun x => x ≠ f) := by
  show (match P.fct (P.opp h) with
    | some f => P.facets.filter (fun x => x ≠ f)
    | none => P.facets) = _
  rw [e]

/-!  Post-split evaluations at the fresh pair, under the precondition of
`split_facet`.  -/

theorem split_prev_u (P : Poly) (h g : Nat) :
    (split_facet P h g).1.prev (maxHandle P + 1) = h := by
  rw [split_facet_prev, insertEdge_prev, if_neg (by omega : maxHandle P + 1 ≠ maxHandle P + 2),
    if_pos rfl]

theorem split_prev_v (P : Poly) (h g : Nat) :
    (split_facet P h g).1.prev (maxHandle P + 2) = g := by
  rw [split_facet_prev, insertEdge_prev, if_pos rfl]

theorem split_opp_u (P : Poly) (h g : Nat) :
    (split_facet P h g).1.opp (maxHandle P + 1) = maxHandle P + 2 := by
  rw [split_facet_opp, insertEdge_opp, if_neg (by omega : maxHandle P + 1 ≠ maxHandle P + 2),
    if_pos rfl]

theorem split_next_u (P : Poly) (h g : Nat) :
    (split_facet P h g).1.next (maxHandle P + 1) = P.next g := by
  rw [split_facet_next, insertEdge_next, if_neg (by omega : maxHandle P + 1 ≠ maxHandle P + 2),
    if_pos rfl]

theorem split_next_v (P : Poly) (h g : Nat) :
    (split_facet P h g).1.next (maxHandle P + 2) = P.next h := by
  rw [split_facet_next, insertEdge_next, if_pos rfl]

theorem cycleFrom_head_mem (nx : Nat → Nat) (start fuel cur : Nat) :
    cur ∈ cycleFrom nx start fuel cur := by
  cases fuel with
  | zero => exact List.mem_singleton.mpr rfl
  | succ f => exact List.mem_cons_self _ _

theorem split_fct_v (P : Poly) (h g : Nat) :
    (split_facet P h g).1.fct (maxHandle P + 2) = some (maxFacet P + 1) := by
  rw [split_facet_fct, if_pos (cycleFrom_head_mem _ _ _ _)]

theorem split_fct_u {P : Poly} {h g : Nat} (hv : Valid P)
    (hh : h ∈ halfedges P) (hg : g ∈ halfedges P) (hne : h ≠ g)
    (hex : ∃ m, P.next^[m + 1] h = g) :
    (split_facet P h g).1.fct (maxHandle P + 1) = P.fct h := by
  rw [split_facet_fct, split_facet_loop hv hh hg hne hex]
  have hnm : maxHandle P + 1 ∉
      (maxHandle P + 2) ::
        (List.range (Nat.find hex + 1)).map (fun i => P.next^[i + 1] h) := by
    intro hm
    rcases List.mem_cons.mp hm with he | hm
    · omega
    · rw [List.mem_map] at hm
      obtain ⟨i, _, hi⟩ := hm
      exact fresh1_not_mem P (hi ▸ iterate_next_mem (vInv hv) hh (i + 1))
  rw [if_neg hnm, if_pos rfl]

/-- The split/join round trip: `join_facet` applied to the diagonal
returned by `split_facet` returns `h` and restores every component of
the polyhedron on the live handles. -/
theorem split_join_roundtrip {P : Poly} {h g : Nat} (hv : Valid P)
    (hh : h ∈ halfedges P) (hg : g ∈ halfedges P) (hne : h ≠ g)
    (hex : ∃ m, P.next^[m + 1] h = g) :
    (join_facet (split_facet P h g).1 (split_facet P h g).2).2 = h ∧
    (join_facet (split_facet P h g).1 (split_facet P h g).2).1.edges = P.edges ∧
    (join_facet (split_facet P h g).1 (split_facet P h g).2).1.verts = P.verts ∧
    (join_facet (split_facet P h g).1 (split_facet P h g).2).1.facets = P.facets ∧
    (∀ x ∈ halfedges P,
      (join_facet (split_facet P h g).1 (split_facet P h g).2).1.next x = P.next x ∧
      (join_facet (split_facet P h g).1 (split_facet P h g).2).1.prev x = P.prev x ∧
      (join_facet (split_facet P h g).1 (split_facet P h g).2).1.opp x = P.opp x ∧
      (join_facet (split_facet P h g).1 (split_facet P h g).2).1.vtx x = P.vtx x ∧
      (join_facet (split_facet P h g).1 (split_facet P h g).2).1.fct x = P.fct x) := by
  have inv := vInv hv
  have A1 := split_prev_u P h g
  have A2 := split_prev_v P h g
  have A3 := split_opp_u P h g
  have A4 := split_next_u P h g
  have A5 := split_next_v P h g
  have A6 := split_fct_v P h g
  have A7 := split_fct_u hv hh hg hne hex
  have hfreshu : ∀ x ∈ halfedges P, x ≠ maxHandle P + 1 :=
    fun x hx => maxHandle_lt_fresh P 0 x hx
  have hfreshv : ∀ x ∈ halfedges P, x ≠ maxHandle P + 2 :=
    fun x hx => maxHandle_lt_fresh P 1 x hx
  rw [split_facet_ret]
  refine ⟨?_, ?_, ?_, ?_, ?_⟩
  · rw [join_facet_ret]
    exact A1
  · rw [join_facet_edges, split_facet_edges, List.filter_append]
    have hone : [(maxHandle P + 1, maxHandle P + 2)].filter
        (fun e => decide (e.1 ≠ maxHandle P + 1 ∧ e.2 ≠ maxHandle P + 1)) = [] := by
      simp
    have hkeep : P.edges.filter
        (fun e => decide (e.1 ≠ maxHandle P + 1 ∧ e.2 ≠ maxHandle P + 1)) = P.edges := by
      rw [List.filter_eq_self]
      intro e he
      have f1 := hfreshu e.1 (edge_fst_mem he)
      have f2 := hfreshu e.2 (edge_snd_mem he)
      simp [f1, f2]
    rw [hone, hkeep, List.append_nil]
  · rw [join_facet_verts, split_facet_verts]
  · rw [join_facet_facets_some _ _ (maxFacet P + 1) (by rw [A3]; exact A6),
      split_facet_facets, List.filter_append]
    have hone : [maxFacet P + 1].filter (fun x => decide (x ≠ maxFacet P + 1)) = [] := by
      simp
    have hkeep : P.facets.filter (fun x => decide (x ≠ maxFacet P + 1)) = P.facets := by
      rw [List.filter_eq_self]
      intro f hf
      have hle : f ≤ maxFacet P := le_foldr_max P.facets f hf
      simp
      omega
    rw [hone, hkeep, List.append_nil]
  · intro x hxP
    have hxu : x ≠ maxHandle P + 1 := hfreshu x hxP
    have hxv : x ≠ maxHandle P + 2 := hfreshv x hxP
    refine ⟨?_, ?_, ?_, ?_, ?_⟩
    · rw [join_facet_next, A3, A2, A1, A4, A5]
      by_cases hxg : x = g
      · rw [if_pos hxg, hxg]
      by_cases hxh : x = h
      · rw [if_neg hxg, if_pos hxh, hxh]
      · rw [if_neg hxg, if_neg hxh, split_facet_next, insertEdge_next,
          if_neg hxv, if_neg hxu, if_neg hxg, if_neg hxh]
    · rw [join_facet_prev, A3, A4, A5, A2, A1]
      by_cases hx1 : x = P.next g
      · rw [if_pos hx1, hx1]
        exact (prev_next inv hg).symm
      by_cases hx2 : x = P.next h
      · rw [if_neg hx1, if_pos hx2, hx2]
        exact (prev_next inv hh).symm
      · rw [if_neg hx1, if_neg hx2, split_facet_prev, insertEdge_prev,
          if_neg hxv, if_neg hxu, if_neg hx2, if_neg hx1]
    · rw [join_facet_opp, split_facet_opp, insertEdge_opp, if_neg hxv, if_neg hxu]
    · rw [join_facet_vtx, split_facet_vtx, upd_ne _ _ _ _ hxv, upd_ne _ _ _ _ hxu]
    · rw [join_facet_fct, A3, A6, A7]
      rw [split_facet_fct, split_facet_loop hv hh hg hne hex]
      by_cases hxS : x ∈ (List.range (Nat.find hex + 1)).map (fun i => P.next^[i + 1] h)
      · rw [if_pos (List.mem_cons_of_mem _ hxS), if_pos rfl]
        obtain ⟨i, _, rfl⟩ := List.mem_map.mp hxS
        exact (iterate_fct hv hh (i + 1)).symm
      · have hxcons : x ∉ (maxHandle P + 2) ::
            (List.range (Nat.find hex + 1)).map (fun i => P.next^[i + 1] h) := by
          intro hm
          rcases List.mem_cons.mp hm with he | hm
          · exact hxv he
          · exact hxS hm
        rw [if_neg hxcons, if_neg hxu, if_neg (fct_ne_fresh hv hxP 0)]

/-!  `split_edge` is the vertex split applied at `(h->prev(), h->opposite())`.  -/

theorem maxVert_not_mem (P : Poly) : maxVert P + 1 ∉ P.verts := by
  intro m
  have h1 : maxVert P + 1 ≤ maxVert P := le_foldr_max P.verts _ m
  omega

theorem split_vertex_parts (P : Poly) (h g : Nat) :
    (split_vertex P h g).1.edges = P.edges ++ [(maxHandle P + 2, maxHandle P + 1)] ∧
    (split_vertex P h g).1.verts = P.verts ++ [maxVert P + 1] ∧
    (split_vertex P h g).1.facets = P.facets ∧
    (split_vertex P h g).2 = maxHandle P + 1 := ⟨rfl, rfl, rfl, rfl⟩

theorem split_vertex_next (P : Poly) (h g x : Nat) :
    (split_vertex P h g).1.next x =
      (insertEdge P h g (maxHandle P + 2) (maxHandle P + 1) (P.next h) (P.next g)).next x :=
  rfl

theorem split_vertex_prev (P : Poly) (h g x : Nat) :
    (split_vertex P h g).1.prev x =
      (insertEdge P h g (maxHandle P + 2) (maxHandle P + 1) (P.next h) (P.next g)).prev x :=
  rfl

theorem split_vertex_opp (P : Poly) (h g x : Nat) :
    (split_vertex P h g).1.opp x =
      (insertEdge P h g (maxHandle P + 2) (maxHandle P + 1) (P.next h) (P.next g)).opp x :=
  rfl

theorem split_vertex_fct (P : Poly) (h g x : Nat) :
    (split_vertex P h g).1.fct x =
      if x = maxHandle P + 1 then P.fct g
      else if x = maxHandle P + 2 then P.fct h else P.fct x := rfl

theorem split_vertex_vtx (P : Poly) (h g x : Nat) :
    (split_vertex P h g).1.vtx x =
      if x ∈ cycleFrom
          (fun y =>
            (insertEdge P h g (maxHandle P + 2) (maxHandle P + 1) (P.next h) (P.next g)).opp
              ((insertEdge P h g (maxHandle P + 2) (maxHandle P + 1)
                (P.next h) (P.next g)).next y))
          (maxHandle P + 2)
          (fuelOf (insertEdge P h g (maxHandle P + 2) (maxHandle P + 1) (P.next h) (P.next g)))
          (maxHandle P + 2)
        then maxVert P + 1
      else if x = maxHandle P + 1 then P.vtx h
      else if x = maxHandle P + 2 then P.vtx g else P.vtx x := rfl

theorem split_edge_parts (P : Poly) (h : Nat) :
    (split_edge P h).1.edges = P.edges ++ [(maxHandle P + 2, maxHandle P + 1)] ∧
    (split_edge P h).1.verts = P.verts ++ [maxVert P + 1] ∧
    (split_edge P h).1.facets = P.facets ∧
    (split_edge P h).2 = maxHandle P + 2 := ⟨rfl, rfl, rfl, rfl⟩

theorem split_edge_next (P : Poly) (h x : Nat) :
    (split_edge P h).1.next x =
      (insertEdge P (P.prev h) (P.opp h) (maxHandle P + 2) (maxHandle P + 1)
        h (P.next (P.opp h))).next x := rfl

theorem split_edge_prev (P : Poly) (h x : Nat) :
    (split_edge P h).1.prev x =
      (insertEdge P (P.prev h) (P.opp h) (maxHandle P + 2) (maxHandle P + 1)
        h (P.next (P.opp h))).prev x := rfl

theorem split_edge_opp (P : Poly) (h x : Nat) :
    (split_edge P h).1.opp x =
      (insertEdge P (P.prev h) (P.opp h) (maxHandle P + 2) (maxHandle P + 1)
        h (P.next (P.opp h))).opp x := rfl

theorem split_edge_fct (P : Poly) (h x : Nat) :
    (split_edge P h).1.fct x =
      if x = maxHandle P + 1 then P.fct (P.opp h)
      else if x = maxHandle P + 2 then P.fct h else P.fct x := rfl

theorem split_edge_vtx (P : Poly) (h x : Nat) :
    (split_edge P h).1.vtx x =
      if x = maxHandle P + 2 then maxVert P + 1
      else if x = P.opp h then maxVert P + 1
      else if x = maxHandle P + 1 then P.vtx (P.prev h) else P.vtx x := rfl

/-- The vertex-circulator walk performed by
`split_vertex (h->prev()) (h->opposite())` visits exactly the fresh
halfedge and `h->opposite()`. -/
theorem split_vertex_loop_edge {P : Poly} {h : Nat} (hv : Valid P)
    (hh : h ∈ halfedges P) :
    cycleFrom
        (fun y =>
          (insertEdge P (P.prev h) (P.opp h) (maxHandle P + 2) (maxHandle P + 1)
            (P.next (P.prev h)) (P.next (P.opp h))).opp
            ((insertEdge P (P.prev h) (P.opp h) (maxHandle P + 2) (maxHandle P + 1)
              (P.next (P.prev h)) (P.next (P.opp h))).next y))
        (maxHandle P + 2)
        (fuelOf (insertEdge P (P.prev h) (P.opp h) (maxHandle P + 2) (maxHandle P + 1)
          (P.next (P.prev h)) (P.next (P.opp h))))
        (maxHandle P + 2) =
      [maxHandle P + 2, P.opp h] := by
  have inv := vInv hv
  have hb : P.opp h ∈ halfedges P := opp_mem inv hh
  have hbu : P.opp h ≠ maxHandle P + 2 := maxHandle_lt_fresh P 1 _ hb
  have hbv : P.opp h ≠ maxHandle P + 1 := maxHandle_lt_fresh P 0 _ hb
  have hhu : h ≠ maxHandle P + 2 := maxHandle_lt_fresh P 1 _ hh
  have hhv : h ≠ maxHandle P + 1 := maxHandle_lt_fresh P 0 _ hh
  have hstep1 :
      (insertEdge P (P.prev h) (P.opp h) (maxHandle P + 2) (maxHandle P + 1)
        (P.next (P.prev h)) (P.next (P.opp h))).opp
        ((insertEdge P (P.prev h) (P.opp h) (maxHandle P + 2) (maxHandle P + 1)
          (P.next (P.prev h)) (P.next (P.opp h))).next (maxHandle P + 2)) = P.opp h := by
    rw [insertEdge_next, if_neg (by omega : maxHandle P + 2 ≠ maxHandle P + 1), if_pos rfl,
      next_prev inv hh, insertEdge_opp, if_neg hhv, if_neg hhu]
  have hstep2 :
      (insertEdge P (P.prev h) (P.opp h) (maxHandle P + 2) (maxHandle P + 1)
        (P.next (P.prev h)) (P.next (P.opp h))).opp
        ((insertEdge P (P.prev h) (P.opp h) (maxHandle P + 2) (maxHandle P + 1)
          (P.next (P.prev h)) (P.next (P.opp h))).next (P.opp h)) = maxHandle P + 2 := by
    rw [insertEdge_next, if_neg hbv, if_neg hbu, if_pos rfl, insertEdge_opp, if_pos rfl]
  have hfollow : followsTo
      (fun y =>
        (insertEdge P (P.prev h) (P.opp h) (maxHandle P + 2) (maxHandle P + 1)
          (P.next (P.prev h)) (P.next (P.opp h))).opp
          ((insertEdge P (P.prev h) (P.opp h) (maxHandle P + 2) (maxHandle P + 1)
            (P.next (P.prev h)) (P.next (P.opp h))).next y))
      (maxHandle P + 2) (maxHandle P + 2) [P.opp h] :=
    ⟨hstep1, hbu, hstep2⟩
  have hlen : ([P.opp h] : List Nat).length ≤
      fuelOf (insertEdge P (P.prev h) (P.opp h) (maxHandle P + 2) (maxHandle P + 1)
        (P.next (P.prev h)) (P.next (P.opp h))) := by
    show 1 ≤ 2 * (P.edges ++ [(maxHandle P + 2, maxHandle P + 1)]).length + 2
    omega
  exact cycleFrom_eq _ _ _ _ _ hfollow hlen

/-- `split_edge h` agrees with
`split_vertex (h->prev()) (h->opposite())` followed by taking the
opposite of the returned halfedge. -/
theorem split_edge_eq_split_vertex {P : Poly} {h : Nat} (hv : Valid P)
    (hh : h ∈ halfedges P) :
    split_edge P h =
      ((split_vertex P (P.prev h) (P.opp h)).1,
        (split_vertex P (P.prev h) (P.opp h)).1.opp
          (split_vertex P (P.prev h) (P.opp h)).2) := by
  have inv := vInv hv
  have hb : P.opp h ∈ halfedges P := opp_mem inv hh
  have ha : P.prev h ∈ halfedges P := prev_mem inv hh
  have hnp : P.next (P.prev h) = h := next_prev inv hh
  have hbu : P.opp h ≠ maxHandle P + 2 := maxHandle_lt_fresh P 1 _ hb
  have hbv : P.opp h ≠ maxHandle P + 1 := maxHandle_lt_fresh P 0 _ hb
  have hfa : P.fct (P.prev h) = P.fct h := by
    have := vFctNext hv _ ha
    rw [hnp] at this
    exact this.symm
  refine Prod.ext ?_ ?_
  · apply Poly.ext
    · rfl
    · rfl
    · rfl
    · funext x
      show (split_edge P h).1.opp x = (split_vertex P (P.prev h) (P.opp h)).1.opp x
      rw [split_edge_opp, split_vertex_opp, hnp]
    · funext x
      show (split_edge P h).1.next x = (split_vertex P (P.prev h) (P.opp h)).1.next x
      rw [split_edge_next, split_vertex_next, hnp]
    · funext x
      show (split_edge P h).1.prev x = (split_vertex P (P.prev h) (P.opp h)).1.prev x
      rw [split_edge_prev, split_vertex_prev, hnp]
    · funext x
      show (split_edge P h).1.vtx x = (split_vertex P (P.prev h) (P.opp h)).1.vtx x
      rw [split_edge_vtx, split_vertex_vtx]
      have hloop :
          cycleFrom
            (fun y =>
              (insertEdge P (P.prev h) (P.opp h) (maxHandle P + 2) (maxHandle P + 1)
                (P.next (P.prev h)) (P.next (P.opp h))).opp
                ((insertEdge P (P.prev h) (P.opp h) (maxHandle P + 2) (maxHandle P + 1)
                  (P.next (P.prev h)) (P.next (P.opp h))).next y))
            (maxHandle P + 2)
            (fuelOf (insertEdge P (P.prev h) (P.opp h) (maxHandle P + 2) (maxHandle P + 1)
              (P.next (P.prev h)) (P.next (P.opp h))))
            (maxHandle P + 2) = [maxHandle P + 2, P.opp h] :=
        split_vertex_loop_edge hv hh
      rw [hloop]
      by_cases hx2 : x = maxHandle P + 2
      · rw [if_pos hx2, if_pos (by rw [hx2]; exact List.mem_cons_self _ _)]
      by_cases hxb : x = P.opp h
      · rw [if_neg hx2, if_pos hxb,
          if_pos (by rw [hxb]; exact List.mem_cons_of_mem _ (List.mem_cons_self _ _))]
      · have hxm : x ∉ ([maxHandle P + 2, P.opp h] : List Nat) := by
          intro hm
          rcases List.mem_cons.mp hm with he | hm
          · exact hx2 he
          · rcases List.mem_cons.mp hm with he | hm
            · exact hxb he
            · cases hm
        rw [if_neg hx2, if_neg hxb, if_neg hxm]
        by_cases hx1 : x = maxHandle P + 1
        · rw [if_pos hx1, if_pos hx1]
        · rw [if_neg hx1, if_neg hx1, if_neg hx2]
    · funext x
      show (split_edge P h).1.fct x = (split_vertex P (P.prev h) (P.opp h)).1.fct x
      rw [split_edge_fct, split_vertex_fct, hfa]
    · rfl
    · rfl
  · show (split_edge P h).2 = (split_vertex P (P.prev h) (P.opp h)).1.opp
      (split_vertex P (P.prev h) (P.opp h)).2
    rw [(split_edge_parts P h).2.2.2, (split_vertex_parts P (P.prev h) (P.opp h)).2.2.2,
      split_vertex_opp, insertEdge_opp, if_pos rfl]

theorem maxFacet_not_mem (P : Poly) : maxFacet P + 1 ∉ P.facets := by
  intro m
  have h1 : maxFacet P + 1 ≤ maxFacet P := le_foldr_max P.facets _ m
  omega

/-!  Properties of `normalize_border`.  -/

theorem isBorder_normalize (P : Poly) (x : Nat) :
    isBorder (normalize_border P) x = isBorder P x := rfl

theorem isBorderEdge_normalize (P : Poly) (x : Nat) :
    isBorderEdge (normalize_border P) x = isBorderEdge P x := rfl

/-- In a valid polyhedron, an edge never has two border halfedges. -/
theorem one_border_per_edge {P : Poly} (hv : Valid P) {x : Nat} (hx : x ∈ halfedges P) :
    ¬(isBorder P x = true ∧ isBorder P (P.opp x) = true) := by
  rintro ⟨h1, h2⟩
  apply vFctOppNe hv x hx
  rw [Option.isNone_iff_eq_none.mp h1, Option.isNone_iff_eq_none.mp h2]

/-- Every swapped border pair has the facet-incident halfedge first and
the hole-incident one second. -/
theorem bord_pairs {P : Poly} (hv : Valid P) :
    ∀ e ∈ (P.edges.filter (fun e => isBorder P e.1 || isBorder P e.2)).map (swapPair P),
      isBorder P e.1 = false ∧ isBorder P e.2 = true := by
  intro e he
  rw [List.mem_map] at he
  obtain ⟨e0, he0, rfl⟩ := he
  rw [List.mem_filter] at he0
  obtain ⟨he0M, he0B⟩ := he0
  have pairs := vPairs hv e0 he0M
  have h1m : e0.1 ∈ halfedges P := edge_fst_mem he0M
  have hbor : isBorder P e0.1 = true ∨ isBorder P e0.2 = true := by
    simpa using he0B
  have hnot := one_border_per_edge hv h1m
  rw [pairs.1] at hnot
  unfold swapPair
  by_cases hb : isBorder P e0.1 = true
  · rw [if_pos hb]
    refine ⟨?_, hb⟩
    show isBorder P e0.2 = false
    by_contra hc
    exact hnot ⟨hb, by simpa using hc⟩
  · rw [if_neg hb]
    have hb' : isBorder P e0.1 = false := by simpa using hb
    refine ⟨hb', ?_⟩
    rcases hbor with h1 | h2
    · exact absurd h1 hb
    · exact h2

/-- After `normalize_border` the halfedge sequence is a non-border-edge
prefix followed by a border-edge suffix. -/
theorem normalize_partition {P : Poly} (hv : Valid P) :
    ∃ A B, halfedges (normalize_border P) = A ++ B ∧
      (∀ x ∈ A, isBorderEdge P x = false) ∧ (∀ x ∈ B, isBorderEdge P x = true) := by
  refine ⟨(P.edges.filter (fun e => !(isBorder P e.1 || isBorder P e.2))).flatMap
      (fun e => [e.1, e.2]),
    ((P.edges.filter (fun e => isBorder P e.1 || isBorder P e.2)).map
      (swapPair P)).flatMap (fun e => [e.1, e.2]), ?_, ?_, ?_⟩
  · show ((P.edges.filter (fun e => !(isBorder P e.1 || isBorder P e.2))) ++
        (P.edges.filter (fun e => isBorder P e.1 || isBorder P e.2)).map
          (swapPair P)).flatMap (fun e => [e.1, e.2]) = _
    rw [List.flatMap_append]
  · intro x hx
    rw [List.mem_flatMap] at hx
    obtain ⟨e, he, hxe⟩ := hx
    rw [List.mem_filter] at he
    obtain ⟨heM, heB⟩ := he
    have pairs := vPairs hv e heM
    have hb1 : isBorder P e.1 = false ∧ isBorder P e.2 = false := by
      simpa using heB
    have hx12 : x = e.1 ∨ x = e.2 := by simpa using hxe
    rcases hx12 with rfl | rfl
    · show (isBorder P e.1 || isBorder P (P.opp e.1)) = false
      rw [pairs.1, hb1.1, hb1.2]
      rfl
    · show (isBorder P e.2 || isBorder P (P.opp e.2)) = false
      rw [pairs.2, hb1.1, hb1.2]
      rfl
  · intro x hx
    rw [List.mem_flatMap] at hx
    obtain ⟨e, he, hxe⟩ := hx
    have hep := bord_pairs hv e he
    rw [List.mem_map] at he
    obtain ⟨e0, he0, hswap⟩ := he
    rw [List.mem_filter] at he0
    have pairs := vPairs hv e0 he0.1
    have hpair2 : P.opp e.1 = e.2 ∧ P.opp e.2 = e.1 := by
      rw [← hswap]
      unfold swapPair
      by_cases hb : isBorder P e0.1
      · rw [if_pos hb]
        exact ⟨pairs.2, pairs.1⟩
      · rw [if_neg hb]
        exact pairs
    have hx12 : x = e.1 ∨ x = e.2 := by simpa using hxe
    rcases hx12 with rfl | rfl
    · show (isBorder P e.1 || isBorder P (P.opp e.1)) = true
      rw [hpair2.1, hep.1, hep.2]
      rfl
    · show (isBorder P e.2 || isBorder P (P.opp e.2)) = true
      rw [hpair2.2, hep.2]
      rfl

/-- After `normalize_border` every border pair in the sequence has the
facet-incident halfedge first. -/
theorem normalize_pair_order {P : Poly} (hv : Valid P) :
    ∀ e ∈ (normalize_border P).edges,
      (isBorder P e.1 || isBorder P e.2) = true →
        isBorder P e.1 = false ∧ isBorder P e.2 = true := by
  intro e he hb
  have he' : e ∈ P.edges.filter (fun e => !(isBorder P e.1 || isBorder P e.2)) ++
      (P.edges.filter (fun e => isBorder P e.1 || isBorder P e.2)).map (swapPair P) := he
  rcases List.mem_append.mp he' with hm | hm
  · rw [List.mem_filter] at hm
    rw [hb] at hm
    simp at hm
  · exact bord_pairs hv e hm

theorem countP_pairs (p : Nat → Bool) :
    ∀ L : List (Nat × Nat), (∀ e ∈ L, p e.1 = false ∧ p e.2 = true) →
      (L.flatMap (fun e => [e.1, e.2])).countP p = L.length := by
  intro L
  induction L with
  | nil => intro _; rfl
  | cons e t ih =>
    intro hp
    have he := hp e (List.mem_cons_self _ _)
    have ht := ih (fun e' he' => hp e' (List.mem_cons_of_mem _ he'))
    show ([e.1, e.2] ++ t.flatMap (fun e => [e.1, e.2])).countP p = t.length + 1
    have hcp : List.countP p [e.1, e.2] = 1 := by
      simp [List.countP_cons, he.1, he.2]
    rw [List.countP_append, ht, hcp]
    omega

/-- The two counters recorded by `normalize_border` agree: one border
halfedge per border edge. -/
theorem normalize_counts {P : Poly} (hv : Valid P) :
    size_of_border_edges (normalize_border P) =
      size_of_border_halfedges (normalize_border P) := by
  show ((P.edges.filter (fun e => isBorder P e.1 || isBorder P e.2)).map
      (swapPair P)).length = (((P.edges.filter
        (fun e => isBorder P e.1 || isBorder P e.2)).map (swapPair P)).flatMap
          (fun e => [e.1, e.2])).countP (fun x => isBorder P x)
  rw [countP_pairs _ _ (bord_pairs hv)]

theorem is_closed_iff (P : Poly) :
    is_closed P = true ↔ ∀ x ∈ halfedges P, isBorder P x = false := by
  rw [is_closed, List.all_eq_true]
  constructor
  · intro ha x hx
    have := ha x hx
    simpa using this
  · intro ha x hx
    simpa using ha x hx

/-- The recorded border-edge count is zero iff the surface is closed. -/
theorem normalize_zero_iff (P : Poly) :
    size_of_border_edges (normalize_border P) = 0 ↔
      is_closed (normalize_border P) = true := by
  have hmemN : ∀ x, x ∈ halfedges (normalize_border P) ↔ x ∈ halfedges P :=
    mem_halfedges_normalize P
  constructor
  · intro h0
    rw [is_closed_iff]
    intro x hx
    rw [hmemN] at hx
    rw [isBorder_normalize]
    obtain ⟨e, he, hxe⟩ := List.mem_flatMap.mp hx
    have hfil : (P.edges.filter (fun e => isBorder P e.1 || isBorder P e.2)) = [] := by
      have hlen : ((P.edges.filter
          (fun e => isBorder P e.1 || isBorder P e.2)).map (swapPair P)).length = 0 := h0
      rw [List.length_map] at hlen
      exact List.eq_nil_of_length_eq_zero hlen
    have hno : ∀ e' ∈ P.edges, ¬((isBorder P e'.1 || isBorder P e'.2) = true) := by
      intro e' he' hb
      have : e' ∈ P.edges.filter (fun e => isBorder P e.1 || isBorder P e.2) :=
        List.mem_filter.mpr ⟨he', hb⟩
      rw [hfil] at this
      cases this
    have hnb := hno e he
    have hx12 : x = e.1 ∨ x = e.2 := by simpa using hxe
    rcases hx12 with rfl | rfl
    · by_contra hc
      have ht : isBorder P e.1 = true := by simpa using hc
      exact hnb (by rw [ht]; rfl)
    · by_contra hc
      have ht : isBorder P e.2 = true := by simpa using hc
      exact hnb (by rw [ht]; simp)
  · intro hc
    rw [is_closed_iff] at hc
    show ((P.edges.filter (fun e => isBorder P e.1 || isBorder P e.2)).map
      (swapPair P)).length = 0
    rw [List.length_map]
    have hfil : (P.edges.filter (fun e => isBorder P e.1 || isBorder P e.2)) = [] := by
      rw [List.filter_eq_nil_iff]
      intro e he
      have h1 : isBorder P e.1 = false := by
        have := hc e.1 ((hmemN e.1).mpr (edge_fst_mem he))
        rwa [isBorder_normalize] at this
      have h2 : isBorder P e.2 = false := by
        have := hc e.2 ((hmemN e.2).mpr (edge_snd_mem he))
        rwa [isBorder_normalize] at this
      rw [h1, h2]
      simp
    rw [hfil]
    rfl

/-!  Counting helpers for `join_facet`.  -/

theorem filter_ne_length {l : List Nat} {f : Nat} (d : l.Nodup) (hf : f ∈ l) :
    (l.filter (fun x => x ≠ f)).length + 1 = l.length := by
  induction l with
  | nil => cases hf
  | cons a t ih =>
    obtain ⟨hat, d'⟩ := List.nodup_cons.mp d
    rcases List.mem_cons.mp hf with he | hft
    · subst he
      have hkeep : t.filter (fun x => x ≠ f) = t := by
        rw [List.filter_eq_self]
        intro x hx
        have hxa : x ≠ f := fun e => hat (e ▸ hx)
        simp [hxa]
      have hstep : (f :: t).filter (fun x => x ≠ f) = t := by
        simp
        intro x hx e
        exact hat (e ▸ hx)
      rw [hstep]
      rfl
    · have haf : a ≠ f := fun e => hat (e ▸ hft)
      have ihx := ih d' hft
      have hstep : (a :: t).filter (fun x => x ≠ f) =
          a :: t.filter (fun x => x ≠ f) := by
        rw [List.filter_cons]
        simp [haf]
      rw [hstep, List.length_cons, List.length_cons]
      omega

theorem filter_out_pair :
    ∀ (L : List (Nat × Nat)) (h : Nat),
      (L.flatMap (fun e => [e.1, e.2])).Nodup → h ∈ L.flatMap (fun e => [e.1, e.2]) →
        (L.filter (fun e => e.1 ≠ h ∧ e.2 ≠ h)).length + 1 = L.length := by
  intro L
  induction L with
  | nil =>
    intro h _ hm
    simp at hm
  | cons e t ih =>
    intro h hd hm
    have hflat : (e :: t).flatMap (fun e => [e.1, e.2]) =
        e.1 :: e.2 :: t.flatMap (fun e => [e.1, e.2]) := rfl
    rw [hflat] at hd hm
    obtain ⟨h1nm, hd2⟩ := List.nodup_cons.mp hd
    obtain ⟨h2nm, hd3⟩ := List.nodup_cons.mp hd2
    have hmemt : ∀ y, y ∈ t.flatMap (fun e => [e.1, e.2]) → y ≠ e.1 ∧ y ≠ e.2 := by
      intro y hy
      constructor
      · intro ee
        exact h1nm (by rw [← ee]; exact List.mem_cons_of_mem _ hy)
      · intro ee
        exact h2nm (ee ▸ hy)
    have hkeepAll : ∀ z, (z = e.1 ∨ z = e.2) →
        t.filter (fun x => x.1 ≠ z ∧ x.2 ≠ z) = t := by
      intro z hz
      rw [List.filter_eq_self]
      intro x hx
      have hx1 : x.1 ∈ t.flatMap (fun e => [e.1, e.2]) := by
        rw [List.mem_flatMap]
        exact ⟨x, hx, by simp⟩
      have hx2 : x.2 ∈ t.flatMap (fun e => [e.1, e.2]) := by
        rw [List.mem_flatMap]
        exact ⟨x, hx, by simp⟩
      have g1 : x.1 ≠ z := by
        rcases hz with rfl | rfl
        · exact (hmemt _ hx1).1
        · exact (hmemt _ hx1).2
      have g2 : x.2 ≠ z := by
        rcases hz with rfl | rfl
        · exact (hmemt _ hx2).1
        · exact (hmemt _ hx2).2
      simp [g1, g2]
    rcases List.mem_cons.mp hm with rfl | hm2
    · -- h = e.1: the pair is dropped, the rest is untouched
      have hstep : (e :: t).filter (fun x => x.1 ≠ e.1 ∧ x.2 ≠ e.1) = t := by
        simp
        intro a b hab
        have hmm : a ∈ t.flatMap (fun e => [e.1, e.2]) := by
          rw [List.mem_flatMap]
          exact ⟨(a, b), hab, by simp⟩
        have hmm2 : b ∈ t.flatMap (fun e => [e.1, e.2]) := by
          rw [List.mem_flatMap]
          exact ⟨(a, b), hab, by simp⟩
        exact ⟨(hmemt a hmm).1, (hmemt b hmm2).1⟩
      rw [hstep]
      rfl
    rcases List.mem_cons.mp hm2 with rfl | hm3
    · -- h = e.2
      have hstep : (e :: t).filter (fun x => x.1 ≠ e.2 ∧ x.2 ≠ e.2) = t := by
        simp
        intro a b hab
        have hmm : a ∈ t.flatMap (fun e => [e.1, e.2]) := by
          rw [List.mem_flatMap]
          exact ⟨(a, b), hab, by simp⟩
        have hmm2 : b ∈ t.flatMap (fun e => [e.1, e.2]) := by
          rw [List.mem_flatMap]
          exact ⟨(a, b), hab, by simp⟩
        exact ⟨(hmemt a hmm).2, (hmemt b hmm2).2⟩
      rw [hstep]
      rfl
    · -- h lives further down: the pair survives
      have g1' : e.1 ≠ h := fun ee => (hmemt h hm3).1 ee.symm
      have g2' : e.2 ≠ h := fun ee => (hmemt h hm3).2 ee.symm
      have ihx := ih h hd3 hm3
      have hstep : (e :: t).filter (fun x => x.1 ≠ h ∧ x.2 ≠ h) =
          e :: t.filter (fun x => x.1 ≠ h ∧ x.2 ≠ h) := by
        rw [List.filter_cons]
        simp [g1', g2']
      rw [hstep, List.length_cons, List.length_cons]
      omega

/-- The documented contract of `join_facet` (amended precondition: both
incident vertices of `h` have degree at least three, plus removal
support, which this embedding always provides): the facet incident to
`h->opposite()` is removed, the two facets are merged into one, the
predecessor of `h` is returned, and the halfedge invariants are
preserved. -/
theorem join_facet_amended {P : Poly} {h f : Nat} (hv : Valid P) (hh : h ∈ halfedges P)
    (_hdeg1 : 3 ≤ vertex_degree P h) (_hdeg2 : 3 ≤ vertex_degree P (P.opp h))
    (hf : P.fct (P.opp h) = some f) :
    (join_facet P h).2 = P.prev h ∧
    (join_facet P h).1.facets = P.facets.filter (fun x => x ≠ f) ∧
    size_of_facets (join_facet P h).1 + 1 = size_of_facets P ∧
    size_of_halfedges (join_facet P h).1 + 2 = size_of_halfedges P ∧
    (∀ x, P.fct x = some f → (join_facet P h).1.fct x = P.fct h) ∧
    invC1 (join_facet P h).1 := by
  have hfF : f ∈ P.facets := vFctLive hv _ (opp_mem (vInv hv) hh) f hf
  refine ⟨join_facet_ret P h, join_facet_facets_some P h f hf, ?_, ?_, ?_, ?_⟩
  · show ((join_facet P h).1.facets).length + 1 = P.facets.length
    rw [join_facet_facets_some P h f hf]
    exact filter_ne_length (vNodupF hv) hfF
  · show (halfedges (join_facet P h).1).length + 2 = (halfedges P).length
    rw [length_halfedges, length_halfedges, join_facet_edges]
    have := filter_out_pair P.edges h (vNodupH hv) hh
    omega
  · intro x hx
    rw [join_facet_fct, if_pos (by rw [hx, hf])]
  · exact invC1_join_facet hv hh

/-!  The remaining public operations of the interface: holes, edge
flips and contractions, orientation reversal, capacity reservation and
delegation.  -/

/-- The facet (or hole) cycle of `h`: the `next` walk starting at `h`. -/
def faceCycle (P : Poly) (h : Nat) : List Nat := cycleFrom P.next h (fuelOf P) h

/-- Modelled from the spec: `make_hole h` removes the incident facet of
`h` and turns all halfedges of its cycle into border halfedges (no
incident facet).  Returns `h`. -/
def make_hole (P : Poly) (h : Nat) : Poly × Nat :=
  ({ P with
      fct := fun x => if x ∈ faceCycle P h then none else P.fct x,
      facets := match P.fct h with
        | some f => P.facets.filter (fun x => x ≠ f)
        | none => P.facets },
   h)

/-- Modelled from the spec: `fill_hole h` fills the hole denoted by the
border halfedge `h` with a newly created facet, making all halfedges of
the hole cycle incident to it.  Returns `h`. -/
def fill_hole (P : Poly) (h : Nat) : Poly × Nat :=
  ({ P with
      fct := fun x => if x ∈ faceCycle P h then some (maxFacet P + 1) else P.fct x,
      facets := P.facets ++ [maxFacet P + 1] },
   h)

/-- Modelled from the spec: `inside_out` reverses the facet
orientations: every halfedge now runs the other way, so `next` and
`prev` swap roles and each halfedge points at its old source vertex. -/
def inside_out (P : Poly) : Poly :=
  { P with next := P.prev, prev := P.next, vtx := fun x => P.vtx (P.opp x) }

/-- Modelled from the spec: `reserve` only preallocates storage
capacity for the requested numbers of vertices, halfedges and facets;
the combinatorial structure is unchanged. -/
def reserve (P : Poly) (_v _h _f : Nat) : Poly := P

/-- Modelled from the spec: `delegate m` calls the modifier `m` on the
underlying halfedge data structure; the surface must be valid when the
modifier returns. -/
def delegate (m : Poly → Poly) (P : Poly) : Poly := m P

/-- Modelled from the spec: `join_vertex h` joins the two endpoints of
the edge of `h`: the edge is removed, each incident facet cycle is
relinked across the gap, the vertex of `h->opposite()` is removed and
every halfedge pointing at it is re-pointed at the vertex of `h`.
Returns `h->opposite()->prev()`, the predecessor of `h` around the
vertex. -/
def join_vertex (P : Poly) (h : Nat) : Poly × Nat :=
  let o := P.opp h
  ({ P with
      edges := P.edges.filter (fun e => e.1 ≠ h ∧ e.2 ≠ h),
      verts := P.verts.filter (fun x => x ≠ P.vtx o),
      next := upd (upd P.next (P.prev h) (P.next h)) (P.prev o) (P.next o),
      prev := upd (upd P.prev (P.next h) (P.prev h)) (P.next o) (P.prev o),
      vtx := fun x => if P.vtx x = P.vtx o then P.vtx h else P.vtx x },
   P.prev o)

theorem invC1_make_hole {P : Poly} (inv : invC1 P) (h : Nat) :
    invC1 (make_hole P h).1 :=
  invC1_congr rfl rfl rfl rfl inv

theorem invC1_fill_hole {P : Poly} (inv : invC1 P) (h : Nat) :
    invC1 (fill_hole P h).1 :=
  invC1_congr rfl rfl rfl rfl inv

/-- Reversing the orientation swaps the two inverse equations. -/
theorem invC1_inside_out {P : Poly} (inv : invC1 P) : invC1 (inside_out P) := by
  intro x hx
  have hx' : x ∈ halfedges P := hx
  obtain ⟨o1, o2, o3, n1, p1, pn, np⟩ := inv x hx'
  exact ⟨o1, o2, o3, p1, n1, np, pn⟩

theorem invC1_reserve {P : Poly} (inv : invC1 P) (v h f : Nat) :
    invC1 (reserve P v h f) := inv

theorem join_vertex_next (P : Poly) (h x : Nat) :
    (join_vertex P h).1.next x =
      if x = P.prev (P.opp h) then P.next (P.opp h) else
      if x = P.prev h then P.next h else P.next x := rfl

theorem join_vertex_prev (P : Poly) (h x : Nat) :
    (join_vertex P h).1.prev x =
      if x = P.next (P.opp h) then P.prev (P.opp h) else
      if x = P.next h then P.prev h else P.prev x := rfl

theorem join_vertex_opp (P : Poly) (h x : Nat) :
    (join_vertex P h).1.opp x = P.opp x := rfl

theorem join_vertex_ret (P : Poly) (h : Nat) :
    (join_vertex P h).2 = P.prev (P.opp h) := rfl

/-- `join_vertex` removes the same edge pair as `join_facet`, so the
two surfaces have the same halfedge sequence. -/
theorem halfedges_join_vertex (P : Poly) (h : Nat) :
    halfedges (join_vertex P h).1 = halfedges (join_facet P h).1 := rfl

/-- `join_vertex` preserves the halfedge invariants: the straight
relinking of each incident facet cycle across the removed edge is
consistent. -/
theorem invC1_join_vertex {P : Poly} {h : Nat} (hv : Valid P) (hh : h ∈ halfedges P) :
    invC1 (join_vertex P h).1 := by
  have inv := vInv hv
  have ho : P.opp h ∈ halfedges P := opp_mem inv hh
  have hhp : P.prev h ∈ halfedges P := prev_mem inv hh
  have hop : P.prev (P.opp h) ∈ halfedges P := prev_mem inv ho
  have hna : P.next (P.opp h) ∈ halfedges P := next_mem inv ho
  have hnb : P.next h ∈ halfedges P := next_mem inv hh
  have f1 : P.prev h ≠ h := prev_ne_self hv hh
  have f2 : P.prev h ≠ P.opp h := prev_ne_opp hv hh
  have f3 : P.prev (P.opp h) ≠ P.opp h := prev_ne_self hv ho
  have f4 : P.prev (P.opp h) ≠ h := by
    intro e
    have hnp := next_prev inv ho
    rw [e] at hnp
    exact no_antenna₂ hv hh hnp
  have f5 : P.next (P.opp h) ≠ h := no_antenna₁ hv hh
  have f6 : P.next (P.opp h) ≠ P.opp h := (vMinDeg hv _ ho).1
  have f7 : P.next h ≠ h := (vMinDeg hv _ hh).1
  have f8 : P.next h ≠ P.opp h := no_antenna₂ hv hh
  have f9 : P.next (P.opp h) ≠ P.next h := by
    intro e
    exact opp_ne inv hh (next_inj inv ho hh e)
  have f10 : P.prev (P.opp h) ≠ P.prev h := by
    intro e
    exact opp_ne inv hh (prev_inj inv ho hh e)
  intro x hx
  rw [halfedges_join_vertex, mem_halfedges_join_facet hv hh] at hx
  obtain ⟨hxP, hxh, hxo⟩ := hx
  have hox : P.opp x ∈ halfedges P := opp_mem inv hxP
  have hoxh : P.opp x ≠ h := by
    intro e
    apply hxo
    rw [← opp_opp inv hxP, e]
  have hoxo : P.opp x ≠ P.opp h := by
    intro e
    apply hxh
    rw [← opp_opp inv hxP, e, opp_opp inv hh]
  refine ⟨?_, ?_, ?_, ?_, ?_, ?_, ?_⟩
  · rw [join_vertex_opp, join_vertex_opp]
    exact opp_opp inv hxP
  · rw [join_vertex_opp]
    exact opp_ne inv hxP
  · rw [join_vertex_opp, halfedges_join_vertex, mem_halfedges_join_facet hv hh]
    exact ⟨hox, hoxh, hoxo⟩
  · rw [join_vertex_next, halfedges_join_vertex, mem_halfedges_join_facet hv hh]
    by_cases hxop : x = P.prev (P.opp h)
    · rw [if_pos hxop]
      exact ⟨hna, f5, f6⟩
    by_cases hxhp : x = P.prev h
    · rw [if_neg hxop, if_pos hxhp]
      exact ⟨hnb, f7, f8⟩
    · rw [if_neg hxop, if_neg hxhp]
      refine ⟨next_mem inv hxP, ?_, ?_⟩
      · intro e
        apply hxhp
        rw [← prev_next inv hxP, e]
      · intro e
        apply hxop
        rw [← prev_next inv hxP, e]
  · rw [join_vertex_prev, halfedges_join_vertex, mem_halfedges_join_facet hv hh]
    by_cases hxna : x = P.next (P.opp h)
    · rw [if_pos hxna]
      exact ⟨hop, f4, f3⟩
    by_cases hxnb : x = P.next h
    · rw [if_neg hxna, if_pos hxnb]
      exact ⟨hhp, f1, f2⟩
    · rw [if_neg hxna, if_neg hxnb]
      refine ⟨prev_mem inv hxP, ?_, ?_⟩
      · intro e
        apply hxnb
        rw [← next_prev inv hxP, e]
      · intro e
        apply hxna
        rw [← next_prev inv hxP, e]
  · -- prev' (next' x) = x
    rw [join_vertex_next]
    by_cases hxop : x = P.prev (P.opp h)
    · rw [if_pos hxop, join_vertex_prev, if_pos rfl, hxop]
    by_cases hxhp : x = P.prev h
    · rw [if_neg hxop, if_pos hxhp, join_vertex_prev, if_neg (Ne.symm f9), if_pos rfl, hxhp]
    · rw [if_neg hxop, if_neg hxhp, join_vertex_prev]
      have g1 : P.next x ≠ P.next (P.opp h) := by
        intro e
        exact hxo (next_inj inv hxP ho e)
      have g2 : P.next x ≠ P.next h := by
        intro e
        exact hxh (next_inj inv hxP hh e)
      rw [if_neg g1, if_neg g2]
      exact prev_next inv hxP
  · -- next' (prev' x) = x
    rw [join_vertex_prev]
    by_cases hxna : x = P.next (P.opp h)
    · rw [if_pos hxna, join_vertex_next, if_pos rfl, hxna]
    by_cases hxnb : x = P.next h
    · rw [if_neg hxna, if_pos hxnb, join_vertex_next, if_neg (Ne.symm f10), if_pos rfl, hxnb]
    · rw [if_neg hxna, if_neg hxnb, join_vertex_next]
      have g1 : P.prev x ≠ P.prev (P.opp h) := by
        intro e
        exact hxo (prev_inj inv hxP ho e)
      have g2 : P.prev x ≠ P.prev h := by
        intro e
        exact hxh (prev_inj inv hxP hh e)
      rw [if_neg g1, if_neg g2]
      exact next_prev inv hxP

/-- Modelled from the spec: `add_facet_to_border h g` connects the
vertex of `g` with the vertex of `h` by a new edge inside the hole
incident to `h` and `g`, and fills the separated part of the hole (the
side of `g`) with a new facet.  Returns the halfedge of the new edge
that is incident to the new facet. -/
def add_facet_to_border (P : Poly) (h g : Nat) : Poly × Nat :=
  let u := maxHandle P + 1
  let v := maxHandle P + 2
  let fnew := maxFacet P + 1
  let Q := insertEdge P h g u v (P.next g) (P.next h)
  let loop := cycleFrom Q.next v (fuelOf Q) v
  ({ Q with
      facets := P.facets ++ [fnew],
      vtx := upd (upd P.vtx u (P.vtx g)) v (P.vtx h),
      fct := fun x => if x ∈ loop then some fnew else if x = u then none else P.fct x },
   v)

/-- `add_facet_to_border` preserves the halfedge invariants: it is the
same fresh-pair splice as `split_facet`, performed inside a hole. -/
theorem invC1_add_facet_to_border {P : Poly} {h g : Nat} (hv : Valid P)
    (hh : h ∈ halfedges P) (hg : g ∈ halfedges P) (hne : h ≠ g) :
    invC1 (add_facet_to_border P h g).1 := by
  have base := invC1_insertEdge P h g (maxHandle P + 1) (maxHandle P + 2)
    (P.next g) (P.next h) (vInv hv) hh hg hne (fresh1_not_mem P) (fresh2_not_mem P)
    (by omega) (Or.inr ⟨rfl, rfl⟩)
  exact invC1_congr rfl rfl rfl rfl base

/-- Modelled from the spec: `flip_edge h` rotates the edge of `h` one
vertex in the direction of the face orientation inside the two incident
triangles and returns `h`. -/
def flip_edge (P : Poly) (h : Nat) : Poly × Nat :=
  let g := P.opp h
  let a := P.next h
  let b := P.next a
  let c := P.next g
  let d := P.next c
  ({ P with
      next := upd (upd (upd (upd (upd (upd P.next h b) b c) c h) g d) d a) a g,
      prev := upd (upd (upd (upd (upd (upd P.prev h c) c b) b h) g a) a d) d g,
      vtx := upd (upd P.vtx h (P.vtx a)) g (P.vtx c),
      fct := fun x => if x = c then P.fct h else if x = a then P.fct g else P.fct x },
   h)

theorem flip_edge_next (P : Poly) (h x : Nat) :
    (flip_edge P h).1.next x =
      if x = P.next h then P.opp h else
      if x = P.next (P.next (P.opp h)) then P.next h else
      if x = P.opp h then P.next (P.next (P.opp h)) else
      if x = P.next (P.opp h) then h else
      if x = P.next (P.next h) then P.next (P.opp h) else
      if x = h then P.next (P.next h) else P.next x := rfl

theorem flip_edge_prev (P : Poly) (h x : Nat) :
    (flip_edge P h).1.prev x =
      if x = P.next (P.next (P.opp h)) then P.opp h else
      if x = P.next h then P.next (P.next (P.opp h)) else
      if x = P.opp h then P.next h else
      if x = P.next (P.next h) then h else
      if x = P.next (P.opp h) then P.next (P.next h) else
      if x = h then P.next (P.opp h) else P.prev x := rfl

theorem flip_edge_opp (P : Poly) (h x : Nat) :
    (flip_edge P h).1.opp x = P.opp x := rfl

theorem halfedges_flip_edge (P : Poly) (h : Nat) :
    halfedges (flip_edge P h).1 = halfedges P := rfl

/-- `flip_edge` preserves the halfedge invariants when both incident
facets are triangles. -/
theorem invC1_flip_edge {P : Poly} {h : Nat} (hv : Valid P) (hh : h ∈ halfedges P)
    (hT1 : P.next (P.next (P.next h)) = h)
    (hT2 : P.next (P.next (P.next (P.opp h))) = P.opp h) :
    invC1 (flip_edge P h).1 := by
  have inv := vInv hv
  have hg : P.opp h ∈ halfedges P := opp_mem inv hh
  have ha : P.next h ∈ halfedges P := next_mem inv hh
  have hb : P.next (P.next h) ∈ halfedges P := next_mem inv ha
  have hc : P.next (P.opp h) ∈ halfedges P := next_mem inv hg
  have hd : P.next (P.next (P.opp h)) ∈ halfedges P := next_mem inv hc
  have pb : P.prev h = P.next (P.next h) := by
    have t := prev_next inv hb
    rw [hT1] at t
    exact t
  have pd : P.prev (P.opp h) = P.next (P.next (P.opp h)) := by
    have t := prev_next inv hd
    rw [hT2] at t
    exact t
  have fa : P.fct (P.next h) = P.fct h := vFctNext hv h hh
  have fb : P.fct (P.next (P.next h)) = P.fct h := (vFctNext hv _ ha).trans fa
  have fc : P.fct (P.next (P.opp h)) = P.fct (P.opp h) := vFctNext hv _ hg
  have fd : P.fct (P.next (P.next (P.opp h))) = P.fct (P.opp h) := (vFctNext hv _ hc).trans fc
  have fhg : P.fct h ≠ P.fct (P.opp h) := vFctOppNe hv h hh
  have hgh : P.opp h ≠ h := opp_ne inv hh
  have nah : P.next h ≠ h := (vMinDeg hv h hh).1
  have nbh : P.next (P.next h) ≠ h := (vMinDeg hv h hh).2
  have nba : P.next (P.next h) ≠ P.next h := (vMinDeg hv _ ha).1
  have ncg : P.next (P.opp h) ≠ P.opp h := (vMinDeg hv _ hg).1
  have ndg : P.next (P.next (P.opp h)) ≠ P.opp h := (vMinDeg hv _ hg).2
  have ndc : P.next (P.next (P.opp h)) ≠ P.next (P.opp h) := (vMinDeg hv _ hc).1
  have nag : P.next h ≠ P.opp h := fun e => fhg (by rw [e] at fa; exact fa.symm)
  have nbg : P.next (P.next h) ≠ P.opp h := fun e => fhg (by rw [e] at fb; exact fb.symm)
  have nch : P.next (P.opp h) ≠ h := fun e => fhg (by rw [e] at fc; exact fc)
  have ndh : P.next (P.next (P.opp h)) ≠ h := fun e => fhg (by rw [e] at fd; exact fd)
  have nca : P.next (P.opp h) ≠ P.next h := fun e =>
    fhg (by rw [e] at fc; exact fa.symm.trans fc)
  have nda : P.next (P.next (P.opp h)) ≠ P.next h := fun e =>
    fhg (by rw [e] at fd; exact fa.symm.trans fd)
  have hbc : P.next (P.next h) ≠ P.next (P.opp h) := fun e =>
    fhg (by rw [e] at fb; exact fb.symm.trans fc)
  have hbd : P.next (P.next h) ≠ P.next (P.next (P.opp h)) := fun e =>
    fhg (by rw [e] at fb; exact fb.symm.trans fd)
  intro x hx
  rw [halfedges_flip_edge] at hx
  refine ⟨?_, ?_, ?_, ?_, ?_, ?_, ?_⟩
  · rw [flip_edge_opp, flip_edge_opp]
    exact opp_opp inv hx
  · rw [flip_edge_opp]
    exact opp_ne inv hx
  · rw [flip_edge_opp, halfedges_flip_edge]
    exact opp_mem inv hx
  · rw [flip_edge_next, halfedges_flip_edge]
    split
    · exact hg
    split
    · exact ha
    split
    · exact hd
    split
    · exact hh
    split
    · exact hc
    split
    · exact hb
    exact next_mem inv hx
  · rw [flip_edge_prev, halfedges_flip_edge]
    split
    · exact hg
    split
    · exact hd
    split
    · exact ha
    split
    · exact hh
    split
    · exact hb
    split
    · exact hc
    exact prev_mem inv hx
  · -- prev' (next' x) = x
    rw [flip_edge_next]
    by_cases hxa : x = P.next h
    · rw [if_pos hxa, flip_edge_prev, if_neg (Ne.symm ndg), if_neg (Ne.symm nag),
        if_pos rfl, hxa]
    by_cases hxd : x = P.next (P.next (P.opp h))
    · rw [if_neg hxa, if_pos hxd, flip_edge_prev, if_neg (Ne.symm nda), if_pos rfl, hxd]
    by_cases hxg : x = P.opp h
    · rw [if_neg hxa, if_neg hxd, if_pos hxg, flip_edge_prev, if_pos rfl, hxg]
    by_cases hxc : x = P.next (P.opp h)
    · rw [if_neg hxa, if_neg hxd, if_neg hxg, if_pos hxc, flip_edge_prev,
        if_neg (Ne.symm ndh), if_neg (Ne.symm nah), if_neg (Ne.symm hgh),
        if_neg (Ne.symm nbh), if_neg (Ne.symm nch), if_pos rfl, hxc]
    by_cases hxb : x = P.next (P.next h)
    · rw [if_neg hxa, if_neg hxd, if_neg hxg, if_neg hxc, if_pos hxb, flip_edge_prev,
        if_neg (Ne.symm ndc), if_neg nca, if_neg ncg, if_neg (Ne.symm hbc),
        if_pos rfl, hxb]
    by_cases hxh : x = h
    · rw [if_neg hxa, if_neg hxd, if_neg hxg, if_neg hxc, if_neg hxb, if_pos hxh,
        flip_edge_prev, if_neg hbd, if_neg nba, if_neg nbg, if_pos rfl, hxh]
    · rw [if_neg hxa, if_neg hxd, if_neg hxg, if_neg hxc, if_neg hxb, if_neg hxh,
        flip_edge_prev]
      have g1 : P.next x ≠ P.next (P.next (P.opp h)) := fun e =>
        hxc (by rw [← prev_next inv hx, e]; exact prev_next inv hc)
      have g2 : P.next x ≠ P.next h := fun e => hxh (next_inj inv hx hh e)
      have g3 : P.next x ≠ P.opp h := fun e =>
        hxd (by rw [← prev_next inv hx, e]; exact pd)
      have g4 : P.next x ≠ P.next (P.next h) := fun e => hxa (next_inj inv hx ha e)
      have g5 : P.next x ≠ P.next (P.opp h) := fun e => hxg (next_inj inv hx hg e)
      have g6 : P.next x ≠ h := fun e =>
        hxb (by rw [← prev_next inv hx, e]; exact pb)
      rw [if_neg g1, if_neg g2, if_neg g3, if_neg g4, if_neg g5, if_neg g6]
      exact prev_next inv hx
  · -- next' (prev' x) = x
    rw [flip_edge_prev]
    by_cases hxd : x = P.next (P.next (P.opp h))
    · rw [if_pos hxd, flip_edge_next, if_neg (Ne.symm nag), if_neg (Ne.symm ndg),
        if_pos rfl, hxd]
    by_cases hxa : x = P.next h
    · rw [if_neg hxd, if_pos hxa, flip_edge_next, if_neg nda, if_pos rfl, hxa]
    by_cases hxg : x = P.opp h
    · rw [if_neg hxd, if_neg hxa, if_pos hxg, flip_edge_next, if_pos rfl, hxg]
    by_cases hxb : x = P.next (P.next h)
    · rw [if_neg hxd, if_neg hxa, if_neg hxg, if_pos hxb, flip_edge_next,
        if_neg (Ne.symm nah), if_neg (Ne.symm ndh), if_neg (Ne.symm hgh),
        if_neg (Ne.symm nch), if_neg (Ne.symm nbh), if_pos rfl, hxb]
    by_cases hxc : x = P.next (P.opp h)
    · rw [if_neg hxd, if_neg hxa, if_neg hxg, if_neg hxb, if_pos hxc, flip_edge_next,
        if_neg nba, if_neg hbd, if_neg nbg, if_neg hbc, if_pos rfl, hxc]
    by_cases hxh : x = h
    · rw [if_neg hxd, if_neg hxa, if_neg hxg, if_neg hxb, if_neg hxc, if_pos hxh,
        flip_edge_next, if_neg nca, if_neg (Ne.symm ndc), if_neg ncg, if_pos rfl, hxh]
    · rw [if_neg hxd, if_neg hxa, if_neg hxg, if_neg hxb, if_neg hxc, if_neg hxh,
        flip_edge_next]
      have g1 : P.prev x ≠ P.next h := fun e =>
        hxb (by rw [← next_prev inv hx, e])
      have g2 : P.prev x ≠ P.next (P.next (P.opp h)) := fun e =>
        hxg (by rw [← next_prev inv hx, e]; exact hT2)
      have g3 : P.prev x ≠ P.opp h := fun e =>
        hxc (by rw [← next_prev inv hx, e])
      have g4 : P.prev x ≠ P.next (P.opp h) := fun e =>
        hxd (by rw [← next_prev inv hx, e])
      have g5 : P.prev x ≠ P.next (P.next h) := fun e =>
        hxh (by rw [← next_prev inv hx, e]; exact hT1)
      have g6 : P.prev x ≠ h := fun e =>
        hxa (by rw [← next_prev inv hx, e])
      rw [if_neg g1, if_neg g2, if_neg g3, if_neg g4, if_neg g5, if_neg g6]
      exact next_prev inv hx

/-!  Generic edge removal by dissolution.  A removal predicate `R`
(closed under `opposite`) marks the halfedges whose edges disappear;
every survivor is relinked to the first surviving halfedge reached by
repeatedly skipping over removed halfedges (`y ↦ next (opp y)` walks
past a dissolved edge into the neighbouring cycle).  This is the common
pointer surgery behind the erasing operations. -/

/-- One skipping step forward past a dissolved edge. -/
def stepF (P : Poly) : Nat → Nat := fun y => P.next (P.opp y)

/-- One skipping step backward past a dissolved edge. -/
def stepB (P : Poly) : Nat → Nat := fun y => P.prev (P.opp y)

/-- Skip forward over removed halfedges to the first survivor. -/
def svNext (P : Poly) (R : Nat → Bool) : Nat → Nat → Nat
  | 0, y => y
  | fuel + 1, y => if R y then svNext P R fuel (P.next (P.opp y)) else y

/-- Skip backward over removed halfedges to the first survivor. -/
def svPrev (P : Poly) (R : Nat → Bool) : Nat → Nat → Nat
  | 0, y => y
  | fuel + 1, y => if R y then svPrev P R fuel (P.prev (P.opp y)) else y

/-- Remove every edge with a marked halfedge, dissolving it into its
neighbourhood. -/
def removeEdges (P : Poly) (R : Nat → Bool) : Poly :=
  { P with
    edges := P.edges.filter (fun e => R e.1 = false ∧ R e.2 = false),
    next := fun x => svNext P R (fuelOf P) (P.next x),
    prev := fun x => svPrev P R (fuelOf P) (P.prev x) }

theorem removeEdges_edges (P : Poly) (R : Nat → Bool) :
    (removeEdges P R).edges = P.edges.filter (fun e => R e.1 = false ∧ R e.2 = false) := rfl

theorem removeEdges_next (P : Poly) (R : Nat → Bool) (x : Nat) :
    (removeEdges P R).next x = svNext P R (fuelOf P) (P.next x) := rfl

theorem removeEdges_prev (P : Poly) (R : Nat → Bool) (x : Nat) :
    (removeEdges P R).prev x = svPrev P R (fuelOf P) (P.prev x) := rfl

theorem removeEdges_opp (P : Poly) (R : Nat → Bool) (x : Nat) :
    (removeEdges P R).opp x = P.opp x := rfl

/-- A halfedge survives the removal iff neither it nor its opposite is
marked. -/
theorem mem_halfedges_removeEdges {P : Poly} (hv : Valid P) (R : Nat → Bool) (x : Nat) :
    x ∈ halfedges (removeEdges P R) ↔
      x ∈ halfedges P ∧ R x = false ∧ R (P.opp x) = false := by
  constructor
  · intro hx
    rw [halfedges, removeEdges_edges, List.mem_flatMap] at hx
    obtain ⟨e, he, hxe⟩ := hx
    rw [List.mem_filter] at he
    obtain ⟨heM, heP⟩ := he
    have hcond : R e.1 = false ∧ R e.2 = false := by simpa using heP
    have pairs := vPairs hv e heM
    have hxP : x ∈ halfedges P := by
      rw [halfedges, List.mem_flatMap]
      exact ⟨e, heM, hxe⟩
    have hx12 : x = e.1 ∨ x = e.2 := by simpa using hxe
    refine ⟨hxP, ?_, ?_⟩
    · rcases hx12 with rfl | rfl
      · exact hcond.1
      · exact hcond.2
    · rcases hx12 with rfl | rfl
      · rw [pairs.1]; exact hcond.2
      · rw [pairs.2]; exact hcond.1
  · rintro ⟨hxP, hR1, hR2⟩
    rw [halfedges, List.mem_flatMap] at hxP
    obtain ⟨e, heM, hxe⟩ := hxP
    have pairs := vPairs hv e heM
    have hx12 : x = e.1 ∨ x = e.2 := by simpa using hxe
    rw [halfedges, removeEdges_edges, List.mem_flatMap]
    refine ⟨e, ?_, hxe⟩
    rw [List.mem_filter]
    refine ⟨heM, ?_⟩
    have hcond : R e.1 = false ∧ R e.2 = false := by
      rcases hx12 with rfl | rfl
      · refine ⟨hR1, ?_⟩
        rw [← pairs.1]
        exact hR2
      · refine ⟨?_, hR1⟩
        rw [← pairs.2]
        exact hR2
    simpa using hcond

/-- The mark on a survivor's opposite is also clear, because the mark
set is closed under `opposite`. -/
theorem surv_opp {P : Poly} (inv : invC1 P) (R : Nat → Bool)
    (hRo : ∀ y ∈ halfedges P, R y = true → R (P.opp y) = true)
    {z : Nat} (hz : z ∈ halfedges P) (hzR : R z = false) : R (P.opp z) = false := by
  cases e : R (P.opp z) with
  | false => rfl
  | true =>
    have h2 := hRo (P.opp z) (opp_mem inv hz) e
    rw [opp_opp inv hz] at h2
    exact Bool.noConfusion (h2.symm.trans hzR)

theorem opp_inj {P : Poly} (inv : invC1 P) {a b : Nat} (ha : a ∈ halfedges P)
    (hb : b ∈ halfedges P) (e : P.opp a = P.opp b) : a = b := by
  rw [← opp_opp inv ha, e, opp_opp inv hb]

theorem iterate_stepF_mem {P : Poly} (inv : invC1 P) {y : Nat} (hy : y ∈ halfedges P) :
    ∀ t, (stepF P)^[t] y ∈ halfedges P := by
  intro t
  induction t with
  | zero => exact hy
  | succ n ihn =>
    rw [Function.iterate_succ_apply']
    exact next_mem inv (opp_mem inv ihn)

theorem iterate_stepB_mem {P : Poly} (inv : invC1 P) {y : Nat} (hy : y ∈ halfedges P) :
    ∀ t, (stepB P)^[t] y ∈ halfedges P := by
  intro t
  induction t with
  | zero => exact hy
  | succ n ihn =>
    rw [Function.iterate_succ_apply']
    exact prev_mem inv (opp_mem inv ihn)

theorem iterate_stepF_cancel {P : Poly} (inv : invC1 P) {y z : Nat}
    (hy : y ∈ halfedges P) (hz : z ∈ halfedges P) :
    ∀ a, (stepF P)^[a] y = (stepF P)^[a] z → y = z := by
  intro a
  induction a with
  | zero => exact fun e => e
  | succ n ihn =>
    intro e
    rw [Function.iterate_succ_apply', Function.iterate_succ_apply'] at e
    have hm1 := iterate_stepF_mem inv hy n
    have hm2 := iterate_stepF_mem inv hz n
    exact ihn (opp_inj inv hm1 hm2 (next_inj inv (opp_mem inv hm1) (opp_mem inv hm2) e))

theorem iterate_stepB_cancel {P : Poly} (inv : invC1 P) {y z : Nat}
    (hy : y ∈ halfedges P) (hz : z ∈ halfedges P) :
    ∀ a, (stepB P)^[a] y = (stepB P)^[a] z → y = z := by
  intro a
  induction a with
  | zero => exact fun e => e
  | succ n ihn =>
    intro e
    rw [Function.iterate_succ_apply', Function.iterate_succ_apply'] at e
    have hm1 := iterate_stepB_mem inv hy n
    have hm2 := iterate_stepB_mem inv hz n
    exact ihn (opp_inj inv hm1 hm2 (prev_inj inv (opp_mem inv hm1) (opp_mem inv hm2) e))

/-- Pigeonhole: an orbit inside a finite carrier repeats. -/
theorem iterate_repeat {f : Nat → Nat} {H : List Nat} {y : Nat}
    (hmem : ∀ t, f^[t] y ∈ H) :
    ∃ a b, a < b ∧ b ≤ H.length ∧ f^[a] y = f^[b] y := by
  by_contra hno
  push_neg at hno
  have hnd : ((List.range (H.length + 1)).map (fun t => f^[t] y)).Nodup := by
    refine List.Nodup.map_on ?_ (List.nodup_range _)
    intro a haR b hbR e
    rw [List.mem_range] at haR hbR
    by_contra hab
    rcases Nat.lt_or_ge a b with hlt | hge
    · exact hno a b hlt (by omega) e
    · have hlt : b < a := by omega
      exact hno b a hlt (by omega) e.symm
  have hsub : ((List.range (H.length + 1)).map (fun t => f^[t] y)) ⊆ H := by
    intro z hz
    rw [List.mem_map] at hz
    obtain ⟨t, _, rfl⟩ := hz
    exact hmem t
  have hle := (List.subperm_of_subset hnd hsub).length_le
  rw [List.length_map, List.length_range] at hle
  omega

/-- Starting just past a survivor, the forward skipping chain reaches a
survivor within the number of halfedges. -/
theorem stepF_reaches {P : Poly} (hv : Valid P) (R : Nat → Bool)
    (hRo : ∀ y ∈ halfedges P, R y = true → R (P.opp y) = true)
    {x : Nat} (hx : x ∈ halfedges P) (hRx : R x = false) :
    ∃ t, t ≤ (halfedges P).length ∧ R ((stepF P)^[t] (P.next x)) = false := by
  have inv := vInv hv
  by_contra hno
  push_neg at hno
  have hall : ∀ t, t ≤ (halfedges P).length → R ((stepF P)^[t] (P.next x)) = true := by
    intro t ht
    cases hbv : R ((stepF P)^[t] (P.next x)) with
    | false => exact absurd hbv (hno t ht)
    | true => rfl
  have hmem : ∀ t, (stepF P)^[t] (P.next x) ∈ halfedges P :=
    iterate_stepF_mem inv (next_mem inv hx)
  obtain ⟨a, b, hab, hbN, he⟩ := iterate_repeat (f := stepF P) (H := halfedges P)
    (y := P.next x) hmem
  have hcyc : (stepF P)^[b - a] (P.next x) = P.next x := by
    rw [show b = a + (b - a) from by omega, Function.iterate_add_apply] at he
    exact (iterate_stepF_cancel inv (next_mem inv hx) (hmem (b - a)) a he).symm
  have hsplit : (stepF P)^[b - a] (P.next x) =
      stepF P ((stepF P)^[b - a - 1] (P.next x)) := by
    have h1 : b - a = b - a - 1 + 1 := by omega
    conv_lhs => rw [h1]
    exact Function.iterate_succ_apply' (stepF P) (b - a - 1) (P.next x)
  have hcm := hmem (b - a - 1)
  have hox : P.opp ((stepF P)^[b - a - 1] (P.next x)) = x := by
    apply next_inj inv (opp_mem inv hcm) hx
    show stepF P ((stepF P)^[b - a - 1] (P.next x)) = P.next x
    rw [← hsplit]
    exact hcyc
  have hRc : R ((stepF P)^[b - a - 1] (P.next x)) = true := hall (b - a - 1) (by omega)
  have hRox := hRo _ hcm hRc
  rw [hox] at hRox
  exact Bool.noConfusion (hRox.symm.trans hRx)

/-- Mirror image of `stepF_reaches` for the backward chain. -/
theorem stepB_reaches {P : Poly} (hv : Valid P) (R : Nat → Bool)
    (hRo : ∀ y ∈ halfedges P, R y = true → R (P.opp y) = true)
    {x : Nat} (hx : x ∈ halfedges P) (hRx : R x = false) :
    ∃ t, t ≤ (halfedges P).length ∧ R ((stepB P)^[t] (P.prev x)) = false := by
  have inv := vInv hv
  by_contra hno
  push_neg at hno
  have hall : ∀ t, t ≤ (halfedges P).length → R ((stepB P)^[t] (P.prev x)) = true := by
    intro t ht
    cases hbv : R ((stepB P)^[t] (P.prev x)) with
    | false => exact absurd hbv (hno t ht)
    | true => rfl
  have hmem : ∀ t, (stepB P)^[t] (P.prev x) ∈ halfedges P :=
    iterate_stepB_mem inv (prev_mem inv hx)
  obtain ⟨a, b, hab, hbN, he⟩ := iterate_repeat (f := stepB P) (H := halfedges P)
    (y := P.prev x) hmem
  have hcyc : (stepB P)^[b - a] (P.prev x) = P.prev x := by
    rw [show b = a + (b - a) from by omega, Function.iterate_add_apply] at he
    exact (iterate_stepB_cancel inv (prev_mem inv hx) (hmem (b - a)) a he).symm
  have hsplit : (stepB P)^[b - a] (P.prev x) =
      stepB P ((stepB P)^[b - a - 1] (P.prev x)) := by
    have h1 : b - a = b - a - 1 + 1 := by omega
    conv_lhs => rw [h1]
    exact Function.iterate_succ_apply' (stepB P) (b - a - 1) (P.prev x)
  have hcm := hmem (b - a - 1)
  have hox : P.opp ((stepB P)^[b - a - 1] (P.prev x)) = x := by
    apply prev_inj inv (opp_mem inv hcm) hx
    show stepB P ((stepB P)^[b - a - 1] (P.prev x)) = P.prev x
    rw [← hsplit]
    exact hcyc
  have hRc : R ((stepB P)^[b - a - 1] (P.prev x)) = true := hall (b - a - 1) (by omega)
  have hRox := hRo _ hcm hRc
  rw [hox] at hRox
  exact Bool.noConfusion (hRox.symm.trans hRx)

/-- `svNext` computes the first survivor of the forward chain. -/
theorem svNext_eval {P : Poly} (R : Nat → Bool) :
    ∀ T fuel y, (∀ s, s < T → R ((stepF P)^[s] y) = true) →
      R ((stepF P)^[T] y) = false → T < fuel →
      svNext P R fuel y = (stepF P)^[T] y := by
  intro T
  induction T with
  | zero =>
    intro fuel y _ hT hfuel
    rw [Function.iterate_zero_apply] at hT ⊢
    cases fuel with
    | zero => omega
    | succ f =>
      show (if R y then svNext P R f (P.next (P.opp y)) else y) = y
      rw [hT]
      simp
  | succ T ih =>
    intro fuel y hpre hT hfuel
    cases fuel with
    | zero => omega
    | succ f =>
      have h0 : R y = true := by
        have := hpre 0 (Nat.succ_pos T)
        rwa [Function.iterate_zero_apply] at this
      show (if R y then svNext P R f (P.next (P.opp y)) else y) = _
      rw [h0]
      simp only [if_pos]
      have hrec := ih f (stepF P y) (fun s hs => by
          have hp := hpre (s + 1) (by omega)
          rwa [Function.iterate_succ_apply] at hp)
        (by rwa [Function.iterate_succ_apply] at hT) (by omega)
      rw [show P.next (P.opp y) = stepF P y from rfl, hrec, ← Function.iterate_succ_apply]

/-- `svPrev` computes the first survivor of the backward chain. -/
theorem svPrev_eval {P : Poly} (R : Nat → Bool) :
    ∀ T fuel y, (∀ s, s < T → R ((stepB P)^[s] y) = true) →
      R ((stepB P)^[T] y) = false → T < fuel →
      svPrev P R fuel y = (stepB P)^[T] y := by
  intro T
  induction T with
  | zero =>
    intro fuel y _ hT hfuel
    rw [Function.iterate_zero_apply] at hT ⊢
    cases fuel with
    | zero => omega
    | succ f =>
      show (if R y then svPrev P R f (P.prev (P.opp y)) else y) = y
      rw [hT]
      simp
  | succ T ih =>
    intro fuel y hpre hT hfuel
    cases fuel with
    | zero => omega
    | succ f =>
      have h0 : R y = true := by
        have := hpre 0 (Nat.succ_pos T)
        rwa [Function.iterate_zero_apply] at this
      show (if R y then svPrev P R f (P.prev (P.opp y)) else y) = _
      rw [h0]
      simp only [if_pos]
      have hrec := ih f (stepB P y) (fun s hs => by
          have hp := hpre (s + 1) (by omega)
          rwa [Function.iterate_succ_apply] at hp)
        (by rwa [Function.iterate_succ_apply] at hT) (by omega)
      rw [show P.prev (P.opp y) = stepB P y from rfl, hrec, ← Function.iterate_succ_apply]

/-- The forward relink of a survivor lands on a survivor, and the
backward relink from there returns. -/
theorem sv_pair {P : Poly} (hv : Valid P) (R : Nat → Bool)
    (hRo : ∀ y ∈ halfedges P, R y = true → R (P.opp y) = true)
    {x : Nat} (hx : x ∈ halfedges P) (hRx : R x = false) :
    ∃ z, svNext P R (fuelOf P) (P.next x) = z ∧ z ∈ halfedges P ∧ R z = false ∧
      svPrev P R (fuelOf P) (P.prev z) = x := by
  have inv := vInv hv
  have hexb := stepF_reaches hv R hRo hx hRx
  have hex : ∃ t, R ((stepF P)^[t] (P.next x)) = false := ⟨hexb.choose, hexb.choose_spec.2⟩
  have hTN : Nat.find hex ≤ (halfedges P).length :=
    Nat.find_min' hex hexb.choose_spec.2 |>.trans_eq rfl |>.trans hexb.choose_spec.1
  have hfuel : Nat.find hex < fuelOf P := by
    have hlen := length_halfedges P
    have : fuelOf P = 2 * P.edges.length + 2 := rfl
    omega
  have hpre : ∀ s, s < Nat.find hex → R ((stepF P)^[s] (P.next x)) = true := by
    intro s hs
    cases hbv : R ((stepF P)^[s] (P.next x)) with
    | false => exact absurd hbv (Nat.find_min hex hs)
    | true => rfl
  have hT : R ((stepF P)^[Nat.find hex] (P.next x)) = false := Nat.find_spec hex
  refine ⟨(stepF P)^[Nat.find hex] (P.next x),
    svNext_eval R (Nat.find hex) (fuelOf P) (P.next x) hpre hT hfuel,
    iterate_stepF_mem inv (next_mem inv hx) _, hT, ?_⟩
  -- backward chain from the survivor returns to x
  cases hfind : Nat.find hex with
  | zero =>
    rw [Function.iterate_zero_apply]
    have hx0 : P.prev (P.next x) = x := prev_next inv hx
    rw [hx0]
    have hzv := svPrev_eval (P := P) R 0 (fuelOf P) x
      (fun s hs => absurd hs (Nat.not_lt_zero s))
      (by rw [Function.iterate_zero_apply]; exact hRx)
      (by rw [show fuelOf P = 2 * P.edges.length + 2 from rfl]; omega)
    rw [hzv, Function.iterate_zero_apply]
  | succ T' =>
    -- identify the backward chain
    have hrc : ∀ s, s ≤ T' → (stepB P)^[s] (P.prev ((stepF P)^[T' + 1] (P.next x))) =
        P.opp ((stepF P)^[T' - s] (P.next x)) := by
      intro s
      induction s with
      | zero =>
        intro _
        rw [Function.iterate_zero_apply, Nat.sub_zero]
        have hm := iterate_stepF_mem inv (next_mem inv hx) T'
        have : (stepF P)^[T' + 1] (P.next x) =
            P.next (P.opp ((stepF P)^[T'] (P.next x))) := by
          rw [Function.iterate_succ_apply']
          rfl
        rw [this]
        exact prev_next inv (opp_mem inv hm)
      | succ s ihs =>
        intro hsle
        rw [Function.iterate_succ_apply', ihs (by omega)]
        show P.prev (P.opp (P.opp ((stepF P)^[T' - s] (P.next x)))) = _
        have hm := iterate_stepF_mem inv (next_mem inv hx) (T' - s)
        rw [opp_opp inv hm]
        have hts : T' - s = (T' - (s + 1)) + 1 := by omega
        rw [hts, Function.iterate_succ_apply']
        show P.prev (P.next (P.opp ((stepF P)^[T' - (s + 1)] (P.next x)))) = _
        exact prev_next inv (opp_mem inv (iterate_stepF_mem inv (next_mem inv hx) _))
    have hlast : (stepB P)^[T' + 1] (P.prev ((stepF P)^[T' + 1] (P.next x))) = x := by
      rw [Function.iterate_succ_apply', hrc T' (le_refl T'), Nat.sub_self,
        Function.iterate_zero_apply]
      show P.prev (P.opp (P.opp (P.next x))) = x
      rw [opp_opp inv (next_mem inv hx)]
      exact prev_next inv hx
    have hbpre : ∀ s, s < T' + 1 →
        R ((stepB P)^[s] (P.prev ((stepF P)^[T' + 1] (P.next x)))) = true := by
      intro s hs
      rw [hrc s (by omega)]
      apply hRo _ (iterate_stepF_mem inv (next_mem inv hx) _)
      exact hpre (T' - s) (by omega)
    have hbT : R ((stepB P)^[T' + 1] (P.prev ((stepF P)^[T' + 1] (P.next x)))) = false := by
      rw [hlast]
      exact hRx
    have hev := svPrev_eval (P := P) R (T' + 1) (fuelOf P)
      (P.prev ((stepF P)^[T' + 1] (P.next x))) hbpre hbT (by omega)
    rw [hev, hlast]

/-- Mirror image of `sv_pair`: the backward relink of a survivor lands
on a survivor, and the forward relink from there returns. -/
theorem sv_pair_rev {P : Poly} (hv : Valid P) (R : Nat → Bool)
    (hRo : ∀ y ∈ halfedges P, R y = true → R (P.opp y) = true)
    {x : Nat} (hx : x ∈ halfedges P) (hRx : R x = false) :
    ∃ w, svPrev P R (fuelOf P) (P.prev x) = w ∧ w ∈ halfedges P ∧ R w = false ∧
      svNext P R (fuelOf P) (P.next w) = x := by
  have inv := vInv hv
  have hexb := stepB_reaches hv R hRo hx hRx
  have hex : ∃ t, R ((stepB P)^[t] (P.prev x)) = false := ⟨hexb.choose, hexb.choose_spec.2⟩
  have hTN : Nat.find hex ≤ (halfedges P).length :=
    Nat.find_min' hex hexb.choose_spec.2 |>.trans_eq rfl |>.trans hexb.choose_spec.1
  have hfuel : Nat.find hex < fuelOf P := by
    have hlen := length_halfedges P
    have : fuelOf P = 2 * P.edges.length + 2 := rfl
    omega
  have hpre : ∀ s, s < Nat.find hex → R ((stepB P)^[s] (P.prev x)) = true := by
    intro s hs
    cases hbv : R ((stepB P)^[s] (P.prev x)) with
    | false => exact absurd hbv (Nat.find_min hex hs)
    | true => rfl
  have hT : R ((stepB P)^[Nat.find hex] (P.prev x)) = false := Nat.find_spec hex
  refine ⟨(stepB P)^[Nat.find hex] (P.prev x),
    svPrev_eval R (Nat.find hex) (fuelOf P) (P.prev x) hpre hT hfuel,
    iterate_stepB_mem inv (prev_mem inv hx) _, hT, ?_⟩
  cases hfind : Nat.find hex with
  | zero =>
    rw [Function.iterate_zero_apply]
    have hx0 : P.next (P.prev x) = x := next_prev inv hx
    rw [hx0]
    have hzv := svNext_eval (P := P) R 0 (fuelOf P) x
      (fun s hs => absurd hs (Nat.not_lt_zero s))
      (by rw [Function.iterate_zero_apply]; exact hRx)
      (by rw [show fuelOf P = 2 * P.edges.length + 2 from rfl]; omega)
    rw [hzv, Function.iterate_zero_apply]
  | succ T' =>
    have hrc : ∀ s, s ≤ T' → (stepF P)^[s] (P.next ((stepB P)^[T' + 1] (P.prev x))) =
        P.opp ((stepB P)^[T' - s] (P.prev x)) := by
      intro s
      induction s with
      | zero =>
        intro _
        rw [Function.iterate_zero_apply, Nat.sub_zero]
        have hm := iterate_stepB_mem inv (prev_mem inv hx) T'
        have : (stepB P)^[T' + 1] (P.prev x) =
            P.prev (P.opp ((stepB P)^[T'] (P.prev x))) := by
          rw [Function.iterate_succ_apply']
          rfl
        rw [this]
        exact next_prev inv (opp_mem inv hm)
      | succ s ihs =>
        intro hsle
        rw [Function.iterate_succ_apply', ihs (by omega)]
        show P.next (P.opp (P.opp ((stepB P)^[T' - s] (P.prev x)))) = _
        have hm := iterate_stepB_mem inv (prev_mem inv hx) (T' - s)
        rw [opp_opp inv hm]
        have hts : T' - s = (T' - (s + 1)) + 1 := by omega
        rw [hts, Function.iterate_succ_apply']
        show P.next (P.prev (P.opp ((stepB P)^[T' - (s + 1)] (P.prev x)))) = _
        exact next_prev inv (opp_mem inv (iterate_stepB_mem inv (prev_mem inv hx) _))
    have hlast : (stepF P)^[T' + 1] (P.next ((stepB P)^[T' + 1] (P.prev x))) = x := by
      rw [Function.iterate_succ_apply', hrc T' (le_refl T'), Nat.sub_self,
        Function.iterate_zero_apply]
      show P.next (P.opp (P.opp (P.prev x))) = x
      rw [opp_opp inv (prev_mem inv hx)]
      exact next_prev inv hx
    have hbpre : ∀ s, s < T' + 1 →
        R ((stepF P)^[s] (P.next ((stepB P)^[T' + 1] (P.prev x)))) = true := by
      intro s hs
      rw [hrc s (by omega)]
      apply hRo _ (iterate_stepB_mem inv (prev_mem inv hx) _)
      exact hpre (T' - s) (by omega)
    have hbT : R ((stepF P)^[T' + 1] (P.next ((stepB P)^[T' + 1] (P.prev x)))) = false := by
      rw [hlast]
      exact hRx
    have hev := svNext_eval (P := P) R (T' + 1) (fuelOf P)
      (P.next ((stepB P)^[T' + 1] (P.prev x))) hbpre hbT (by omega)
    rw [hev, hlast]

/-- The generic dissolving removal preserves the halfedge invariants
for any removal set closed under `opposite`. -/
theorem invC1_removeEdges {P : Poly} (hv : Valid P) (R : Nat → Bool)
    (hRo : ∀ y ∈ halfedges P, R y = true → R (P.opp y) = true) :
    invC1 (removeEdges P R) := by
  have inv := vInv hv
  intro x hx
  rw [mem_halfedges_removeEdges hv R] at hx
  obtain ⟨hxP, hRx, hRox⟩ := hx
  obtain ⟨z, hz_eq, hzH, hzR, hz_back⟩ := sv_pair hv R hRo hxP hRx
  obtain ⟨w, hw_eq, hwH, hwR, hw_fwd⟩ := sv_pair_rev hv R hRo hxP hRx
  refine ⟨?_, ?_, ?_, ?_, ?_, ?_, ?_⟩
  · rw [removeEdges_opp, removeEdges_opp]
    exact opp_opp inv hxP
  · rw [removeEdges_opp]
    exact opp_ne inv hxP
  · rw [removeEdges_opp, mem_halfedges_removeEdges hv R]
    refine ⟨opp_mem inv hxP, hRox, ?_⟩
    rw [opp_opp inv hxP]
    exact hRx
  · rw [removeEdges_next, hz_eq, mem_halfedges_removeEdges hv R]
    exact ⟨hzH, hzR, surv_opp inv R hRo hzH hzR⟩
  · rw [removeEdges_prev, hw_eq, mem_halfedges_removeEdges hv R]
    exact ⟨hwH, hwR, surv_opp inv R hRo hwH hwR⟩
  · rw [removeEdges_next, hz_eq, removeEdges_prev]
    exact hz_back
  · rw [removeEdges_prev, hw_eq, removeEdges_next]
    exact hw_fwd

/-- The removal mark for deleting every edge that carries a halfedge of
`S`; symmetric in the two halfedges of an edge by construction. -/
def remPred (P : Poly) (S : List Nat) : Nat → Bool :=
  fun x => decide (x ∈ S) || decide (P.opp x ∈ S)

theorem remPred_oppClosed {P : Poly} (inv : invC1 P) (S : List Nat) :
    ∀ y ∈ halfedges P, remPred P S y = true → remPred P S (P.opp y) = true := by
  intro y hy hR
  simp only [remPred, Bool.or_eq_true, decide_eq_true_iff] at hR ⊢
  rw [opp_opp inv hy]
  exact hR.symm

/-- Modelled from the spec: `erase_facet h` removes the incident facet
of `h`; the halfedges of its cycle become border halfedges, except that
those whose edge was already a border edge are removed from the surface
together with their edges, dissolving the facet into the neighbouring
holes.  Newly isolated vertices are removed as well. -/
def erase_facet (P : Poly) (h : Nat) : Poly :=
  let cyc := faceCycle P h
  let dead := cyc.filter (fun x => isBorder P (P.opp x))
  let Q := removeEdges P (remPred P dead)
  { Q with
    fct := fun x => if x ∈ cyc then none else P.fct x,
    facets := match P.fct h with
      | some f => P.facets.filter (fun x => x ≠ f)
      | none => P.facets,
    verts := P.verts.filter (fun vv =>
      decide (∃ x ∈ halfedges Q, P.vtx x = vv) ||
        !decide (∃ x ∈ halfedges P, P.vtx x = vv)) }

theorem invC1_erase_facet {P : Poly} (hv : Valid P) (h : Nat) :
    invC1 (erase_facet P h) :=
  invC1_congr rfl rfl rfl rfl
    (invC1_removeEdges hv _ (remPred_oppClosed (vInv hv) _))

/-- The vertex cycle (star) walked from `g`: the clockwise
`next_on_vertex` orbit of the halfedges pointing at `g`'s vertex. -/
def vertexCycle (P : Poly) (g : Nat) : List Nat :=
  cycleFrom (fun x => P.opp (P.next x)) g (fuelOf P) g

/-- Modelled from the spec: `erase_center_vertex g` erases the vertex
pointed to by `g` and all its incident halfedges (the spokes of its
star), merging all incident facets into the facet of `g`, which alone
remains.  Returns `g->prev()`, evaluated before the removal. -/
def erase_center_vertex (P : Poly) (g : Nat) : Poly × Nat :=
  let S := vertexCycle P g
  let Q := removeEdges P (remPred P S)
  ({ Q with
      fct := fun x => if S.any (fun s => P.fct s == P.fct x) then P.fct g else P.fct x,
      facets := P.facets.filter (fun f0 =>
        P.fct g == some f0 || S.all (fun s => !(P.fct s == some f0))),
      verts := P.verts.filter (fun vv => vv ≠ P.vtx g) },
   P.prev g)

theorem invC1_erase_center_vertex {P : Poly} (hv : Valid P) (g : Nat) :
    invC1 (erase_center_vertex P g).1 :=
  invC1_congr rfl rfl rfl rfl
    (invC1_removeEdges hv _ (remPred_oppClosed (vInv hv) _))

/-- Modelled from the spec: `erase_connected_component h` removes the
vertices, halfedges and facets of the connected component of `h`. -/
def erase_connected_component (P : Poly) (h : Nat) : Poly :=
  let c := component P h
  let Q := removeEdges P (remPred P c)
  { Q with
    verts := P.verts.filter (fun vv => c.all (fun x => P.vtx x ≠ vv)),
    facets := P.facets.filter (fun f0 => c.all (fun x => P.fct x ≠ some f0)) }

theorem invC1_erase_connected_component {P : Poly} (hv : Valid P) (h : Nat) :
    invC1 (erase_connected_component P h) :=
  invC1_congr rfl rfl rfl rfl
    (invC1_removeEdges hv _ (remPred_oppClosed (vInv hv) _))

/-!  Connected components are closed under `next` and `opposite`; this
justifies erasing whole components through the generic removal.  -/

theorem mem_compStep {P : Poly} {L : List Nat} {x : Nat} :
    x ∈ compStep P L ↔ x ∈ L ∨ (∃ y ∈ L, P.next y = x) ∨ ∃ y ∈ L, P.opp y = x := by
  simp [compStep, List.mem_dedup, List.mem_append, List.mem_map]

theorem componentFrom_succ (P : Poly) (f : Nat) (L : List Nat) :
    componentFrom P (f + 1) L = componentFrom P f (compStep P L) := rfl

theorem mem_componentFrom_of_mem {P : Poly} :
    ∀ (f : Nat) (L : List Nat) (x : Nat), x ∈ L → x ∈ componentFrom P f L := by
  intro f
  induction f with
  | zero => exact fun L x hx => hx
  | succ n ih =>
    intro L x hx
    rw [componentFrom_succ]
    exact ih _ x (mem_compStep.mpr (Or.inl hx))

theorem componentFrom_subset {P : Poly} (inv : invC1 P) :
    ∀ (f : Nat) (L : List Nat), (∀ x ∈ L, x ∈ halfedges P) →
      ∀ x ∈ componentFrom P f L, x ∈ halfedges P := by
  intro f
  induction f with
  | zero => exact fun L hL x hx => hL x hx
  | succ n ih =>
    intro L hL x hx
    rw [componentFrom_succ] at hx
    refine ih _ ?_ x hx
    intro z hz
    rcases mem_compStep.mp hz with hz | ⟨y, hy, rfl⟩ | ⟨y, hy, rfl⟩
    · exact hL z hz
    · exact next_mem inv (hL y hy)
    · exact opp_mem inv (hL y hy)

theorem stable_componentFrom {P : Poly} :
    ∀ (f : Nat) (L : List Nat), (∀ x ∈ L, P.next x ∈ L ∧ P.opp x ∈ L) →
      ∀ x, x ∈ componentFrom P f L ↔ x ∈ L := by
  intro f
  induction f with
  | zero => exact fun L _ x => Iff.rfl
  | succ n ih =>
    intro L hS x
    have hEq : ∀ z, z ∈ compStep P L ↔ z ∈ L := by
      intro z
      rw [mem_compStep]
      constructor
      · rintro (hz | ⟨y, hy, rfl⟩ | ⟨y, hy, rfl⟩)
        · exact hz
        · exact (hS y hy).1
        · exact (hS y hy).2
      · exact fun hz => Or.inl hz
    have hS' : ∀ z ∈ compStep P L, P.next z ∈ compStep P L ∧ P.opp z ∈ compStep P L := by
      intro z hz
      rw [hEq] at hz
      exact ⟨(hEq _).mpr (hS z hz).1, (hEq _).mpr (hS z hz).2⟩
    rw [componentFrom_succ, ih _ hS', hEq]

theorem componentFrom_stable {P : Poly} (inv : invC1 P) :
    ∀ (f : Nat) (L : List Nat), (∀ x ∈ L, x ∈ halfedges P) →
      (halfedges P).toFinset.card ≤ f + L.toFinset.card →
      ∀ x ∈ componentFrom P f L,
        P.next x ∈ componentFrom P f L ∧ P.opp x ∈ componentFrom P f L := by
  intro f
  induction f with
  | zero =>
    intro L hL hcard x hx
    have hsub : L.toFinset ⊆ (halfedges P).toFinset := by
      intro z hz
      rw [List.mem_toFinset] at hz ⊢
      exact hL z hz
    have heq : L.toFinset = (halfedges P).toFinset :=
      Finset.eq_of_subset_of_card_le hsub (by omega)
    have hmemL : ∀ z ∈ halfedges P, z ∈ L := by
      intro z hz
      have : z ∈ L.toFinset := by
        rw [heq, List.mem_toFinset]
        exact hz
      rwa [List.mem_toFinset] at this
    exact ⟨hmemL _ (next_mem inv (hL x hx)), hmemL _ (opp_mem inv (hL x hx))⟩
  | succ n ih =>
    intro L hL hcard x hx
    by_cases hstab : ∀ z ∈ L, P.next z ∈ L ∧ P.opp z ∈ L
    · have hiff := stable_componentFrom (n + 1) L hstab
      rw [hiff] at hx
      exact ⟨(hiff _).mpr (hstab x hx).1, (hiff _).mpr (hstab x hx).2⟩
    · push_neg at hstab
      obtain ⟨y, hy, hnew⟩ := hstab
      have hgrow : L.toFinset.card + 1 ≤ (compStep P L).toFinset.card := by
        have hsub : L.toFinset ⊆ (compStep P L).toFinset := by
          intro z hz
          rw [List.mem_toFinset] at hz ⊢
          exact mem_compStep.mpr (Or.inl hz)
        have hzz : ∃ z, z ∈ (compStep P L).toFinset ∧ z ∉ L.toFinset := by
          by_cases hN : P.next y ∈ L
          · refine ⟨P.opp y, ?_, ?_⟩
            · rw [List.mem_toFinset]
              exact mem_compStep.mpr (Or.inr (Or.inr ⟨y, hy, rfl⟩))
            · rw [List.mem_toFinset]
              exact hnew hN
          · refine ⟨P.next y, ?_, ?_⟩
            · rw [List.mem_toFinset]
              exact mem_compStep.mpr (Or.inr (Or.inl ⟨y, hy, rfl⟩))
            · rw [List.mem_toFinset]
              exact hN
        obtain ⟨z, hz1, hz2⟩ := hzz
        have : L.toFinset ⊂ (compStep P L).toFinset :=
          Finset.ssubset_iff_of_subset hsub |>.mpr ⟨z, hz1, hz2⟩
        have := Finset.card_lt_card this
        omega
      rw [componentFrom_succ] at hx ⊢
      refine ih (compStep P L) ?_ (by omega) x hx
      intro z hz
      rcases mem_compStep.mp hz with hz | ⟨w, hw, rfl⟩ | ⟨w, hw, rfl⟩
      · exact hL z hz
      · exact next_mem inv (hL w hw)
      · exact opp_mem inv (hL w hw)

/-- The connected component of a halfedge is closed under `next` and
`opposite`. -/
theorem component_closed {P : Poly} (inv : invC1 P) {h : Nat} (hh : h ∈ halfedges P) :
    ∀ x ∈ component P h, P.next x ∈ component P h ∧ P.opp x ∈ component P h := by
  apply componentFrom_stable inv (fuelOf P) [h]
  · intro x hx
    rw [List.mem_singleton] at hx
    exact hx ▸ hh
  · have h1 : (halfedges P).toFinset.card ≤ (halfedges P).length := List.toFinset_card_le _
    have h2 := length_halfedges P
    have h3 : fuelOf P = 2 * P.edges.length + 2 := rfl
    omega

theorem component_subset {P : Poly} (inv : invC1 P) {h : Nat} (hh : h ∈ halfedges P) :
    ∀ x ∈ component P h, x ∈ halfedges P := by
  apply componentFrom_subset inv
  intro x hx
  rw [List.mem_singleton] at hx
  exact hx ▸ hh

/-!  Keeping the largest components.  -/

/-- Insert a component into a list sorted by decreasing length. -/
def insertByLen (c : List Nat) : List (List Nat) → List (List Nat)
  | [] => [c]
  | d :: t => if d.length ≤ c.length then c :: d :: t else d :: insertByLen c t

/-- Sort components by decreasing length. -/
def sortByLen : List (List Nat) → List (List Nat)
  | [] => []
  | c :: t => insertByLen c (sortByLen t)

theorem mem_insertByLen {c d : List Nat} {L : List (List Nat)} :
    d ∈ insertByLen c L ↔ d = c ∨ d ∈ L := by
  induction L with
  | nil => simp [insertByLen]
  | cons e t ih =>
    rw [insertByLen]
    by_cases hle : e.length ≤ c.length
    · rw [if_pos hle]
      simp [List.mem_cons]
    · rw [if_neg hle]
      simp [List.mem_cons, ih]
      tauto

theorem mem_sortByLen {c : List Nat} {L : List (List Nat)} :
    c ∈ sortByLen L ↔ c ∈ L := by
  induction L with
  | nil => simp [sortByLen]
  | cons e t ih =>
    rw [sortByLen, mem_insertByLen, ih, List.mem_cons]

/-- The list of connected components, one per representative, in
iterator order. -/
def compsOf (P : Poly) : List (List Nat) :=
  (halfedges P).foldl
    (fun acc x => if acc.any (fun c => decide (x ∈ c)) then acc
      else acc ++ [component P x]) []

/-- Every stored component is the component of one of the halfedges. -/
theorem compsOf_mem {P : Poly} {c : List Nat} (hc : c ∈ compsOf P) :
    ∃ r ∈ halfedges P, c = component P r := by
  suffices hgen : ∀ (L : List Nat) (acc : List (List Nat)),
      (∀ d ∈ acc, ∃ r ∈ halfedges P, d = component P r) →
      (∀ x ∈ L, x ∈ halfedges P) →
      ∀ d ∈ L.foldl (fun acc x => if acc.any (fun c => decide (x ∈ c)) then acc
        else acc ++ [component P x]) acc,
        ∃ r ∈ halfedges P, d = component P r by
    exact hgen (halfedges P) [] (by simp) (fun x hx => hx) c hc
  intro L
  induction L with
  | nil =>
    intro acc hacc _ d hd
    exact hacc d hd
  | cons x t ih =>
    intro acc hacc hmem d hd
    rw [List.foldl_cons] at hd
    by_cases hxa : (acc.any (fun c => decide (x ∈ c))) = true
    · rw [if_pos hxa] at hd
      exact ih acc hacc (fun z hz => hmem z (List.mem_cons_of_mem x hz)) d hd
    · rw [if_neg hxa] at hd
      refine ih _ ?_ (fun z hz => hmem z (List.mem_cons_of_mem x hz)) d hd
      intro e he
      rcases List.mem_append.mp he with he | he
      · exact hacc e he
      · rw [List.mem_singleton] at he
        exact ⟨x, hmem x (List.mem_cons_self x t), he⟩

/-- Modelled from the spec: `keep_largest_connected_components n`
erases all but the `n` largest connected components, together with the
vertices and facets that lived on the erased ones; returns the number
of components erased. -/
def keep_largest_connected_components (P : Poly) (n : Nat) : Poly × Nat :=
  let comps := compsOf P
  let keep := ((sortByLen comps).take n).flatten
  let R : Nat → Bool := fun x => !(decide (x ∈ keep))
  let Q := removeEdges P R
  ({ Q with
      verts := P.verts.filter (fun vv => keep.any (fun x => P.vtx x == vv)),
      facets := P.facets.filter (fun f0 => keep.any (fun x => P.fct x == some f0)) },
   comps.length - n)

theorem invC1_keep_largest {P : Poly} (hv : Valid P) (n : Nat) :
    invC1 (keep_largest_connected_components P n).1 := by
  have inv := vInv hv
  refine invC1_congr rfl rfl rfl rfl
    (invC1_removeEdges hv
      (fun x => !(decide (x ∈ ((sortByLen (compsOf P)).take n).flatten))) ?_)
  intro y hy hR
  simp only [Bool.not_eq_true', decide_eq_false_iff_not] at hR ⊢
  intro hyk
  apply hR
  rw [List.mem_flatten] at hyk ⊢
  obtain ⟨c, hcT, hyc⟩ := hyk
  have hcM : c ∈ compsOf P := by
    have := List.take_subset _ _ hcT
    rwa [mem_sortByLen] at this
  obtain ⟨r, hrH, rfl⟩ := compsOf_mem hcM
  refine ⟨component P r, hcT, ?_⟩
  have hoy := (component_closed inv hrH (P.opp y) hyc).2
  rwa [opp_opp inv hy] at hoy

/-!  The facet cycle as an indexed orbit list.  -/

theorem next_returns {P : Poly} (inv : invC1 P) {h : Nat} (hh : h ∈ halfedges P) :
    ∃ m, P.next^[m + 1] h = h := by
  obtain ⟨a, b, hab, hbN, he⟩ := iterate_repeat (f := P.next) (H := halfedges P)
    (y := h) (iterate_next_mem inv hh)
  have hcyc : P.next^[b - a] h = h := by
    rw [show b = a + (b - a) from by omega, Function.iterate_add_apply] at he
    exact (iterate_next_cancel inv hh (iterate_next_mem inv hh (b - a)) a he).symm
  refine ⟨b - a - 1, ?_⟩
  rw [show b - a - 1 + 1 = b - a from by omega]
  exact hcyc

theorem period_distinct {P : Poly} (inv : invC1 P) {h : Nat} (hh : h ∈ halfedges P)
    (hex : ∃ m, P.next^[m + 1] h = h) :
    ∀ a b, a < b → b ≤ Nat.find hex → P.next^[a] h ≠ P.next^[b] h := by
  intro a b hab hble e
  have hper : P.next^[b - a] h = h := by
    rw [show b = a + (b - a) from by omega, Function.iterate_add_apply] at e
    exact (iterate_next_cancel inv hh (iterate_next_mem inv hh _) a e).symm
  have hmin := Nat.find_min hex (show b - a - 1 < Nat.find hex from by omega)
  apply hmin
  rw [show b - a - 1 + 1 = b - a from by omega]
  exact hper

theorem faceCycle_eq {P : Poly} (inv : invC1 P) {h : Nat} (hh : h ∈ halfedges P)
    (hex : ∃ m, P.next^[m + 1] h = h) :
    faceCycle P h = (List.range (Nat.find hex + 1)).map (fun i => P.next^[i] h) := by
  have hgm : P.next^[Nat.find hex + 1] h = h := Nat.find_spec hex
  have hdist := period_distinct inv hh hex
  have aux : ∀ d j, j + d = Nat.find hex →
      followsTo P.next h (P.next^[j] h)
        ((List.range (Nat.find hex - j)).map (fun i => P.next^[j + 1 + i] h)) := by
    intro d
    induction d with
    | zero =>
      intro j hj
      have hj' : j = Nat.find hex := by omega
      subst hj'
      rw [show Nat.find hex - Nat.find hex = 0 from by omega]
      show P.next (P.next^[Nat.find hex] h) = h
      exact (Function.iterate_succ_apply' P.next (Nat.find hex) h).symm.trans hgm
    | succ d ihd =>
      intro j hj
      rw [show Nat.find hex - j = d + 1 from by omega, List.range_succ_eq_map,
        List.map_cons, List.map_map]
      have htail : (List.range d).map ((fun i => P.next^[j + 1 + i] h) ∘ Nat.succ) =
          (List.range d).map (fun i => P.next^[j + 1 + 1 + i] h) := by
        apply List.map_congr_left
        intro i _
        show P.next^[j + 1 + (i + 1)] h = P.next^[j + 1 + 1 + i] h
        rw [show j + 1 + (i + 1) = j + 1 + 1 + i from by omega]
      rw [htail]
      have ih := ihd (j + 1) (by omega)
      rw [show Nat.find hex - (j + 1) = d from by omega] at ih
      refine ⟨?_, ?_, ih⟩
      · rw [show j + 1 + 0 = j + 1 from by omega]
        exact (Function.iterate_succ_apply' P.next j h).symm
      · rw [show j + 1 + 0 = j + 1 from by omega]
        intro e
        exact hdist 0 (j + 1) (by omega) (by omega) e.symm
  have hfollow : followsTo P.next h h
      ((List.range (Nat.find hex)).map (fun i => P.next^[0 + 1 + i] h)) := by
    have ih := aux (Nat.find hex) 0 (by omega)
    rw [show Nat.find hex - 0 = Nat.find hex from by omega] at ih
    exact ih
  have hnodup : ((List.range (Nat.find hex)).map (fun i => P.next^[0 + 1 + i] h)).Nodup := by
    apply List.Nodup.map_on _ (List.nodup_range (Nat.find hex))
    intro a ha b hb e
    rw [List.mem_range] at ha hb
    by_contra hab
    rcases Nat.lt_or_ge a b with hlt | hge
    · exact hdist (0 + 1 + a) (0 + 1 + b) (by omega) (by omega) e
    · have hlt : b < a := by omega
      exact hdist (0 + 1 + b) (0 + 1 + a) (by omega) (by omega) e.symm
  have hsub : ((List.range (Nat.find hex)).map (fun i => P.next^[0 + 1 + i] h)) ⊆
      halfedges P := by
    intro z hz
    rw [List.mem_map] at hz
    obtain ⟨i, _, rfl⟩ := hz
    exact iterate_next_mem inv hh _
  have hlenle : Nat.find hex ≤ (halfedges P).length := by
    have := (List.subperm_of_subset hnodup hsub).length_le
    simpa using this
  have hlen : ((List.range (Nat.find hex)).map (fun i => P.next^[0 + 1 + i] h)).length ≤
      fuelOf P := by
    rw [List.length_map, List.length_range]
    have hE : (halfedges P).length = 2 * P.edges.length := length_halfedges P
    show Nat.find hex ≤ 2 * P.edges.length + 2
    omega
  have hassemble := cycleFrom_eq P.next h _ h (fuelOf P) hfollow hlen
  have hrhs : (List.range (Nat.find hex + 1)).map (fun i => P.next^[i] h) =
      h :: (List.range (Nat.find hex)).map (fun i => P.next^[0 + 1 + i] h) := by
    rw [List.range_succ_eq_map, List.map_cons, List.map_map]
    refine List.cons_eq_cons.mpr ⟨?_, ?_⟩
    · rw [Function.iterate_zero_apply]
    · apply List.map_congr_left
      intro i _
      show P.next^[i + 1] h = P.next^[0 + 1 + i] h
      rw [show i + 1 = 0 + 1 + i from by omega]
  rw [hrhs]
  exact hassemble

/-- The facet cycle of a live halfedge is the full `next` orbit: an
indexed list of the iterates up to the first return, pairwise
distinct. -/
theorem faceCycle_spec {P : Poly} (inv : invC1 P) {h : Nat} (hh : h ∈ halfedges P) :
    ∃ d, 0 < d ∧ faceCycle P h = (List.range d).map (fun i => P.next^[i] h) ∧
      P.next^[d] h = h ∧ ∀ a b, a < b → b < d → P.next^[a] h ≠ P.next^[b] h := by
  have hex := next_returns inv hh
  refine ⟨Nat.find hex + 1, by omega, faceCycle_eq inv hh hex, Nat.find_spec hex, ?_⟩
  intro a b hab hbd
  exact period_distinct inv hh hex a b hab (by omega)

/-!  `create_center_vertex`: the wheel construction.  For a facet cycle
`L = [h, h₁, …, h_{k-1}]` a fresh center vertex `w` is connected to
every vertex of the facet: for each position `i` a fresh spoke pair
`(up i, down i)` is appended (`up i` points from the vertex of `L i`
up to `w`, `down i` from `w` back down to the vertex of `L i`), and
each triangle `L i → up i → down (i-1) → L i` becomes one facet: the
one containing `h` keeps the old facet, the other `k - 1` are fresh.  -/

/-- Modelled from the spec: `create_center_vertex h` performs the
barycentric triangulation of `h->facet()`: a new vertex (a copy of
`h->vertex()`) is created and connected to each vertex of the facet,
splitting the facet into triangles; `h` remains incident to the
original facet and the other triangles receive fresh facets.  Returns
`h->next()` after the operation, a halfedge pointing to the new
vertex. -/
def create_center_vertex (P : Poly) (h : Nat) : Poly × Nat :=
  let L := faceCycle P h
  let k := L.length
  let M := maxHandle P
  let w := maxVert P + 1
  let F : Nat → Option Nat := fun i => if i = 0 then P.fct h else some (maxFacet P + i)
  ({ edges := P.edges ++ (List.range k).map (fun i => (M + 1 + 2 * i, M + 2 + 2 * i)),
     verts := P.verts ++ [w],
     facets := P.facets ++ (List.range (k - 1)).map (fun i => maxFacet P + 1 + i),
     opp := fun x =>
       if M + 1 ≤ x ∧ x ≤ M + 2 * k then
         (if (x - M - 1) % 2 = 0 then x + 1 else x - 1)
       else P.opp x,
     next := fun x =>
       if x ∈ L then M + 1 + 2 * (List.indexOf x L)
       else if M + 1 ≤ x ∧ x ≤ M + 2 * k then
         (if (x - M - 1) % 2 = 0 then
           M + 2 + 2 * (if (x - M - 1) / 2 = 0 then k - 1 else (x - M - 1) / 2 - 1)
         else L.getD (if (x - M - 1) / 2 + 1 = k then 0 else (x - M - 1) / 2 + 1) 0)
       else P.next x,
     prev := fun x =>
       if x ∈ L then
         M + 2 + 2 * (if List.indexOf x L = 0 then k - 1 else List.indexOf x L - 1)
       else if M + 1 ≤ x ∧ x ≤ M + 2 * k then
         (if (x - M - 1) % 2 = 0 then L.getD ((x - M - 1) / 2) 0
         else M + 1 + 2 * (if (x - M - 1) / 2 + 1 = k then 0 else (x - M - 1) / 2 + 1))
       else P.prev x,
     vtx := fun x =>
       if M + 1 ≤ x ∧ x ≤ M + 2 * k then
         (if (x - M - 1) % 2 = 0 then w else P.vtx (L.getD ((x - M - 1) / 2) 0))
       else P.vtx x,
     fct := fun x =>
       if x ∈ L then F (List.indexOf x L)
       else if M + 1 ≤ x ∧ x ≤ M + 2 * k then
         (if (x - M - 1) % 2 = 0 then F ((x - M - 1) / 2)
         else F (if (x - M - 1) / 2 + 1 = k then 0 else (x - M - 1) / 2 + 1))
       else P.fct x,
     nbBorderEdges := P.nbBorderEdges,
     nbBorderHalfedges := P.nbBorderHalfedges },
   M + 1)

theorem ccv_next (P : Poly) (h x : Nat) :
    (create_center_vertex P h).1.next x =
      if x ∈ faceCycle P h then maxHandle P + 1 + 2 * (List.indexOf x (faceCycle P h))
      else if maxHandle P + 1 ≤ x ∧ x ≤ maxHandle P + 2 * (faceCycle P h).length then
        (if (x - maxHandle P - 1) % 2 = 0 then
          maxHandle P + 2 + 2 * (if (x - maxHandle P - 1) / 2 = 0
            then (faceCycle P h).length - 1 else (x - maxHandle P - 1) / 2 - 1)
        else (faceCycle P h).getD (if (x - maxHandle P - 1) / 2 + 1 = (faceCycle P h).length
          then 0 else (x - maxHandle P - 1) / 2 + 1) 0)
      else P.next x := rfl

theorem ccv_prev (P : Poly) (h x : Nat) :
    (create_center_vertex P h).1.prev x =
      if x ∈ faceCycle P h then
        maxHandle P + 2 + 2 * (if List.indexOf x (faceCycle P h) = 0
          then (faceCycle P h).length - 1 else List.indexOf x (faceCycle P h) - 1)
      else if maxHandle P + 1 ≤ x ∧ x ≤ maxHandle P + 2 * (faceCycle P h).length then
        (if (x - maxHandle P - 1) % 2 = 0 then
          (faceCycle P h).getD ((x - maxHandle P - 1) / 2) 0
        else maxHandle P + 1 + 2 * (if (x - maxHandle P - 1) / 2 + 1 = (faceCycle P h).length
          then 0 else (x - maxHandle P - 1) / 2 + 1))
      else P.prev x := rfl

theorem ccv_opp (P : Poly) (h x : Nat) :
    (create_center_vertex P h).1.opp x =
      if maxHandle P + 1 ≤ x ∧ x ≤ maxHandle P + 2 * (faceCycle P h).length then
        (if (x - maxHandle P - 1) % 2 = 0 then x + 1 else x - 1)
      else P.opp x := rfl

theorem ccv_edges (P : Poly) (h : Nat) :
    (create_center_vertex P h).1.edges =
      P.edges ++ (List.range (faceCycle P h).length).map
        (fun i => (maxHandle P + 1 + 2 * i, maxHandle P + 2 + 2 * i)) := rfl

theorem mem_halfedges_ccv (P : Poly) (h x : Nat) :
    x ∈ halfedges (create_center_vertex P h).1 ↔
      x ∈ halfedges P ∨
        (maxHandle P + 1 ≤ x ∧ x ≤ maxHandle P + 2 * (faceCycle P h).length) := by
  rw [halfedges, ccv_edges, List.flatMap_append, List.mem_append]
  have hiff : (x ∈ ((List.range (faceCycle P h).length).map
      (fun i => (maxHandle P + 1 + 2 * i, maxHandle P + 2 + 2 * i))).flatMap
        (fun e => [e.1, e.2])) ↔
      (maxHandle P + 1 ≤ x ∧ x ≤ maxHandle P + 2 * (faceCycle P h).length) := by
    simp only [List.mem_flatMap, List.mem_map, List.mem_range]
    constructor
    · rintro ⟨e, ⟨i, hik, rfl⟩, hxe⟩
      simp only [List.mem_cons, List.mem_singleton, List.not_mem_nil, or_false] at hxe
      rcases hxe with rfl | rfl <;> omega
    · intro hx
      refine ⟨(maxHandle P + 1 + 2 * ((x - maxHandle P - 1) / 2),
               maxHandle P + 2 + 2 * ((x - maxHandle P - 1) / 2)),
        ⟨(x - maxHandle P - 1) / 2, by omega, rfl⟩, ?_⟩
      simp only [List.mem_cons, List.mem_singleton, List.not_mem_nil, or_false]
      omega
  rw [hiff]
  rfl

/-- `create_center_vertex` preserves the halfedge invariants. -/
theorem invC1_create_center_vertex {P : Poly} (hv : Valid P) {h : Nat}
    (hh : h ∈ halfedges P) :
    invC1 (create_center_vertex P h).1 := by
  have inv := vInv hv
  obtain ⟨d, hd0, hLeq, hcyc, hdist⟩ := faceCycle_spec inv hh
  have hk : (faceCycle P h).length = d := by
    rw [hLeq, List.length_map, List.length_range]
  have hmemIt : ∀ i, P.next^[i] h ∈ halfedges P := iterate_next_mem inv hh
  have hgetE : ∀ i, i < d → (faceCycle P h).getD i 0 = P.next^[i] h := by
    intro i hi
    rw [hLeq, List.getD_eq_getElem?_getD, List.getElem?_map, List.getElem?_range hi]
    rfl
  have hLsub : ∀ x ∈ faceCycle P h, x ∈ halfedges P := by
    intro x hx
    rw [hLeq, List.mem_map] at hx
    obtain ⟨i, _, rfl⟩ := hx
    exact hmemIt i
  have hLle : ∀ x ∈ faceCycle P h, x ≤ maxHandle P :=
    fun x hx => mem_le_maxHandle P x (hLsub x hx)
  have hfreshL : ∀ x, maxHandle P < x → x ∉ faceCycle P h := by
    intro x hgt hmem
    have := hLle x hmem
    omega
  have hNodup : (faceCycle P h).Nodup := by
    rw [hLeq]
    apply List.Nodup.map_on _ (List.nodup_range d)
    intro a ha b hb e
    rw [List.mem_range] at ha hb
    by_contra hab
    rcases Nat.lt_or_ge a b with hlt | hge
    · exact hdist a b hlt hb e
    · have hlt : b < a := by omega
      exact hdist b a hlt ha e.symm
  have hmemI : ∀ i, i < d → P.next^[i] h ∈ faceCycle P h := by
    intro i hi
    rw [hLeq, List.mem_map]
    exact ⟨i, List.mem_range.mpr hi, rfl⟩
  have hmem_iff : ∀ x, x ∈ faceCycle P h → ∃ i, i < d ∧ x = P.next^[i] h := by
    intro x hx
    rw [hLeq, List.mem_map] at hx
    obtain ⟨i, hi, rfl⟩ := hx
    exact ⟨i, List.mem_range.mp hi, rfl⟩
  have hidx : ∀ i, i < d → List.indexOf (P.next^[i] h) (faceCycle P h) = i := by
    intro i hi
    have hi' : i < (faceCycle P h).length := by omega
    have hix := List.indexOf_getElem hNodup i hi'
    have hgi : (faceCycle P h)[i] = P.next^[i] h := by
      have hgd := hgetE i hi
      rw [List.getD_eq_getElem?_getD, List.getElem?_eq_getElem hi'] at hgd
      simpa using hgd
    rw [hgi] at hix
    exact hix
  have hnext_idx : ∀ i, i < d →
      P.next (P.next^[i] h) = P.next^[if i + 1 = d then 0 else i + 1] h := by
    intro i hi
    by_cases he : i + 1 = d
    · rw [if_pos he, Function.iterate_zero_apply]
      calc P.next (P.next^[i] h) = P.next^[i + 1] h :=
            (Function.iterate_succ_apply' P.next i h).symm
        _ = h := by rw [he]; exact hcyc
    · rw [if_neg he]
      exact (Function.iterate_succ_apply' P.next i h).symm
  have hprev_idx : ∀ i, i < d →
      P.prev (P.next^[i] h) = P.next^[if i = 0 then d - 1 else i - 1] h := by
    intro i hi
    by_cases h0 : i = 0
    · rw [if_pos h0, h0, Function.iterate_zero_apply]
      have hstep : P.next (P.next^[d - 1] h) = h := by
        have ht : P.next^[d] h = P.next (P.next^[d - 1] h) := by
          conv_lhs => rw [show d = d - 1 + 1 from by omega]
          exact Function.iterate_succ_apply' P.next (d - 1) h
        rw [← ht]
        exact hcyc
      calc P.prev h = P.prev (P.next (P.next^[d - 1] h)) := by rw [hstep]
        _ = P.next^[d - 1] h := prev_next inv (hmemIt (d - 1))
    · rw [if_neg h0]
      have hstep : P.next (P.next^[i - 1] h) = P.next^[i] h := by
        have ht : P.next^[i] h = P.next (P.next^[i - 1] h) := by
          conv_lhs => rw [show i = i - 1 + 1 from by omega]
          exact Function.iterate_succ_apply' P.next (i - 1) h
        exact ht.symm
      calc P.prev (P.next^[i] h) = P.prev (P.next (P.next^[i - 1] h)) := by rw [hstep]
        _ = P.next^[i - 1] h := prev_next inv (hmemIt (i - 1))
  have hipred_lt : ∀ i, i < d → (if i = 0 then d - 1 else i - 1) < d := by
    intro i hi
    by_cases h0 : i = 0
    · rw [if_pos h0]; omega
    · rw [if_neg h0]; omega
  have hisucc_lt : ∀ i, i < d → (if i + 1 = d then 0 else i + 1) < d := by
    intro i hi
    by_cases he : i + 1 = d
    · rw [if_pos he]; omega
    · rw [if_neg he]; omega
  have hsp : ∀ i, i < d →
      (if (if i = 0 then d - 1 else i - 1) + 1 = d then 0
        else (if i = 0 then d - 1 else i - 1) + 1) = i := by
    intro i hi
    by_cases h0 : i = 0
    · rw [if_pos h0, if_pos (by omega), h0]
    · rw [if_neg h0, if_neg (by omega)]
      omega
  have hps : ∀ i, i < d →
      (if (if i + 1 = d then 0 else i + 1) = 0 then d - 1
        else (if i + 1 = d then 0 else i + 1) - 1) = i := by
    intro i hi
    by_cases he : i + 1 = d
    · rw [if_pos he, if_pos rfl]
      omega
    · rw [if_neg he, if_neg (by omega)]
      omega
  -- pointwise evaluations
  have EV1 : ∀ i, i < d →
      (create_center_vertex P h).1.next (P.next^[i] h) = maxHandle P + 1 + 2 * i := by
    intro i hi
    rw [ccv_next, if_pos (hmemI i hi), hidx i hi]
  have EV2 : ∀ i, i < d →
      (create_center_vertex P h).1.next (maxHandle P + 1 + 2 * i) =
        maxHandle P + 2 + 2 * (if i = 0 then d - 1 else i - 1) := by
    intro i hi
    rw [ccv_next, if_neg (hfreshL _ (by omega)), if_pos (by constructor <;> omega),
      show maxHandle P + 1 + 2 * i - maxHandle P - 1 = 2 * i from by omega,
      if_pos (by omega), show 2 * i / 2 = i from by omega, hk]
  have EV3 : ∀ i, i < d →
      (create_center_vertex P h).1.next (maxHandle P + 2 + 2 * i) =
        P.next^[if i + 1 = d then 0 else i + 1] h := by
    intro i hi
    rw [ccv_next, if_neg (hfreshL _ (by omega)), if_pos (by constructor <;> omega),
      show maxHandle P + 2 + 2 * i - maxHandle P - 1 = 2 * i + 1 from by omega,
      if_neg (by omega), show (2 * i + 1) / 2 = i from by omega, hk]
    exact hgetE _ (hisucc_lt i hi)
  have EV4 : ∀ i, i < d →
      (create_center_vertex P h).1.prev (P.next^[i] h) =
        maxHandle P + 2 + 2 * (if i = 0 then d - 1 else i - 1) := by
    intro i hi
    rw [ccv_prev, if_pos (hmemI i hi), hidx i hi, hk]
  have EV5 : ∀ i, i < d →
      (create_center_vertex P h).1.prev (maxHandle P + 1 + 2 * i) = P.next^[i] h := by
    intro i hi
    rw [ccv_prev, if_neg (hfreshL _ (by omega)), if_pos (by constructor <;> omega),
      show maxHandle P + 1 + 2 * i - maxHandle P - 1 = 2 * i from by omega,
      if_pos (by omega), show 2 * i / 2 = i from by omega]
    exact hgetE i hi
  have EV6 : ∀ i, i < d →
      (create_center_vertex P h).1.prev (maxHandle P + 2 + 2 * i) =
        maxHandle P + 1 + 2 * (if i + 1 = d then 0 else i + 1) := by
    intro i hi
    rw [ccv_prev, if_neg (hfreshL _ (by omega)), if_pos (by constructor <;> omega),
      show maxHandle P + 2 + 2 * i - maxHandle P - 1 = 2 * i + 1 from by omega,
      if_neg (by omega), show (2 * i + 1) / 2 = i from by omega, hk]
  have EVold_n : ∀ x, x ∈ halfedges P → x ∉ faceCycle P h →
      (create_center_vertex P h).1.next x = P.next x := by
    intro x hxP hxL
    have hxM := mem_le_maxHandle P x hxP
    rw [ccv_next, if_neg hxL, if_neg (by omega)]
  have EVold_p : ∀ x, x ∈ halfedges P → x ∉ faceCycle P h →
      (create_center_vertex P h).1.prev x = P.prev x := by
    intro x hxP hxL
    have hxM := mem_le_maxHandle P x hxP
    rw [ccv_prev, if_neg hxL, if_neg (by omega)]
  have EVold_o : ∀ x, x ∈ halfedges P →
      (create_center_vertex P h).1.opp x = P.opp x := by
    intro x hxP
    have hxM := mem_le_maxHandle P x hxP
    rw [ccv_opp, if_neg (by omega)]
  have EVup_o : ∀ i, i < d →
      (create_center_vertex P h).1.opp (maxHandle P + 1 + 2 * i) =
        maxHandle P + 2 + 2 * i := by
    intro i hi
    rw [ccv_opp, if_pos (by constructor <;> omega),
      show maxHandle P + 1 + 2 * i - maxHandle P - 1 = 2 * i from by omega,
      if_pos (by omega)]
    omega
  have EVdown_o : ∀ i, i < d →
      (create_center_vertex P h).1.opp (maxHandle P + 2 + 2 * i) =
        maxHandle P + 1 + 2 * i := by
    intro i hi
    rw [ccv_opp, if_pos (by constructor <;> omega),
      show maxHandle P + 2 + 2 * i - maxHandle P - 1 = 2 * i + 1 from by omega,
      if_neg (by omega)]
    omega
  intro x hx
  rw [mem_halfedges_ccv] at hx
  rcases hx with hxP | hxF
  · by_cases hxL : x ∈ faceCycle P h
    · -- a halfedge of the subdivided facet cycle
      obtain ⟨i, hid, rfl⟩ := hmem_iff x hxL
      refine ⟨?_, ?_, ?_, ?_, ?_, ?_, ?_⟩
      · rw [EVold_o _ hxP, EVold_o _ (opp_mem inv hxP)]
        exact opp_opp inv hxP
      · rw [EVold_o _ hxP]
        exact opp_ne inv hxP
      · rw [EVold_o _ hxP, mem_halfedges_ccv]
        exact Or.inl (opp_mem inv hxP)
      · rw [EV1 i hid, mem_halfedges_ccv]
        right
        omega
      · rw [EV4 i hid, mem_halfedges_ccv]
        right
        have := hipred_lt i hid
        omega
      · rw [EV1 i hid, EV5 i hid]
      · rw [EV4 i hid, EV3 _ (hipred_lt i hid), hsp i hid]
    · -- an untouched old halfedge
      have hnL : P.next x ∉ faceCycle P h := by
        intro hmem
        obtain ⟨i, hi', he⟩ := hmem_iff _ hmem
        apply hxL
        have hx' : x = P.prev (P.next x) := (prev_next inv hxP).symm
        rw [hx', he, hprev_idx i hi']
        exact hmemI _ (hipred_lt i hi')
      have hpL : P.prev x ∉ faceCycle P h := by
        intro hmem
        obtain ⟨i, hi', he⟩ := hmem_iff _ hmem
        apply hxL
        have hx' : x = P.next (P.prev x) := (next_prev inv hxP).symm
        rw [hx', he, hnext_idx i hi']
        exact hmemI _ (hisucc_lt i hi')
      refine ⟨?_, ?_, ?_, ?_, ?_, ?_, ?_⟩
      · rw [EVold_o _ hxP, EVold_o _ (opp_mem inv hxP)]
        exact opp_opp inv hxP
      · rw [EVold_o _ hxP]
        exact opp_ne inv hxP
      · rw [EVold_o _ hxP, mem_halfedges_ccv]
        exact Or.inl (opp_mem inv hxP)
      · rw [EVold_n x hxP hxL, mem_halfedges_ccv]
        exact Or.inl (next_mem inv hxP)
      · rw [EVold_p x hxP hxL, mem_halfedges_ccv]
        exact Or.inl (prev_mem inv hxP)
      · rw [EVold_n x hxP hxL, EVold_p _ (next_mem inv hxP) hnL]
        exact prev_next inv hxP
      · rw [EVold_p x hxP hxL, EVold_n _ (prev_mem inv hxP) hpL]
        exact next_prev inv hxP
  · -- a fresh spoke halfedge
    rw [hk] at hxF
    by_cases hpar : (x - maxHandle P - 1) % 2 = 0
    · obtain ⟨i, hid, rfl⟩ : ∃ i, i < d ∧ x = maxHandle P + 1 + 2 * i :=
        ⟨(x - maxHandle P - 1) / 2, by omega, by omega⟩
      refine ⟨?_, ?_, ?_, ?_, ?_, ?_, ?_⟩
      · rw [EVup_o i hid, EVdown_o i hid]
      · rw [EVup_o i hid]
        omega
      · rw [EVup_o i hid, mem_halfedges_ccv]
        right
        omega
      · rw [EV2 i hid, mem_halfedges_ccv]
        right
        have := hipred_lt i hid
        omega
      · rw [EV5 i hid, mem_halfedges_ccv]
        exact Or.inl (hmemIt i)
      · rw [EV2 i hid, EV6 _ (hipred_lt i hid), hsp i hid]
      · rw [EV5 i hid, EV1 i hid]
    · obtain ⟨i, hid, rfl⟩ : ∃ i, i < d ∧ x = maxHandle P + 2 + 2 * i :=
        ⟨(x - maxHandle P - 1) / 2, by omega, by omega⟩
      refine ⟨?_, ?_, ?_, ?_, ?_, ?_, ?_⟩
      · rw [EVdown_o i hid, EVup_o i hid]
      · rw [EVdown_o i hid]
        omega
      · rw [EVdown_o i hid, mem_halfedges_ccv]
        right
        omega
      · rw [EV3 i hid, mem_halfedges_ccv]
        exact Or.inl (hmemIt _)
      · rw [EV6 i hid, mem_halfedges_ccv]
        right
        have := hisucc_lt i hid
        omega
      · rw [EV3 i hid, EV4 _ (hisucc_lt i hid), hps i hid]
      · rw [EV6 i hid, EV2 _ (hisucc_lt i hid), hps i hid]

/-- Modelled from the spec: `add_vertex_and_facet_to_border h g`
connects the tip of `g` with the tip of `h` by two new halfedge pairs
meeting in a new vertex, and fills the separated part of the hole (the
side of `g`) with a new facet.  The two splices are performed as two
fresh-pair insertions: first the pair between `h` and `g`, then the
pair between `g` and the hole-side fresh halfedge, which leaves the
facet-side path `g → a → b → h->next()` and the hole-side path
`h → ob → oa → g->next()` with the new vertex in the middle.  Returns
`a`, the halfedge of the new edge incident to the new facet and
pointing at the new vertex. -/
def add_vertex_and_facet_to_border (P : Poly) (h g : Nat) : Poly × Nat :=
  let M := maxHandle P
  let Q1 := insertEdge P h g (M + 4) (M + 3) (P.next g) (P.next h)
  let Q2 := insertEdge Q1 g (M + 4) (M + 1) (M + 2) (Q1.next g) (Q1.next (M + 4))
  let w := maxVert P + 1
  let fnew := maxFacet P + 1
  let loop := cycleFrom Q2.next (M + 1) (fuelOf Q2) (M + 1)
  ({ Q2 with
      verts := P.verts ++ [w],
      facets := P.facets ++ [fnew],
      vtx := upd (upd (upd (upd P.vtx (M + 1) w) (M + 2) (P.vtx g)) (M + 3) (P.vtx h))
        (M + 4) w,
      fct := fun x => if x ∈ loop then some fnew
        else if x = M + 2 ∨ x = M + 4 then none else P.fct x },
   M + 1)

/-- `add_vertex_and_facet_to_border` preserves the halfedge invariants:
both steps are fresh-pair splices. -/
theorem invC1_add_vertex_and_facet_to_border {P : Poly} {h g : Nat} (hv : Valid P)
    (hh : h ∈ halfedges P) (hg : g ∈ halfedges P) (hne : h ≠ g) :
    invC1 (add_vertex_and_facet_to_border P h g).1 := by
  have base1 := invC1_insertEdge P h g (maxHandle P + 4) (maxHandle P + 3)
    (P.next g) (P.next h) (vInv hv) hh hg hne
    (fun m => by have := mem_le_maxHandle P _ m; omega)
    (fun m => by have := mem_le_maxHandle P _ m; omega)
    (by omega) (Or.inr ⟨rfl, rfl⟩)
  have hgQ1 : g ∈ halfedges (insertEdge P h g (maxHandle P + 4) (maxHandle P + 3)
      (P.next g) (P.next h)) := by
    rw [halfedges_insertEdge]
    exact List.mem_append.mpr (Or.inl hg)
  have hobQ1 : maxHandle P + 4 ∈ halfedges (insertEdge P h g (maxHandle P + 4)
      (maxHandle P + 3) (P.next g) (P.next h)) := by
    rw [halfedges_insertEdge]
    exact List.mem_append.mpr (Or.inr (by simp))
  have hgne : g ≠ maxHandle P + 4 := by
    have := mem_le_maxHandle P g hg
    omega
  have hfresh1 : maxHandle P + 1 ∉ halfedges (insertEdge P h g (maxHandle P + 4)
      (maxHandle P + 3) (P.next g) (P.next h)) := by
    rw [halfedges_insertEdge]
    intro m
    rcases List.mem_append.mp m with m | m
    · have := mem_le_maxHandle P _ m
      omega
    · simp at m
  have hfresh2 : maxHandle P + 2 ∉ halfedges (insertEdge P h g (maxHandle P + 4)
      (maxHandle P + 3) (P.next g) (P.next h)) := by
    rw [halfedges_insertEdge]
    intro m
    rcases List.mem_append.mp m with m | m
    · have := mem_le_maxHandle P _ m
      omega
    · simp at m
  have base2 := invC1_insertEdge
    (insertEdge P h g (maxHandle P + 4) (maxHandle P + 3) (P.next g) (P.next h))
    g (maxHandle P + 4) (maxHandle P + 1) (maxHandle P + 2)
    ((insertEdge P h g (maxHandle P + 4) (maxHandle P + 3) (P.next g) (P.next h)).next g)
    ((insertEdge P h g (maxHandle P + 4) (maxHandle P + 3) (P.next g)
      (P.next h)).next (maxHandle P + 4))
    base1 hgQ1 hobQ1 hgne hfresh1 hfresh2 (by omega) (Or.inl ⟨rfl, rfl⟩)
  exact invC1_congr rfl rfl rfl rfl base2

/-!  `split_loop`: cutting along a cycle of three edges.  The three
cycle halfedges `h, i, j` leave their facet cycles and close one side
as a new triangle; fresh copies take their old places, and the copies'
opposites close the other side as the second new triangle.  Three new
vertices (copies of the cycle vertices) serve the copied side: the
halfedges of the vertex sectors on that side are re-pointed at them.  -/

/-- Walk the clockwise vertex sector from `cur` until reaching `stop`
(exclusive), collecting the visited halfedges. -/
def sectorFrom (P : Poly) (stop : Nat) : Nat → Nat → List Nat
  | 0, _ => []
  | fuel + 1, cur =>
    if cur = stop then [] else cur :: sectorFrom P stop fuel (P.opp (P.next cur))

/-- Modelled from the spec: `split_loop h i j` cuts the surface along
the cycle `(h, i, j)`: three new vertices (one copy per cycle vertex),
three new halfedge pairs (one copy per cycle halfedge) and two new
triangles are created; `h, i, j` become incident to the first new
triangle, and the returned halfedge — the copy of `h->opposite()` — is
incident to the second. -/
def split_loop (P : Poly) (h i j : Nat) : Poly × Nat :=
  let M := maxHandle P
  let V := maxVert P
  let F := maxFacet P
  ({ edges := P.edges ++ [(M + 1, M + 2), (M + 3, M + 4), (M + 5, M + 6)],
     verts := P.verts ++ [V + 1, V + 2, V + 3],
     facets := P.facets ++ [F + 1, F + 2],
     opp := upd (upd (upd (upd (upd (upd P.opp (M + 1) (M + 2)) (M + 2) (M + 1))
       (M + 3) (M + 4)) (M + 4) (M + 3)) (M + 5) (M + 6)) (M + 6) (M + 5),
     next := upd (upd (upd (upd (upd (upd (upd (upd (upd (upd (upd (upd P.next
       h i) i j) j h)
       (P.prev h) (M + 1)) (P.prev i) (M + 3)) (P.prev j) (M + 5))
       (M + 1) (P.next h)) (M + 3) (P.next i)) (M + 5) (P.next j))
       (M + 2) (M + 6)) (M + 6) (M + 4)) (M + 4) (M + 2),
     prev := upd (upd (upd (upd (upd (upd (upd (upd (upd (upd (upd (upd P.prev
       h j) i h) j i)
       (P.next h) (M + 1)) (P.next i) (M + 3)) (P.next j) (M + 5))
       (M + 1) (P.prev h)) (M + 3) (P.prev i)) (M + 5) (P.prev j))
       (M + 2) (M + 4)) (M + 4) (M + 6)) (M + 6) (M + 2),
     vtx := fun x =>
       if x = M + 1 then V + 1 else if x = M + 3 then V + 2 else if x = M + 5 then V + 3
       else if x = M + 2 then V + 3 else if x = M + 4 then V + 1 else if x = M + 6 then V + 2
       else if x ∈ sectorFrom P (P.opp i) (fuelOf P) (P.opp (P.next h)) then V + 1
       else if x ∈ sectorFrom P (P.opp j) (fuelOf P) (P.opp (P.next i)) then V + 2
       else if x ∈ sectorFrom P (P.opp h) (fuelOf P) (P.opp (P.next j)) then V + 3
       else P.vtx x,
     fct := fun x =>
       if x = h ∨ x = i ∨ x = j then some (F + 1)
       else if x = M + 2 ∨ x = M + 4 ∨ x = M + 6 then some (F + 2)
       else if x = M + 1 then P.fct h else if x = M + 3 then P.fct i
       else if x = M + 5 then P.fct j
       else P.fct x,
     nbBorderEdges := P.nbBorderEdges, nbBorderHalfedges := P.nbBorderHalfedges },
   M + 2)

theorem sl_next (P : Poly) (h i j x : Nat) :
    (split_loop P h i j).1.next x =
      if x = maxHandle P + 4 then maxHandle P + 2 else
      if x = maxHandle P + 6 then maxHandle P + 4 else
      if x = maxHandle P + 2 then maxHandle P + 6 else
      if x = maxHandle P + 5 then P.next j else
      if x = maxHandle P + 3 then P.next i else
      if x = maxHandle P + 1 then P.next h else
      if x = P.prev j then maxHandle P + 5 else
      if x = P.prev i then maxHandle P + 3 else
      if x = P.prev h then maxHandle P + 1 else
      if x = j then h else if x = i then j else if x = h then i else P.next x := rfl

theorem sl_prev (P : Poly) (h i j x : Nat) :
    (split_loop P h i j).1.prev x =
      if x = maxHandle P + 6 then maxHandle P + 2 else
      if x = maxHandle P + 4 then maxHandle P + 6 else
      if x = maxHandle P + 2 then maxHandle P + 4 else
      if x = maxHandle P + 5 then P.prev j else
      if x = maxHandle P + 3 then P.prev i else
      if x = maxHandle P + 1 then P.prev h else
      if x = P.next j then maxHandle P + 5 else
      if x = P.next i then maxHandle P + 3 else
      if x = P.next h then maxHandle P + 1 else
      if x = j then i else if x = i then h else if x = h then j else P.prev x := rfl

theorem sl_opp (P : Poly) (h i j x : Nat) :
    (split_loop P h i j).1.opp x =
      if x = maxHandle P + 6 then maxHandle P + 5 else
      if x = maxHandle P + 5 then maxHandle P + 6 else
      if x = maxHandle P + 4 then maxHandle P + 3 else
      if x = maxHandle P + 3 then maxHandle P + 4 else
      if x = maxHandle P + 2 then maxHandle P + 1 else
      if x = maxHandle P + 1 then maxHandle P + 2 else P.opp x := rfl

theorem halfedges_split_loop (P : Poly) (h i j : Nat) :
    halfedges (split_loop P h i j).1 = halfedges P ++
      [maxHandle P + 1, maxHandle P + 2, maxHandle P + 3, maxHandle P + 4,
       maxHandle P + 5, maxHandle P + 6] := by
  rw [halfedges, show (split_loop P h i j).1.edges = P.edges ++
    [(maxHandle P + 1, maxHandle P + 2), (maxHandle P + 3, maxHandle P + 4),
     (maxHandle P + 5, maxHandle P + 6)] from rfl, List.flatMap_append]
  rfl

theorem sl_fresh_mem (P : Poly) (h i j y : Nat) (h1 : maxHandle P + 1 ≤ y)
    (h2 : y ≤ maxHandle P + 6) : y ∈ halfedges (split_loop P h i j).1 := by
  rw [halfedges_split_loop, List.mem_append]
  right
  simp only [List.mem_cons, List.not_mem_nil, or_false]
  omega

set_option maxHeartbeats 2000000 in
/-- `split_loop` preserves the halfedge invariants when the three
facets incident to the cycle are pairwise distinct. -/
theorem invC1_split_loop {P : Poly} {h i j : Nat} (hv : Valid P)
    (hh : h ∈ halfedges P) (hi : i ∈ halfedges P) (hj : j ∈ halfedges P)
    (hfhi : P.fct h ≠ P.fct i) (hfhj : P.fct h ≠ P.fct j) (hfij : P.fct i ≠ P.fct j) :
    invC1 (split_loop P h i j).1 := by
  have inv := vInv hv
  have hnh : P.next h ∈ halfedges P := next_mem inv hh
  have hni : P.next i ∈ halfedges P := next_mem inv hi
  have hnj : P.next j ∈ halfedges P := next_mem inv hj
  have hph : P.prev h ∈ halfedges P := prev_mem inv hh
  have hpi : P.prev i ∈ halfedges P := prev_mem inv hi
  have hpj : P.prev j ∈ halfedges P := prev_mem inv hj
  have fNh : P.fct (P.next h) = P.fct h := vFctNext hv h hh
  have fNi : P.fct (P.next i) = P.fct i := vFctNext hv i hi
  have fNj : P.fct (P.next j) = P.fct j := vFctNext hv j hj
  have fctP : ∀ y, y ∈ halfedges P → P.fct (P.prev y) = P.fct y := by
    intro y hy
    have t := vFctNext hv _ (prev_mem inv hy)
    rw [next_prev inv hy] at t
    exact t.symm
  have fPh := fctP h hh
  have fPi := fctP i hi
  have fPj := fctP j hj
  have hnhh : P.next h ≠ h := (vMinDeg hv h hh).1
  have hnii : P.next i ≠ i := (vMinDeg hv i hi).1
  have hnjj : P.next j ≠ j := (vMinDeg hv j hj).1
  have hphh : P.prev h ≠ h := prev_ne_self hv hh
  have hpii : P.prev i ≠ i := prev_ne_self hv hi
  have hpjj : P.prev j ≠ j := prev_ne_self hv hj
  have hnhph : P.next h ≠ P.prev h := fun e =>
    (vMinDeg hv h hh).2 (by rw [e]; exact next_prev inv hh)
  have hnipi : P.next i ≠ P.prev i := fun e =>
    (vMinDeg hv i hi).2 (by rw [e]; exact next_prev inv hi)
  have hnjpj : P.next j ≠ P.prev j := fun e =>
    (vMinDeg hv j hj).2 (by rw [e]; exact next_prev inv hj)
  -- bounds
  have hhM := mem_le_maxHandle P h hh
  have hiM := mem_le_maxHandle P i hi
  have hjM := mem_le_maxHandle P j hj
  -- generic old evaluations
  have oldN : ∀ y, y ∈ halfedges P →
      (split_loop P h i j).1.next y =
        (if y = P.prev j then maxHandle P + 5 else if y = P.prev i then maxHandle P + 3
         else if y = P.prev h then maxHandle P + 1 else if y = j then h
         else if y = i then j else if y = h then i else P.next y) := by
    intro y hy
    have hyM := mem_le_maxHandle P y hy
    rw [sl_next, if_neg (by omega), if_neg (by omega), if_neg (by omega),
      if_neg (by omega), if_neg (by omega), if_neg (by omega)]
  have oldP : ∀ y, y ∈ halfedges P →
      (split_loop P h i j).1.prev y =
        (if y = P.next j then maxHandle P + 5 else if y = P.next i then maxHandle P + 3
         else if y = P.next h then maxHandle P + 1 else if y = j then i
         else if y = i then h else if y = h then j else P.prev y) := by
    intro y hy
    have hyM := mem_le_maxHandle P y hy
    rw [sl_prev, if_neg (by omega), if_neg (by omega), if_neg (by omega),
      if_neg (by omega), if_neg (by omega), if_neg (by omega)]
  have oldO : ∀ y, y ∈ halfedges P →
      (split_loop P h i j).1.opp y = P.opp y := by
    intro y hy
    have hyM := mem_le_maxHandle P y hy
    rw [sl_opp, if_neg (by omega), if_neg (by omega), if_neg (by omega),
      if_neg (by omega), if_neg (by omega), if_neg (by omega)]
  have GN : ∀ y, y ∈ halfedges P → y ≠ P.prev j → y ≠ P.prev i → y ≠ P.prev h →
      y ≠ j → y ≠ i → y ≠ h → (split_loop P h i j).1.next y = P.next y := by
    intro y hy c1 c2 c3 c4 c5 c6
    rw [oldN y hy, if_neg c1, if_neg c2, if_neg c3, if_neg c4, if_neg c5, if_neg c6]
  have GP : ∀ y, y ∈ halfedges P → y ≠ P.next j → y ≠ P.next i → y ≠ P.next h →
      y ≠ j → y ≠ i → y ≠ h → (split_loop P h i j).1.prev y = P.prev y := by
    intro y hy c1 c2 c3 c4 c5 c6
    rw [oldP y hy, if_neg c1, if_neg c2, if_neg c3, if_neg c4, if_neg c5, if_neg c6]
  -- value facts at the touched old handles
  have Nh : (split_loop P h i j).1.next h = i := by
    rw [oldN h hh, if_neg (fun e => hfhj (by rw [e]; exact fPj)),
      if_neg (fun e => hfhi (by rw [e]; exact fPi)), if_neg (Ne.symm hphh),
      if_neg (fun e => hfhj (by rw [e])), if_neg (fun e => hfhi (by rw [e])), if_pos rfl]
  have Ni : (split_loop P h i j).1.next i = j := by
    rw [oldN i hi, if_neg (fun e => hfij (by rw [e]; exact fPj)),
      if_neg (Ne.symm hpii), if_neg (fun e => hfhi ((by rw [e]; exact fPh) : P.fct i = P.fct h).symm),
      if_neg (fun e => hfij (by rw [e])), if_pos rfl]
  have Nj : (split_loop P h i j).1.next j = h := by
    rw [oldN j hj, if_neg (Ne.symm hpjj),
      if_neg (fun e => hfij ((by rw [e]; exact fPi) : P.fct j = P.fct i).symm),
      if_neg (fun e => hfhj ((by rw [e]; exact fPh) : P.fct j = P.fct h).symm),
      if_pos rfl]
  have Ph : (split_loop P h i j).1.prev h = j := by
    rw [oldP h hh, if_neg (fun e => hfhj (by rw [e]; exact fNj)),
      if_neg (fun e => hfhi (by rw [e]; exact fNi)), if_neg (Ne.symm hnhh),
      if_neg (fun e => hfhj (by rw [e])), if_neg (fun e => hfhi (by rw [e])), if_pos rfl]
  have Pi : (split_loop P h i j).1.prev i = h := by
    rw [oldP i hi, if_neg (fun e => hfij (by rw [e]; exact fNj)),
      if_neg (Ne.symm hnii), if_neg (fun e => hfhi ((by rw [e]; exact fNh) : P.fct i = P.fct h).symm),
      if_neg (fun e => hfij (by rw [e])), if_pos rfl]
  have Pj : (split_loop P h i j).1.prev j = i := by
    rw [oldP j hj, if_neg (Ne.symm hnjj),
      if_neg (fun e => hfij ((by rw [e]; exact fNi) : P.fct j = P.fct i).symm),
      if_neg (fun e => hfhj ((by rw [e]; exact fNh) : P.fct j = P.fct h).symm),
      if_pos rfl]
  have Nph : (split_loop P h i j).1.next (P.prev h) = maxHandle P + 1 := by
    rw [oldN _ hph, if_neg (fun e => hfhj (by rw [prev_inj inv hh hj e])),
      if_neg (fun e => hfhi (by rw [prev_inj inv hh hi e])), if_pos rfl]
  have Npi : (split_loop P h i j).1.next (P.prev i) = maxHandle P + 3 := by
    rw [oldN _ hpi, if_neg (fun e => hfij (by rw [prev_inj inv hi hj e])), if_pos rfl]
  have Npj : (split_loop P h i j).1.next (P.prev j) = maxHandle P + 5 := by
    rw [oldN _ hpj, if_pos rfl]
  have Pnh : (split_loop P h i j).1.prev (P.next h) = maxHandle P + 1 := by
    rw [oldP _ hnh, if_neg (fun e => hfhj (by rw [next_inj inv hh hj e])),
      if_neg (fun e => hfhi (by rw [next_inj inv hh hi e])), if_pos rfl]
  have Pni : (split_loop P h i j).1.prev (P.next i) = maxHandle P + 3 := by
    rw [oldP _ hni, if_neg (fun e => hfij (by rw [next_inj inv hi hj e])), if_pos rfl]
  have Pnj : (split_loop P h i j).1.prev (P.next j) = maxHandle P + 5 := by
    rw [oldP _ hnj, if_pos rfl]
  -- fresh evaluations
  have N1 : (split_loop P h i j).1.next (maxHandle P + 1) = P.next h := by
    rw [sl_next, if_neg (by omega), if_neg (by omega), if_neg (by omega),
      if_neg (by omega), if_neg (by omega), if_pos rfl]
  have N2 : (split_loop P h i j).1.next (maxHandle P + 2) = maxHandle P + 6 := by
    rw [sl_next, if_neg (by omega), if_neg (by omega), if_pos rfl]
  have N3 : (split_loop P h i j).1.next (maxHandle P + 3) = P.next i := by
    rw [sl_next, if_neg (by omega), if_neg (by omega), if_neg (by omega),
      if_neg (by omega), if_pos rfl]
  have N4 : (split_loop P h i j).1.next (maxHandle P + 4) = maxHandle P + 2 := by
    rw [sl_next, if_pos rfl]
  have N5 : (split_loop P h i j).1.next (maxHandle P + 5) = P.next j := by
    rw [sl_next, if_neg (by omega), if_neg (by omega), if_neg (by omega), if_pos rfl]
  have N6 : (split_loop P h i j).1.next (maxHandle P + 6) = maxHandle P + 4 := by
    rw [sl_next, if_neg (by omega), if_pos rfl]
  have P1 : (split_loop P h i j).1.prev (maxHandle P + 1) = P.prev h := by
    rw [sl_prev, if_neg (by omega), if_neg (by omega), if_neg (by omega),
      if_neg (by omega), if_neg (by omega), if_pos rfl]
  have P2 : (split_loop P h i j).1.prev (maxHandle P + 2) = maxHandle P + 4 := by
    rw [sl_prev, if_neg (by omega), if_neg (by omega), if_pos rfl]
  have P3 : (split_loop P h i j).1.prev (maxHandle P + 3) = P.prev i := by
    rw [sl_prev, if_neg (by omega), if_neg (by omega), if_neg (by omega),
      if_neg (by omega), if_pos rfl]
  have P4 : (split_loop P h i j).1.prev (maxHandle P + 4) = maxHandle P + 6 := by
    rw [sl_prev, if_neg (by omega), if_pos rfl]
  have P5 : (split_loop P h i j).1.prev (maxHandle P + 5) = P.prev j := by
    rw [sl_prev, if_neg (by omega), if_neg (by omega), if_neg (by omega), if_pos rfl]
  have P6 : (split_loop P h i j).1.prev (maxHandle P + 6) = maxHandle P + 2 := by
    rw [sl_prev, if_pos rfl]
  have O1 : (split_loop P h i j).1.opp (maxHandle P + 1) = maxHandle P + 2 := by
    rw [sl_opp, if_neg (by omega), if_neg (by omega), if_neg (by omega),
      if_neg (by omega), if_neg (by omega), if_pos rfl]
  have O2 : (split_loop P h i j).1.opp (maxHandle P + 2) = maxHandle P + 1 := by
    rw [sl_opp, if_neg (by omega), if_neg (by omega), if_neg (by omega),
      if_neg (by omega), if_pos rfl]
  have O3 : (split_loop P h i j).1.opp (maxHandle P + 3) = maxHandle P + 4 := by
    rw [sl_opp, if_neg (by omega), if_neg (by omega), if_neg (by omega), if_pos rfl]
  have O4 : (split_loop P h i j).1.opp (maxHandle P + 4) = maxHandle P + 3 := by
    rw [sl_opp, if_neg (by omega), if_neg (by omega), if_pos rfl]
  have O5 : (split_loop P h i j).1.opp (maxHandle P + 5) = maxHandle P + 6 := by
    rw [sl_opp, if_neg (by omega), if_pos rfl]
  have O6 : (split_loop P h i j).1.opp (maxHandle P + 6) = maxHandle P + 5 := by
    rw [sl_opp, if_pos rfl]
  intro x hx
  rw [halfedges_split_loop, List.mem_append] at hx
  rcases hx with hxP | hxFr
  · -- old halfedge
    have Copp1 : (split_loop P h i j).1.opp ((split_loop P h i j).1.opp x) = x := by
      rw [oldO x hxP, oldO _ (opp_mem inv hxP)]
      exact opp_opp inv hxP
    have Copp2 : (split_loop P h i j).1.opp x ≠ x := by
      rw [oldO x hxP]
      exact opp_ne inv hxP
    have Copp3 : (split_loop P h i j).1.opp x ∈ halfedges (split_loop P h i j).1 := by
      rw [oldO x hxP, halfedges_split_loop, List.mem_append]
      exact Or.inl (opp_mem inv hxP)
    by_cases hxh : x = h
    · subst hxh
      refine ⟨Copp1, Copp2, Copp3, ?_, ?_, ?_, ?_⟩
      · rw [Nh, halfedges_split_loop, List.mem_append]
        exact Or.inl hi
      · rw [Ph, halfedges_split_loop, List.mem_append]
        exact Or.inl hj
      · rw [Nh, Pi]
      · rw [Ph, Nj]
    by_cases hxi : x = i
    · subst hxi
      refine ⟨Copp1, Copp2, Copp3, ?_, ?_, ?_, ?_⟩
      · rw [Ni, halfedges_split_loop, List.mem_append]
        exact Or.inl hj
      · rw [Pi, halfedges_split_loop, List.mem_append]
        exact Or.inl hh
      · rw [Ni, Pj]
      · rw [Pi, Nh]
    by_cases hxj : x = j
    · subst hxj
      refine ⟨Copp1, Copp2, Copp3, ?_, ?_, ?_, ?_⟩
      · rw [Nj, halfedges_split_loop, List.mem_append]
        exact Or.inl hh
      · rw [Pj, halfedges_split_loop, List.mem_append]
        exact Or.inl hi
      · rw [Nj, Ph]
      · rw [Pj, Ni]
    by_cases hxph : x = P.prev h
    · subst hxph
      have hpphm : P.prev (P.prev h) ∈ halfedges P := prev_mem inv hph
      have fPPh : P.fct (P.prev (P.prev h)) = P.fct h := (fctP _ hph).trans fPh
      have GPph : (split_loop P h i j).1.prev (P.prev h) = P.prev (P.prev h) :=
        GP _ hph (fun e => hfhj (by rw [← fPh, e]; exact fNj))
          (fun e => hfhi (by rw [← fPh, e]; exact fNi))
          (fun e => hnhph e.symm)
          (fun e => hfhj (by rw [← fPh, e]))
          (fun e => hfhi (by rw [← fPh, e]))
          hphh
      have GNpph : (split_loop P h i j).1.next (P.prev (P.prev h)) = P.prev h := by
        rw [GN _ hpphm
          (fun e => hfhj (by rw [← fPh, prev_inj inv hph hj e]))
          (fun e => hfhi (by rw [← fPh, prev_inj inv hph hi e]))
          (fun e => hphh (prev_inj inv hph hh e))
          (fun e => hfhj (by rw [← fPPh, e]))
          (fun e => hfhi (by rw [← fPPh, e]))
          (fun e => hnhph (by rw [← next_prev inv hph, e]))]
        exact next_prev inv hph
      refine ⟨Copp1, Copp2, Copp3, ?_, ?_, ?_, ?_⟩
      · rw [Nph, halfedges_split_loop, List.mem_append]
        right
        simp
      · rw [GPph, halfedges_split_loop, List.mem_append]
        exact Or.inl hpphm
      · rw [Nph, P1]
      · rw [GPph, GNpph]
    by_cases hxpi : x = P.prev i
    · subst hxpi
      have hppim : P.prev (P.prev i) ∈ halfedges P := prev_mem inv hpi
      have fPPi : P.fct (P.prev (P.prev i)) = P.fct i := (fctP _ hpi).trans fPi
      have GPpi : (split_loop P h i j).1.prev (P.prev i) = P.prev (P.prev i) :=
        GP _ hpi (fun e => hfij (by rw [← fPi, e]; exact fNj))
          (fun e => hnipi e.symm)
          (fun e => hfhi ((by rw [← fPi, e]; exact fNh) : P.fct i = P.fct h).symm)
          (fun e => hfij (by rw [← fPi, e]))
          hpii
          (fun e => hfhi ((by rw [← fPi, e]) : P.fct i = P.fct h).symm)
      have GNppi : (split_loop P h i j).1.next (P.prev (P.prev i)) = P.prev i := by
        rw [GN _ hppim
          (fun e => hfij (by rw [← fPi, prev_inj inv hpi hj e]))
          (fun e => hpii (prev_inj inv hpi hi e))
          (fun e => hfhi ((by rw [← fPi, prev_inj inv hpi hh e]) : P.fct i = P.fct h).symm)
          (fun e => hfij (by rw [← fPPi, e]))
          (fun e => hnipi (by rw [← next_prev inv hpi, e]))
          (fun e => hfhi ((by rw [← fPPi, e]) : P.fct i = P.fct h).symm)]
        exact next_prev inv hpi
      refine ⟨Copp1, Copp2, Copp3, ?_, ?_, ?_, ?_⟩
      · rw [Npi, halfedges_split_loop, List.mem_append]
        right
        simp
      · rw [GPpi, halfedges_split_loop, List.mem_append]
        exact Or.inl hppim
      · rw [Npi, P3]
      · rw [GPpi, GNppi]
    by_cases hxpj : x = P.prev j
    · subst hxpj
      have hppjm : P.prev (P.prev j) ∈ halfedges P := prev_mem inv hpj
      have fPPj : P.fct (P.prev (P.prev j)) = P.fct j := (fctP _ hpj).trans fPj
      have GPpj : (split_loop P h i j).1.prev (P.prev j) = P.prev (P.prev j) :=
        GP _ hpj (fun e => hnjpj e.symm)
          (fun e => hfij ((by rw [← fPj, e]; exact fNi) : P.fct j = P.fct i).symm)
          (fun e => hfhj ((by rw [← fPj, e]; exact fNh) : P.fct j = P.fct h).symm)
          hpjj
          (fun e => hfij ((by rw [← fPj, e]) : P.fct j = P.fct i).symm)
          (fun e => hfhj ((by rw [← fPj, e]) : P.fct j = P.fct h).symm)
      have GNppj : (split_loop P h i j).1.next (P.prev (P.prev j)) = P.prev j := by
        rw [GN _ hppjm
          (fun e => hpjj (prev_inj inv hpj hj e))
          (fun e => hfij ((by rw [← fPj, prev_inj inv hpj hi e]) : P.fct j = P.fct i).symm)
          (fun e => hfhj ((by rw [← fPj, prev_inj inv hpj hh e]) : P.fct j = P.fct h).symm)
          (fun e => hnjpj (by rw [← next_prev inv hpj, e]))
          (fun e => hfij ((by rw [← fPPj, e]) : P.fct j = P.fct i).symm)
          (fun e => hfhj ((by rw [← fPPj, e]) : P.fct j = P.fct h).symm)]
        exact next_prev inv hpj
      refine ⟨Copp1, Copp2, Copp3, ?_, ?_, ?_, ?_⟩
      · rw [Npj, halfedges_split_loop, List.mem_append]
        right
        simp
      · rw [GPpj, halfedges_split_loop, List.mem_append]
        exact Or.inl hppjm
      · rw [Npj, P5]
      · rw [GPpj, GNppj]
    by_cases hxnh : x = P.next h
    · subst hxnh
      have hnnhm : P.next (P.next h) ∈ halfedges P := next_mem inv hnh
      have fNNh : P.fct (P.next (P.next h)) = P.fct h := (vFctNext hv _ hnh).trans fNh
      have GNnh : (split_loop P h i j).1.next (P.next h) = P.next (P.next h) :=
        GN _ hnh (fun e => hfhj (by rw [← fNh, e]; exact fPj))
          (fun e => hfhi (by rw [← fNh, e]; exact fPi))
          hnhph
          (fun e => hfhj (by rw [← fNh, e]))
          (fun e => hfhi (by rw [← fNh, e]))
          hnhh
      have GPnnh : (split_loop P h i j).1.prev (P.next (P.next h)) = P.next h := by
        rw [GP _ hnnhm
          (fun e => hfhj (by rw [← fNh, next_inj inv hnh hj e]))
          (fun e => hfhi (by rw [← fNh, next_inj inv hnh hi e]))
          (fun e => hnhh (next_inj inv hnh hh e))
          (fun e => hfhj (by rw [← fNNh, e]))
          (fun e => hfhi (by rw [← fNNh, e]))
          (vMinDeg hv h hh).2]
        exact prev_next inv hnh
      refine ⟨Copp1, Copp2, Copp3, ?_, ?_, ?_, ?_⟩
      · rw [GNnh, halfedges_split_loop, List.mem_append]
        exact Or.inl hnnhm
      · rw [Pnh, halfedges_split_loop, List.mem_append]
        right
        simp
      · rw [GNnh, GPnnh]
      · rw [Pnh, N1]
    by_cases hxni : x = P.next i
    · subst hxni
      have hnnim : P.next (P.next i) ∈ halfedges P := next_mem inv hni
      have fNNi : P.fct (P.next (P.next i)) = P.fct i := (vFctNext hv _ hni).trans fNi
      have GNni : (split_loop P h i j).1.next (P.next i) = P.next (P.next i) :=
        GN _ hni (fun e => hfij (by rw [← fNi, e]; exact fPj))
          hnipi
          (fun e => hfhi ((by rw [← fNi, e]; exact fPh) : P.fct i = P.fct h).symm)
          (fun e => hfij (by rw [← fNi, e]))
          hnii
          (fun e => hfhi ((by rw [← fNi, e]) : P.fct i = P.fct h).symm)
      have GPnni : (split_loop P h i j).1.prev (P.next (P.next i)) = P.next i := by
        rw [GP _ hnnim
          (fun e => hfij (by rw [← fNi, next_inj inv hni hj e]))
          (fun e => hnii (next_inj inv hni hi e))
          (fun e => hfhi ((by rw [← fNi, next_inj inv hni hh e]) : P.fct i = P.fct h).symm)
          (fun e => hfij (by rw [← fNNi, e]))
          (vMinDeg hv i hi).2
          (fun e => hfhi ((by rw [← fNNi, e]) : P.fct i = P.fct h).symm)]
        exact prev_next inv hni
      refine ⟨Copp1, Copp2, Copp3, ?_, ?_, ?_, ?_⟩
      · rw [GNni, halfedges_split_loop, List.mem_append]
        exact Or.inl hnnim
      · rw [Pni, halfedges_split_loop, List.mem_append]
        right
        simp
      · rw [GNni, GPnni]
      · rw [Pni, N3]
    by_cases hxnj : x = P.next j
    · subst hxnj
      have hnnjm : P.next (P.next j) ∈ halfedges P := next_mem inv hnj
      have fNNj : P.fct (P.next (P.next j)) = P.fct j := (vFctNext hv _ hnj).trans fNj
      have GNnj : (split_loop P h i j).1.next (P.next j) = P.next (P.next j) :=
        GN _ hnj hnjpj
          (fun e => hfij ((by rw [← fNj, e]; exact fPi) : P.fct j = P.fct i).symm)
          (fun e => hfhj ((by rw [← fNj, e]; exact fPh) : P.fct j = P.fct h).symm)
          hnjj
          (fun e => hfij ((by rw [← fNj, e]) : P.fct j = P.fct i).symm)
          (fun e => hfhj ((by rw [← fNj, e]) : P.fct j = P.fct h).symm)
      have GPnnj : (split_loop P h i j).1.prev (P.next (P.next j)) = P.next j := by
        rw [GP _ hnnjm
          (fun e => hnjj (next_inj inv hnj hj e))
          (fun e => hfij ((by rw [← fNj, next_inj inv hnj hi e]) : P.fct j = P.fct i).symm)
          (fun e => hfhj ((by rw [← fNj, next_inj inv hnj hh e]) : P.fct j = P.fct h).symm)
          (vMinDeg hv j hj).2
          (fun e => hfij ((by rw [← fNNj, e]) : P.fct j = P.fct i).symm)
          (fun e => hfhj ((by rw [← fNNj, e]) : P.fct j = P.fct h).symm)]
        exact prev_next inv hnj
      refine ⟨Copp1, Copp2, Copp3, ?_, ?_, ?_, ?_⟩
      · rw [GNnj, halfedges_split_loop, List.mem_append]
        exact Or.inl hnnjm
      · rw [Pnj, halfedges_split_loop, List.mem_append]
        right
        simp
      · rw [GNnj, GPnnj]
      · rw [Pnj, N5]
    · have GNx : (split_loop P h i j).1.next x = P.next x :=
        GN x hxP hxpj hxpi hxph hxj hxi hxh
      have GPx : (split_loop P h i j).1.prev x = P.prev x :=
        GP x hxP hxnj hxni hxnh hxj hxi hxh
      have GPnx : (split_loop P h i j).1.prev (P.next x) = x := by
        rw [GP _ (next_mem inv hxP)
          (fun e => hxj (next_inj inv hxP hj e))
          (fun e => hxi (next_inj inv hxP hi e))
          (fun e => hxh (next_inj inv hxP hh e))
          (fun e => hxpj (by rw [← prev_next inv hxP, e]))
          (fun e => hxpi (by rw [← prev_next inv hxP, e]))
          (fun e => hxph (by rw [← prev_next inv hxP, e]))]
        exact prev_next inv hxP
      have GNpx : (split_loop P h i j).1.next (P.prev x) = x := by
        rw [GN _ (prev_mem inv hxP)
          (fun e => hxj (prev_inj inv hxP hj e))
          (fun e => hxi (prev_inj inv hxP hi e))
          (fun e => hxh (prev_inj inv hxP hh e))
          (fun e => hxnj (by rw [← next_prev inv hxP, e]))
          (fun e => hxni (by rw [← next_prev inv hxP, e]))
          (fun e => hxnh (by rw [← next_prev inv hxP, e]))]
        exact next_prev inv hxP
      refine ⟨Copp1, Copp2, Copp3, ?_, ?_, ?_, ?_⟩
      · rw [GNx, halfedges_split_loop, List.mem_append]
        exact Or.inl (next_mem inv hxP)
      · rw [GPx, halfedges_split_loop, List.mem_append]
        exact Or.inl (prev_mem inv hxP)
      · rw [GNx, GPnx]
      · rw [GPx, GNpx]
  · simp only [List.mem_cons, List.not_mem_nil, or_false] at hxFr
    rcases hxFr with rfl | rfl | rfl | rfl | rfl | rfl
    · exact ⟨by rw [O1, O2], by rw [O1]; exact fun e => absurd (Nat.add_left_cancel e) (by decide), by rw [O1]; exact sl_fresh_mem P h i j _ (Nat.add_le_add_left (by decide) _) (Nat.add_le_add_left (by decide) _),
        by rw [N1, halfedges_split_loop, List.mem_append]; exact Or.inl hnh,
        by rw [P1, halfedges_split_loop, List.mem_append]; exact Or.inl hph,
        by rw [N1, Pnh], by rw [P1, Nph]⟩
    · exact ⟨by rw [O2, O1], by rw [O2]; exact fun e => absurd (Nat.add_left_cancel e) (by decide), by rw [O2]; exact sl_fresh_mem P h i j _ (Nat.add_le_add_left (by decide) _) (Nat.add_le_add_left (by decide) _),
        by rw [N2]; exact sl_fresh_mem P h i j _ (Nat.add_le_add_left (by decide) _) (Nat.add_le_add_left (by decide) _),
        by rw [P2]; exact sl_fresh_mem P h i j _ (Nat.add_le_add_left (by decide) _) (Nat.add_le_add_left (by decide) _),
        by rw [N2, P6], by rw [P2, N4]⟩
    · exact ⟨by rw [O3, O4], by rw [O3]; exact fun e => absurd (Nat.add_left_cancel e) (by decide), by rw [O3]; exact sl_fresh_mem P h i j _ (Nat.add_le_add_left (by decide) _) (Nat.add_le_add_left (by decide) _),
        by rw [N3, halfedges_split_loop, List.mem_append]; exact Or.inl hni,
        by rw [P3, halfedges_split_loop, List.mem_append]; exact Or.inl hpi,
        by rw [N3, Pni], by rw [P3, Npi]⟩
    · exact ⟨by rw [O4, O3], by rw [O4]; exact fun e => absurd (Nat.add_left_cancel e) (by decide), by rw [O4]; exact sl_fresh_mem P h i j _ (Nat.add_le_add_left (by decide) _) (Nat.add_le_add_left (by decide) _),
        by rw [N4]; exact sl_fresh_mem P h i j _ (Nat.add_le_add_left (by decide) _) (Nat.add_le_add_left (by decide) _),
        by rw [P4]; exact sl_fresh_mem P h i j _ (Nat.add_le_add_left (by decide) _) (Nat.add_le_add_left (by decide) _),
        by rw [N4, P2], by rw [P4, N6]⟩
    · exact ⟨by rw [O5, O6], by rw [O5]; exact fun e => absurd (Nat.add_left_cancel e) (by decide), by rw [O5]; exact sl_fresh_mem P h i j _ (Nat.add_le_add_left (by decide) _) (Nat.add_le_add_left (by decide) _),
        by rw [N5, halfedges_split_loop, List.mem_append]; exact Or.inl hnj,
        by rw [P5, halfedges_split_loop, List.mem_append]; exact Or.inl hpj,
        by rw [N5, Pnj], by rw [P5, Npj]⟩
    · exact ⟨by rw [O6, O5], by rw [O6]; exact fun e => absurd (Nat.add_left_cancel e) (by decide), by rw [O6]; exact sl_fresh_mem P h i j _ (Nat.add_le_add_left (by decide) _) (Nat.add_le_add_left (by decide) _),
        by rw [N6]; exact sl_fresh_mem P h i j _ (Nat.add_le_add_left (by decide) _) (Nat.add_le_add_left (by decide) _),
        by rw [P6]; exact sl_fresh_mem P h i j _ (Nat.add_le_add_left (by decide) _) (Nat.add_le_add_left (by decide) _),
        by rw [N6, P4], by rw [P6, N2]⟩


/-!  `join_loop`: gluing two facet boundaries of equal degree.  The
halfedges and vertices of `g`'s boundary disappear: each halfedge
opposite to `g`'s boundary is identified with the corresponding
halfedge of `h`'s boundary (orientations reversed), `h`'s boundary
keeps its handles and adopts the incidences of the handles it
replaces, and both facets are removed.  -/

theorem fct_iterate_next {P : Poly} (hv : Valid P) {y : Nat} (hy : y ∈ halfedges P) :
    ∀ i, P.fct (P.next^[i] y) = P.fct y := by
  intro i
  induction i with
  | zero => rfl
  | succ n ih =>
    rw [Function.iterate_succ_apply']
    rw [vFctNext hv _ (iterate_next_mem (vInv hv) hy n)]
    exact ih

/-- The halfedge of the glued surface that position `t` of `h`'s
boundary replaces: the halfedge opposite to position `0` of `g`'s
boundary for `t = 0`, opposite to position `d - t` otherwise (the
gluing reverses orientation). -/
def jlq (P : Poly) (h g : Nat) (t : Nat) : Nat :=
  P.opp ((faceCycle P g).getD (if t = 0 then 0 else (faceCycle P h).length - t) 0)

/-- The halfedges replaced by `h`'s boundary, listed in `h`'s order. -/
def jlqL (P : Poly) (h g : Nat) : List Nat :=
  (List.range (faceCycle P h).length).map (jlq P h g)

/-- Rename each replaced halfedge to its replacement. -/
def jlsig (P : Poly) (h g : Nat) (y : Nat) : Nat :=
  if y ∈ jlqL P h g then (faceCycle P h).getD (List.indexOf y (jlqL P h g)) 0 else y

/-- Redirect a handle of `h`'s boundary to the handle it replaces. -/
def jltau (P : Poly) (h g : Nat) (x : Nat) : Nat :=
  if x ∈ faceCycle P h then jlq P h g (List.indexOf x (faceCycle P h)) else x

/-- Marks the halfedges of `g`'s boundary, whose edges disappear. -/
def jlR (P : Poly) (g : Nat) : Nat → Bool := fun y => decide (y ∈ faceCycle P g)

/-- Modelled from the spec: `join_loop h g` glues the boundaries of the
two facets denoted by `h` and `g` together and returns `h`.  Both
facets and the vertices along the facet denoted by `g` are removed; the
edges of `g`'s boundary disappear, their outer halfedges being
identified one-to-one with the halfedges of `h`'s boundary (with
reversed orientation, so that sources match targets).  The doc requires
the two facets to be different and of equal degree; both may be holes. -/
def join_loop (P : Poly) (h g : Nat) : Poly × Nat :=
  ({ edges := P.edges.filter (fun e => jlR P g e.1 = false ∧ jlR P g e.2 = false),
     verts := P.verts.filter (fun v => !((faceCycle P g).any (fun y => P.vtx y == v))),
     facets := P.facets.filter (fun f => !(P.fct h == some f) && !(P.fct g == some f)),
     opp := P.opp,
     next := fun x => jlsig P h g (P.next (jltau P h g x)),
     prev := fun x => jlsig P h g (P.prev (jltau P h g x)),
     vtx := fun x =>
       if (faceCycle P g).any (fun y => P.vtx y == P.vtx x) then
         P.vtx ((faceCycle P h).getD ((faceCycle P h).length - 1 -
           (faceCycle P g).findIdx (fun y => P.vtx y == P.vtx x)) 0)
       else P.vtx x,
     fct := fun x => P.fct (jltau P h g x),
     nbBorderEdges := P.nbBorderEdges, nbBorderHalfedges := P.nbBorderHalfedges },
   h)

theorem jl_edges (P : Poly) (h g : Nat) :
    (join_loop P h g).1.edges =
      P.edges.filter (fun e => jlR P g e.1 = false ∧ jlR P g e.2 = false) := rfl

theorem jl_next (P : Poly) (h g x : Nat) :
    (join_loop P h g).1.next x = jlsig P h g (P.next (jltau P h g x)) := rfl

theorem jl_prev (P : Poly) (h g x : Nat) :
    (join_loop P h g).1.prev x = jlsig P h g (P.prev (jltau P h g x)) := rfl

theorem jl_opp (P : Poly) (h g x : Nat) :
    (join_loop P h g).1.opp x = P.opp x := rfl

/-- A halfedge survives `join_loop` iff neither it nor its opposite
lies on `g`'s boundary. -/
theorem mem_halfedges_join_loop {P : Poly} (hv : Valid P) (h g x : Nat) :
    x ∈ halfedges (join_loop P h g).1 ↔
      x ∈ halfedges P ∧ jlR P g x = false ∧ jlR P g (P.opp x) = false := by
  constructor
  · intro hx
    rw [halfedges, jl_edges, List.mem_flatMap] at hx
    obtain ⟨e, he, hxe⟩ := hx
    rw [List.mem_filter] at he
    obtain ⟨heM, heP⟩ := he
    have hcond : jlR P g e.1 = false ∧ jlR P g e.2 = false := by simpa using heP
    have pairs := vPairs hv e heM
    have hxP : x ∈ halfedges P := by
      rw [halfedges, List.mem_flatMap]
      exact ⟨e, heM, hxe⟩
    have hx12 : x = e.1 ∨ x = e.2 := by simpa using hxe
    refine ⟨hxP, ?_, ?_⟩
    · rcases hx12 with rfl | rfl
      · exact hcond.1
      · exact hcond.2
    · rcases hx12 with rfl | rfl
      · rw [pairs.1]; exact hcond.2
      · rw [pairs.2]; exact hcond.1
  · rintro ⟨hxP, hR1, hR2⟩
    rw [halfedges, List.mem_flatMap] at hxP
    obtain ⟨e, heM, hxe⟩ := hxP
    have pairs := vPairs hv e heM
    have hx12 : x = e.1 ∨ x = e.2 := by simpa using hxe
    rw [halfedges, jl_edges, List.mem_flatMap]
    refine ⟨e, ?_, hxe⟩
    rw [List.mem_filter]
    refine ⟨heM, ?_⟩
    have hcond : jlR P g e.1 = false ∧ jlR P g e.2 = false := by
      rcases hx12 with rfl | rfl
      · refine ⟨hR1, ?_⟩
        rw [← pairs.1]
        exact hR2
      · refine ⟨?_, hR1⟩
        rw [← pairs.2]
        exact hR2
    simpa using hcond

set_option maxHeartbeats 2000000 in
/-- `join_loop` preserves the halfedge invariants whenever the two
boundaries have equal degree, the two facets differ, and no facet
outside `g`'s boundary coincides with `h`'s facet. -/
theorem invC1_join_loop {P : Poly} {h g : Nat} (hv : Valid P)
    (hh : h ∈ halfedges P) (hg : g ∈ halfedges P)
    (hfhg : P.fct h ≠ P.fct g)
    (hdeg : (faceCycle P g).length = (faceCycle P h).length)
    (hqh : ∀ y ∈ faceCycle P g, P.fct (P.opp y) ≠ P.fct h) :
    invC1 (join_loop P h g).1 := by
  have inv := vInv hv
  obtain ⟨d, hd0, hLh, hcych, hinjh⟩ := faceCycle_spec inv hh
  obtain ⟨d2, hd02, hLg, hcycg, hinjg⟩ := faceCycle_spec inv hg
  have hlenh : (faceCycle P h).length = d := by
    rw [hLh, List.length_map, List.length_range]
  have hleng : (faceCycle P g).length = d2 := by
    rw [hLg, List.length_map, List.length_range]
  have hd2 : d2 = d := by omega
  rw [hd2] at hd02 hLg hcycg hinjg hleng
  have hItH : ∀ i, P.next^[i] h ∈ halfedges P := iterate_next_mem inv hh
  have hItG : ∀ i, P.next^[i] g ∈ halfedges P := iterate_next_mem inv hg
  have hgetH : ∀ t, t < d → (faceCycle P h).getD t 0 = P.next^[t] h := by
    intro t ht
    rw [hLh, List.getD_eq_getElem?_getD, List.getElem?_map, List.getElem?_range ht]
    rfl
  have hgetG : ∀ t, t < d → (faceCycle P g).getD t 0 = P.next^[t] g := by
    intro t ht
    rw [hLg, List.getD_eq_getElem?_getD, List.getElem?_map, List.getElem?_range ht]
    rfl
  have hNodupH : (faceCycle P h).Nodup := by
    rw [hLh]
    apply List.Nodup.map_on _ (List.nodup_range d)
    intro a ha b hb e
    rw [List.mem_range] at ha hb
    by_contra hab
    rcases Nat.lt_or_ge a b with hlt | hge
    · exact hinjh a b hlt hb e
    · exact hinjh b a (by omega) ha e.symm
  have hNodupG : (faceCycle P g).Nodup := by
    rw [hLg]
    apply List.Nodup.map_on _ (List.nodup_range d)
    intro a ha b hb e
    rw [List.mem_range] at ha hb
    by_contra hab
    rcases Nat.lt_or_ge a b with hlt | hge
    · exact hinjg a b hlt hb e
    · exact hinjg b a (by omega) ha e.symm
  have hmemIH : ∀ t, t < d → P.next^[t] h ∈ faceCycle P h := by
    intro t ht
    rw [hLh, List.mem_map]
    exact ⟨t, List.mem_range.mpr ht, rfl⟩
  have hmemIG : ∀ t, t < d → P.next^[t] g ∈ faceCycle P g := by
    intro t ht
    rw [hLg, List.mem_map]
    exact ⟨t, List.mem_range.mpr ht, rfl⟩
  have hmemffH : ∀ x, x ∈ faceCycle P h → ∃ t, t < d ∧ x = P.next^[t] h := by
    intro x hx
    rw [hLh, List.mem_map] at hx
    obtain ⟨t, ht, rfl⟩ := hx
    exact ⟨t, List.mem_range.mp ht, rfl⟩
  have hmemffG : ∀ x, x ∈ faceCycle P g → ∃ t, t < d ∧ x = P.next^[t] g := by
    intro x hx
    rw [hLg, List.mem_map] at hx
    obtain ⟨t, ht, rfl⟩ := hx
    exact ⟨t, List.mem_range.mp ht, rfl⟩
  have hidxH : ∀ t, t < d → List.indexOf (P.next^[t] h) (faceCycle P h) = t := by
    intro t ht
    have ht' : t < (faceCycle P h).length := by omega
    have hix := List.indexOf_getElem hNodupH t ht'
    have hgi : (faceCycle P h)[t] = P.next^[t] h := by
      have hgd := hgetH t ht
      rw [List.getD_eq_getElem?_getD, List.getElem?_eq_getElem ht'] at hgd
      simpa using hgd
    rw [hgi] at hix
    exact hix
  have hLsubH : ∀ x ∈ faceCycle P h, x ∈ halfedges P := by
    intro x hx
    obtain ⟨t, _, rfl⟩ := hmemffH x hx
    exact hItH t
  have hLsubG : ∀ x ∈ faceCycle P g, x ∈ halfedges P := by
    intro x hx
    obtain ⟨t, _, rfl⟩ := hmemffG x hx
    exact hItG t
  have hnextH : ∀ t, t < d → P.next (P.next^[t] h) = P.next^[if t + 1 = d then 0 else t + 1] h := by
    intro t ht
    by_cases he : t + 1 = d
    · rw [if_pos he]
      calc P.next (P.next^[t] h) = P.next^[t + 1] h :=
            (Function.iterate_succ_apply' P.next t h).symm
        _ = h := by rw [he]; exact hcych
    · rw [if_neg he]
      exact (Function.iterate_succ_apply' P.next t h).symm
  have hnextG : ∀ t, t < d → P.next (P.next^[t] g) = P.next^[if t + 1 = d then 0 else t + 1] g := by
    intro t ht
    by_cases he : t + 1 = d
    · rw [if_pos he]
      calc P.next (P.next^[t] g) = P.next^[t + 1] g :=
            (Function.iterate_succ_apply' P.next t g).symm
        _ = g := by rw [he]; exact hcycg
    · rw [if_neg he]
      exact (Function.iterate_succ_apply' P.next t g).symm
  have hprevH : ∀ t, t < d → P.prev (P.next^[t] h) = P.next^[if t = 0 then d - 1 else t - 1] h := by
    intro t ht
    by_cases ht0 : t = 0
    · subst ht0
      rw [if_pos rfl]
      have e1 : P.next (P.next^[d - 1] h) = h := by
        calc P.next (P.next^[d - 1] h) = P.next^[d - 1 + 1] h :=
              (Function.iterate_succ_apply' P.next (d - 1) h).symm
          _ = P.next^[d] h := by rw [show d - 1 + 1 = d from by omega]
          _ = h := hcych
      have e2 := prev_next inv (hItH (d - 1))
      rw [e1] at e2
      exact e2
    · rw [if_neg ht0]
      have e1 : P.next (P.next^[t - 1] h) = P.next^[t] h := by
        calc P.next (P.next^[t - 1] h) = P.next^[t - 1 + 1] h :=
              (Function.iterate_succ_apply' P.next (t - 1) h).symm
          _ = P.next^[t] h := by rw [show t - 1 + 1 = t from by omega]
      have e2 := prev_next inv (hItH (t - 1))
      rw [e1] at e2
      exact e2
  have hprevG : ∀ t, t < d → P.prev (P.next^[t] g) = P.next^[if t = 0 then d - 1 else t - 1] g := by
    intro t ht
    by_cases ht0 : t = 0
    · subst ht0
      rw [if_pos rfl]
      have e1 : P.next (P.next^[d - 1] g) = g := by
        calc P.next (P.next^[d - 1] g) = P.next^[d - 1 + 1] g :=
              (Function.iterate_succ_apply' P.next (d - 1) g).symm
          _ = P.next^[d] g := by rw [show d - 1 + 1 = d from by omega]
          _ = g := hcycg
      have e2 := prev_next inv (hItG (d - 1))
      rw [e1] at e2
      exact e2
    · rw [if_neg ht0]
      have e1 : P.next (P.next^[t - 1] g) = P.next^[t] g := by
        calc P.next (P.next^[t - 1] g) = P.next^[t - 1 + 1] g :=
              (Function.iterate_succ_apply' P.next (t - 1) g).symm
          _ = P.next^[t] g := by rw [show t - 1 + 1 = t from by omega]
      have e2 := prev_next inv (hItG (t - 1))
      rw [e1] at e2
      exact e2
  have hLhNext : ∀ z ∈ faceCycle P h, P.next z ∈ faceCycle P h := by
    intro z hz
    obtain ⟨u, hu, rfl⟩ := hmemffH z hz
    rw [hnextH u hu]
    exact hmemIH _ (by split <;> omega)
  have hLhPrev : ∀ z ∈ faceCycle P h, P.prev z ∈ faceCycle P h := by
    intro z hz
    obtain ⟨u, hu, rfl⟩ := hmemffH z hz
    rw [hprevH u hu]
    exact hmemIH _ (by split <;> omega)
  have hLgNext : ∀ z ∈ faceCycle P g, P.next z ∈ faceCycle P g := by
    intro z hz
    obtain ⟨u, hu, rfl⟩ := hmemffG z hz
    rw [hnextG u hu]
    exact hmemIG _ (by split <;> omega)
  have hLgPrev : ∀ z ∈ faceCycle P g, P.prev z ∈ faceCycle P g := by
    intro z hz
    obtain ⟨u, hu, rfl⟩ := hmemffG z hz
    rw [hprevG u hu]
    exact hmemIG _ (by split <;> omega)
  have fctLh : ∀ x ∈ faceCycle P h, P.fct x = P.fct h := by
    intro x hx
    obtain ⟨t, _, rfl⟩ := hmemffH x hx
    exact fct_iterate_next hv hh t
  have fctLg : ∀ x ∈ faceCycle P g, P.fct x = P.fct g := by
    intro x hx
    obtain ⟨t, _, rfl⟩ := hmemffG x hx
    exact fct_iterate_next hv hg t
  have hslt : ∀ t, t < d → (if t = 0 then 0 else d - t) < d := by
    intro t ht
    split <;> omega
  have hqval : ∀ t, t < d → jlq P h g t = P.opp (P.next^[if t = 0 then 0 else d - t] g) := by
    intro t ht
    simp only [jlq]
    rw [hlenh, hgetG _ (hslt t ht)]
  have hqmem : ∀ t, t < d → jlq P h g t ∈ halfedges P := by
    intro t ht
    rw [hqval t ht]
    exact opp_mem inv (hItG _)
  have hoppq : ∀ t, t < d → P.opp (jlq P h g t) = P.next^[if t = 0 then 0 else d - t] g := by
    intro t ht
    rw [hqval t ht]
    exact opp_opp inv (hItG _)
  have gInj : ∀ u v, u < d → v < d → P.next^[u] g = P.next^[v] g → u = v := by
    intro u v hu hv e
    by_contra hne
    rcases Nat.lt_or_ge u v with hlt | hge
    · exact hinjg u v hlt hv e
    · exact hinjg v u (by omega) hu e.symm
  have hqinj : ∀ a b, a < d → b < d → jlq P h g a = jlq P h g b → a = b := by
    intro a b ha hb e
    have e2 : P.next^[if a = 0 then 0 else d - a] g =
        P.next^[if b = 0 then 0 else d - b] g := by
      rw [← hoppq a ha, ← hoppq b hb, e]
    have e3 := gInj _ _ (hslt a ha) (hslt b hb) e2
    split_ifs at e3 <;> omega
  have hqLlen : (jlqL P h g).length = d := by
    rw [jlqL, List.length_map, List.length_range, hlenh]
  have hgetQ : ∀ t, t < d → (jlqL P h g).getD t 0 = jlq P h g t := by
    intro t ht
    rw [jlqL, hlenh, List.getD_eq_getElem?_getD, List.getElem?_map, List.getElem?_range ht]
    rfl
  have hNodupQ : (jlqL P h g).Nodup := by
    rw [jlqL, hlenh]
    apply List.Nodup.map_on _ (List.nodup_range d)
    intro a ha b hb e
    rw [List.mem_range] at ha hb
    exact hqinj a b ha hb e
  have hmemQ_iff : ∀ y, y ∈ jlqL P h g ↔ ∃ t, t < d ∧ y = jlq P h g t := by
    intro y
    rw [jlqL, hlenh]
    constructor
    · intro hy
      rw [List.mem_map] at hy
      obtain ⟨t, ht, rfl⟩ := hy
      exact ⟨t, List.mem_range.mp ht, rfl⟩
    · rintro ⟨t, ht, rfl⟩
      rw [List.mem_map]
      exact ⟨t, List.mem_range.mpr ht, rfl⟩
  have hidxQ : ∀ t, t < d → List.indexOf (jlq P h g t) (jlqL P h g) = t := by
    intro t ht
    have ht' : t < (jlqL P h g).length := by omega
    have hix := List.indexOf_getElem hNodupQ t ht'
    have hgi : (jlqL P h g)[t] = jlq P h g t := by
      have hgd := hgetQ t ht
      rw [List.getD_eq_getElem?_getD, List.getElem?_eq_getElem ht'] at hgd
      simpa using hgd
    rw [hgi] at hix
    exact hix
  have hsigq : ∀ t, t < d → jlsig P h g (jlq P h g t) = P.next^[t] h := by
    intro t ht
    simp only [jlsig]
    rw [if_pos ((hmemQ_iff _).mpr ⟨t, ht, rfl⟩), hidxQ t ht, hgetH t ht]
  have hsig_id : ∀ y, y ∉ jlqL P h g → jlsig P h g y = y := by
    intro y hy
    simp only [jlsig]
    rw [if_neg hy]
  have htau_id : ∀ x, x ∉ faceCycle P h → jltau P h g x = x := by
    intro x hx
    simp only [jltau]
    rw [if_neg hx]
  have htauH : ∀ t, t < d → jltau P h g (P.next^[t] h) = jlq P h g t := by
    intro t ht
    simp only [jltau]
    rw [if_pos (hmemIH t ht), hidxH t ht]
  have hfq : ∀ t, t < d → P.fct (jlq P h g t) ≠ P.fct h := by
    intro t ht
    rw [hqval t ht]
    exact hqh _ (hmemIG _ (hslt t ht))
  have hfqg : ∀ t, t < d → P.fct (jlq P h g t) ≠ P.fct g := by
    intro t ht
    rw [hqval t ht]
    intro e
    exact vFctOppNe hv _ (hItG (if t = 0 then 0 else d - t))
      ((fct_iterate_next hv hg _).trans e.symm)
  have hLh_not_Lg : ∀ x ∈ faceCycle P h, x ∉ faceCycle P g := by
    intro x hx hxg
    exact hfhg ((fctLh x hx).symm.trans (fctLg x hxg))
  have hoppLh_not_Lg : ∀ x ∈ faceCycle P h, P.opp x ∉ faceCycle P g := by
    intro x hx hxg
    have hc := hqh (P.opp x) hxg
    rw [opp_opp inv (hLsubH x hx)] at hc
    exact hc (fctLh x hx)
  have hsurv : ∀ z, z ∈ halfedges (join_loop P h g).1 ↔
      z ∈ halfedges P ∧ z ∉ faceCycle P g ∧ P.opp z ∉ faceCycle P g := by
    intro z
    rw [mem_halfedges_join_loop hv h g z]
    simp [jlR, decide_eq_false_iff_not]
  have hsurvLh : ∀ x ∈ faceCycle P h, x ∈ halfedges (join_loop P h g).1 := by
    intro x hx
    exact (hsurv x).mpr ⟨hLsubH x hx, hLh_not_Lg x hx, hoppLh_not_Lg x hx⟩
  have hqL_of_opp : ∀ y, y ∈ halfedges P → P.opp y ∈ faceCycle P g → y ∈ jlqL P h g := by
    intro y hy hyg
    obtain ⟨u, hu, he⟩ := hmemffG _ hyg
    by_cases hu0 : u = 0
    · subst hu0
      refine (hmemQ_iff y).mpr ⟨0, hd0, ?_⟩
      rw [hqval 0 hd0, if_pos rfl, ← he, opp_opp inv hy]
    · refine (hmemQ_iff y).mpr ⟨d - u, by omega, ?_⟩
      rw [hqval (d - u) (by omega), if_neg (by omega : ¬(d - u = 0)),
        show d - (d - u) = u from by omega, ← he, opp_opp inv hy]
  have hnot_qL_opp : ∀ y, y ∈ halfedges P → y ∉ jlqL P h g → P.opp y ∉ faceCycle P g :=
    fun y hy hnq hyg => hnq (hqL_of_opp y hy hyg)
  have hsurvY : ∀ y, y ∈ halfedges P → P.fct y ≠ P.fct g → y ∉ jlqL P h g →
      y ∈ halfedges (join_loop P h g).1 := by
    intro y hy hyf hnq
    exact (hsurv y).mpr ⟨hy, fun hyg => hyf (fctLg y hyg), hnot_qL_opp y hy hnq⟩
  intro x hx
  obtain ⟨hxP, hxLg, hxOpp⟩ := (hsurv x).mp hx
  have C1 : (join_loop P h g).1.opp ((join_loop P h g).1.opp x) = x := by
    rw [jl_opp, jl_opp]
    exact opp_opp inv hxP
  have C2 : (join_loop P h g).1.opp x ≠ x := by
    rw [jl_opp]
    exact opp_ne inv hxP
  have C3 : (join_loop P h g).1.opp x ∈ halfedges (join_loop P h g).1 := by
    rw [jl_opp]
    refine (hsurv _).mpr ⟨opp_mem inv hxP, hxOpp, ?_⟩
    rw [opp_opp inv hxP]
    exact hxLg
  by_cases hxLh : x ∈ faceCycle P h
  · obtain ⟨t, ht, rfl⟩ := hmemffH x hxLh
    have hqm := hqmem t ht
    have htx := htauH t ht
    have hfz : P.fct (P.prev (jlq P h g t)) = P.fct (jlq P h g t) := by
      have tmp := vFctNext hv _ (prev_mem inv hqm)
      rw [next_prev inv hqm] at tmp
      exact tmp.symm
    refine ⟨C1, C2, C3, ?_, ?_, ?_, ?_⟩
    · by_cases hyq : P.next (jlq P h g t) ∈ jlqL P h g
      · obtain ⟨u, hu, he'⟩ := (hmemQ_iff _).mp hyq
        rw [jl_next, htx, he', hsigq u hu]
        exact hsurvLh _ (hmemIH u hu)
      · rw [jl_next, htx, hsig_id _ hyq]
        exact hsurvY _ (next_mem inv hqm)
          (by rw [vFctNext hv _ hqm]; exact hfqg t ht) hyq
    · by_cases hzq : P.prev (jlq P h g t) ∈ jlqL P h g
      · obtain ⟨u, hu, he''⟩ := (hmemQ_iff _).mp hzq
        rw [jl_prev, htx, he'', hsigq u hu]
        exact hsurvLh _ (hmemIH u hu)
      · rw [jl_prev, htx, hsig_id _ hzq]
        exact hsurvY _ (prev_mem inv hqm)
          (by rw [hfz]; exact hfqg t ht) hzq
    · by_cases hyq : P.next (jlq P h g t) ∈ jlqL P h g
      · obtain ⟨u, hu, he'⟩ := (hmemQ_iff _).mp hyq
        rw [jl_next, htx, he', hsigq u hu, jl_prev, htauH u hu]
        have hpq : P.prev (jlq P h g u) = jlq P h g t := by
          rw [← he', prev_next inv hqm]
        rw [hpq, hsigq t ht]
      · have hyLh : P.next (jlq P h g t) ∉ faceCycle P h := fun hm =>
          hfq t ht (by rw [← vFctNext hv _ hqm]; exact fctLh _ hm)
        rw [jl_next, htx, hsig_id _ hyq, jl_prev, htau_id _ hyLh,
          prev_next inv hqm, hsigq t ht]
    · by_cases hzq : P.prev (jlq P h g t) ∈ jlqL P h g
      · obtain ⟨u, hu, he''⟩ := (hmemQ_iff _).mp hzq
        rw [jl_prev, htx, he'', hsigq u hu, jl_next, htauH u hu]
        have hnq2 : P.next (jlq P h g u) = jlq P h g t := by
          rw [← he'', next_prev inv hqm]
        rw [hnq2, hsigq t ht]
      · have hzLh : P.prev (jlq P h g t) ∉ faceCycle P h := fun hm =>
          hfq t ht (by rw [← hfz]; exact fctLh _ hm)
        rw [jl_prev, htx, hsig_id _ hzq, jl_next, htau_id _ hzLh,
          next_prev inv hqm, hsigq t ht]
  · have htx := htau_id x hxLh
    have hxnq : x ∉ jlqL P h g := by
      intro hq
      obtain ⟨t, ht, rfl⟩ := (hmemQ_iff x).mp hq
      exact hxOpp (by rw [hoppq t ht]; exact hmemIG _ (hslt t ht))
    refine ⟨C1, C2, C3, ?_, ?_, ?_, ?_⟩
    · by_cases hyq : P.next x ∈ jlqL P h g
      · obtain ⟨u, hu, he'⟩ := (hmemQ_iff _).mp hyq
        rw [jl_next, htx, he', hsigq u hu]
        exact hsurvLh _ (hmemIH u hu)
      · rw [jl_next, htx, hsig_id _ hyq]
        refine (hsurv _).mpr ⟨next_mem inv hxP, ?_, hnot_qL_opp _ (next_mem inv hxP) hyq⟩
        intro hm
        have h2 := hLgPrev _ hm
        rw [prev_next inv hxP] at h2
        exact hxLg h2
    · by_cases hzq : P.prev x ∈ jlqL P h g
      · obtain ⟨u, hu, he''⟩ := (hmemQ_iff _).mp hzq
        rw [jl_prev, htx, he'', hsigq u hu]
        exact hsurvLh _ (hmemIH u hu)
      · rw [jl_prev, htx, hsig_id _ hzq]
        refine (hsurv _).mpr ⟨prev_mem inv hxP, ?_, hnot_qL_opp _ (prev_mem inv hxP) hzq⟩
        intro hm
        have h2 := hLgNext _ hm
        rw [next_prev inv hxP] at h2
        exact hxLg h2
    · by_cases hyq : P.next x ∈ jlqL P h g
      · obtain ⟨u, hu, he'⟩ := (hmemQ_iff _).mp hyq
        rw [jl_next, htx, he', hsigq u hu, jl_prev, htauH u hu]
        have hpq : P.prev (jlq P h g u) = x := by
          rw [← he', prev_next inv hxP]
        rw [hpq, hsig_id _ hxnq]
      · have hyLh : P.next x ∉ faceCycle P h := by
          intro hm
          have h2 := hLhPrev _ hm
          rw [prev_next inv hxP] at h2
          exact hxLh h2
        rw [jl_next, htx, hsig_id _ hyq, jl_prev, htau_id _ hyLh,
          prev_next inv hxP, hsig_id _ hxnq]
    · by_cases hzq : P.prev x ∈ jlqL P h g
      · obtain ⟨u, hu, he''⟩ := (hmemQ_iff _).mp hzq
        rw [jl_prev, htx, he'', hsigq u hu, jl_next, htauH u hu]
        have hnq2 : P.next (jlq P h g u) = x := by
          rw [← he'', next_prev inv hxP]
        rw [hnq2, hsig_id _ hxnq]
      · have hzLh : P.prev x ∉ faceCycle P h := by
          intro hm
          have h2 := hLhNext _ hm
          rw [next_prev inv hxP] at h2
          exact hxLh h2
        rw [jl_prev, htx, hsig_id _ hzq, jl_next, htau_id _ hzLh,
          next_prev inv hxP, hsig_id _ hxnq]

/-!  The claims.  -/

/-- The two-triangle surface: two disjoint triangles, used as a witness
mesh for `join_loop`. -/
def twoTriangles : Poly := (make_triangle (make_triangle emptyPoly).1).1

/-- Claim C1: for every halfedge `h` of a valid polyhedron,
`h.opposite().opposite() == h`, `h.opposite() != h`, and (with the
`prev` capability active, as in this embedding) `h.prev().next() == h`
and `h.next().prev() == h`; these equations hold before every public
operation (they are part of validity) and after each of the modelled
public operations, applied within their documented preconditions:
`split_facet`, `join_facet`, `split_vertex`, `split_edge`,
`make_tetrahedron`, `make_triangle`, `normalize_border`, `clear`,
`make_hole`, `fill_hole`, `add_vertex_and_facet_to_border`,
`add_facet_to_border`, `flip_edge`, `join_vertex`,
`create_center_vertex`, `erase_center_vertex`, `split_loop`,
`join_loop`, `erase_facet`, `erase_connected_component`,
`keep_largest_connected_components`, `inside_out`, `reserve` and
`delegate`. -/
theorem claim_C1 :
    (∀ P : Poly, Valid P → invC1 P) ∧
    (∀ (P : Poly) (h g : Nat), Valid P → h ∈ halfedges P → g ∈ halfedges P → h ≠ g →
      invC1 (split_facet P h g).1) ∧
    (∀ (P : Poly) (h : Nat), Valid P → h ∈ halfedges P → invC1 (join_facet P h).1) ∧
    (∀ (P : Poly) (h g : Nat), Valid P → h ∈ halfedges P → g ∈ halfedges P → h ≠ g →
      invC1 (split_vertex P h g).1) ∧
    (∀ (P : Poly) (h : Nat), Valid P → h ∈ halfedges P → invC1 (split_edge P h).1) ∧
    (∀ P : Poly, invC1 P → invC1 (make_tetrahedron P).1) ∧
    (∀ P : Poly, invC1 P → invC1 (make_triangle P).1) ∧
    (∀ P : Poly, invC1 P → invC1 (normalize_border P)) ∧
    (∀ P : Poly, invC1 (clear P)) ∧
    (∀ (P : Poly) (h : Nat), invC1 P → invC1 (make_hole P h).1) ∧
    (∀ (P : Poly) (h : Nat), invC1 P → invC1 (fill_hole P h).1) ∧
    (∀ (P : Poly) (h g : Nat), Valid P → h ∈ halfedges P → g ∈ halfedges P → h ≠ g →
      invC1 (add_vertex_and_facet_to_border P h g).1) ∧
    (∀ (P : Poly) (h g : Nat), Valid P → h ∈ halfedges P → g ∈ halfedges P → h ≠ g →
      invC1 (add_facet_to_border P h g).1) ∧
    (∀ (P : Poly) (h : Nat), Valid P → h ∈ halfedges P →
      P.next (P.next (P.next h)) = h →
      P.next (P.next (P.next (P.opp h))) = P.opp h → invC1 (flip_edge P h).1) ∧
    (∀ (P : Poly) (h : Nat), Valid P → h ∈ halfedges P → invC1 (join_vertex P h).1) ∧
    (∀ (P : Poly) (h : Nat), Valid P → h ∈ halfedges P →
      invC1 (create_center_vertex P h).1) ∧
    (∀ (P : Poly) (g : Nat), Valid P → invC1 (erase_center_vertex P g).1) ∧
    (∀ (P : Poly) (h i j : Nat), Valid P → h ∈ halfedges P → i ∈ halfedges P →
      j ∈ halfedges P → P.fct h ≠ P.fct i → P.fct h ≠ P.fct j → P.fct i ≠ P.fct j →
      invC1 (split_loop P h i j).1) ∧
    (∀ (P : Poly) (h g : Nat), Valid P → h ∈ halfedges P → g ∈ halfedges P →
      P.fct h ≠ P.fct g → (faceCycle P g).length = (faceCycle P h).length →
      (∀ y ∈ faceCycle P g, P.fct (P.opp y) ≠ P.fct h) → invC1 (join_loop P h g).1) ∧
    (∀ (P : Poly) (h : Nat), Valid P → invC1 (erase_facet P h)) ∧
    (∀ (P : Poly) (h : Nat), Valid P → invC1 (erase_connected_component P h)) ∧
    (∀ (P : Poly) (n : Nat), Valid P → invC1 (keep_largest_connected_components P n).1) ∧
    (∀ P : Poly, invC1 P → invC1 (inside_out P)) ∧
    (∀ (P : Poly) (v h f : Nat), invC1 P → invC1 (reserve P v h f)) ∧
    (∀ (m : Poly → Poly) (P : Poly), Valid (delegate m P) → invC1 (delegate m P)) :=
  ⟨fun _ hv => vInv hv,
   fun _ _ _ hv hh hg hne => invC1_split_facet hv hh hg hne,
   fun _ _ hv hh => invC1_join_facet hv hh,
   fun _ _ _ hv hh hg hne => invC1_split_vertex hv hh hg hne,
   fun _ _ hv hh => invC1_split_edge hv hh,
   fun _ hI => invC1_make_tetrahedron hI,
   fun _ hI => invC1_make_triangle hI,
   fun _ hI => invC1_normalize_border hI,
   fun P => invC1_clear P,
   fun _ h hI => invC1_make_hole hI h,
   fun _ h hI => invC1_fill_hole hI h,
   fun _ _ _ hv hh hg hne => invC1_add_vertex_and_facet_to_border hv hh hg hne,
   fun _ _ _ hv hh hg hne => invC1_add_facet_to_border hv hh hg hne,
   fun _ _ hv hh h1 h2 => invC1_flip_edge hv hh h1 h2,
   fun _ _ hv hh => invC1_join_vertex hv hh,
   fun _ _ hv hh => invC1_create_center_vertex hv hh,
   fun _ g hv => invC1_erase_center_vertex hv g,
   fun _ _ _ _ hv hh hi hj f1 f2 f3 => invC1_split_loop hv hh hi hj f1 f2 f3,
   fun _ _ _ hv hh hg f1 hd hq => invC1_join_loop hv hh hg f1 hd hq,
   fun _ h hv => invC1_erase_facet hv h,
   fun _ h hv => invC1_erase_connected_component hv h,
   fun _ n hv => invC1_keep_largest hv n,
   fun _ hI => invC1_inside_out hI,
   fun _ v h f hI => invC1_reserve hI v h f,
   fun _ _ hv => vInv hv⟩

/-- Witness for claim C1 at concrete surfaces. -/
theorem claim_C1_witness :
    invC1 tetra ∧ invC1 (split_facet quadSphere 1 3).1 ∧ invC1 (join_facet tetra 1).1 ∧
    invC1 (split_vertex tetra 1 5).1 ∧ invC1 (split_edge tetra 1).1 ∧
    invC1 (make_tetrahedron emptyPoly).1 ∧ invC1 (make_triangle emptyPoly).1 ∧
    invC1 (normalize_border triangle) ∧ invC1 (clear quadSphere) ∧
    invC1 (make_hole tetra 1).1 ∧ invC1 (fill_hole tetra 1).1 ∧
    invC1 (add_vertex_and_facet_to_border tetra 1 2).1 ∧
    invC1 (add_facet_to_border tetra 1 2).1 ∧
    invC1 (flip_edge tetra 1).1 ∧ invC1 (join_vertex tetra 1).1 ∧
    invC1 (create_center_vertex tetra 1).1 ∧ invC1 (erase_center_vertex tetra 1).1 ∧
    invC1 (split_loop tetra 1 6 9).1 ∧ invC1 (join_loop twoTriangles 1 7).1 ∧
    invC1 (erase_facet tetra 1) ∧ invC1 (erase_connected_component tetra 1) ∧
    invC1 (keep_largest_connected_components tetra 1).1 ∧ invC1 (inside_out tetra) ∧
    invC1 (reserve tetra 5 5 5) ∧ invC1 (delegate (fun Q => Q) tetra) :=
  ⟨claim_C1.1 tetra (by decide),
   claim_C1.2.1 quadSphere 1 3 (by decide) (by decide) (by decide) (by decide),
   claim_C1.2.2.1 tetra 1 (by decide) (by decide),
   claim_C1.2.2.2.1 tetra 1 5 (by decide) (by decide) (by decide) (by decide),
   claim_C1.2.2.2.2.1 tetra 1 (by decide) (by decide),
   claim_C1.2.2.2.2.2.1 emptyPoly (by decide),
   claim_C1.2.2.2.2.2.2.1 emptyPoly (by decide),
   claim_C1.2.2.2.2.2.2.2.1 triangle (by decide),
   claim_C1.2.2.2.2.2.2.2.2.1 quadSphere,
   claim_C1.2.2.2.2.2.2.2.2.2.1 tetra 1 (by decide),
   claim_C1.2.2.2.2.2.2.2.2.2.2.1 tetra 1 (by decide),
   claim_C1.2.2.2.2.2.2.2.2.2.2.2.1 tetra 1 2 (by decide) (by decide) (by decide) (by decide),
   claim_C1.2.2.2.2.2.2.2.2.2.2.2.2.1 tetra 1 2 (by decide) (by decide) (by decide) (by decide),
   claim_C1.2.2.2.2.2.2.2.2.2.2.2.2.2.1 tetra 1 (by decide) (by decide) (by decide) (by decide),
   claim_C1.2.2.2.2.2.2.2.2.2.2.2.2.2.2.1 tetra 1 (by decide) (by decide),
   claim_C1.2.2.2.2.2.2.2.2.2.2.2.2.2.2.2.1 tetra 1 (by decide) (by decide),
   claim_C1.2.2.2.2.2.2.2.2.2.2.2.2.2.2.2.2.1 tetra 1 (by decide),
   claim_C1.2.2.2.2.2.2.2.2.2.2.2.2.2.2.2.2.2.1 tetra 1 6 9 (by decide) (by decide) (by decide) (by decide) (by decide)
     (by decide) (by decide),
   claim_C1.2.2.2.2.2.2.2.2.2.2.2.2.2.2.2.2.2.2.1 twoTriangles 1 7 (by decide) (by decide) (by decide) (by decide) (by decide)
     (by decide),
   claim_C1.2.2.2.2.2.2.2.2.2.2.2.2.2.2.2.2.2.2.2.1 tetra 1 (by decide),
   claim_C1.2.2.2.2.2.2.2.2.2.2.2.2.2.2.2.2.2.2.2.2.1 tetra 1 (by decide),
   claim_C1.2.2.2.2.2.2.2.2.2.2.2.2.2.2.2.2.2.2.2.2.2.1 tetra 1 (by decide),
   claim_C1.2.2.2.2.2.2.2.2.2.2.2.2.2.2.2.2.2.2.2.2.2.2.1 tetra (by decide),
   claim_C1.2.2.2.2.2.2.2.2.2.2.2.2.2.2.2.2.2.2.2.2.2.2.2.1 tetra 5 5 5 (by decide),
   claim_C1.2.2.2.2.2.2.2.2.2.2.2.2.2.2.2.2.2.2.2.2.2.2.2.2 (fun Q => Q) tetra (by decide)⟩

/-- Claim C2: for halfedges `h`, `g` satisfying `split_facet`'s
precondition (same facet, `h != g`, `h->next() != g`,
`g->next() != h`), `join_facet (split_facet h g)` returns `h` and
leaves the mesh with the same vertex, halfedge and facet counts and the
same incidence relation on the live handles (the relabeling is the
identity). -/
theorem claim_C2 (P : Poly) (h g : Nat) (hv : Valid P)
    (hh : h ∈ halfedges P) (hg : g ∈ halfedges P) (hne : h ≠ g)
    (_h1 : P.next h ≠ g) (_h2 : P.next g ≠ h)
    (hsame : ∃ m, P.next^[m + 1] h = g) :
    (join_facet (split_facet P h g).1 (split_facet P h g).2).2 = h ∧
    size_of_vertices (join_facet (split_facet P h g).1 (split_facet P h g).2).1 =
      size_of_vertices P ∧
    size_of_halfedges (join_facet (split_facet P h g).1 (split_facet P h g).2).1 =
      size_of_halfedges P ∧
    size_of_facets (join_facet (split_facet P h g).1 (split_facet P h g).2).1 =
      size_of_facets P ∧
    (join_facet (split_facet P h g).1 (split_facet P h g).2).1.edges = P.edges ∧
    (join_facet (split_facet P h g).1 (split_facet P h g).2).1.verts = P.verts ∧
    (join_facet (split_facet P h g).1 (split_facet P h g).2).1.facets = P.facets ∧
    (∀ x ∈ halfedges P,
      (join_facet (split_facet P h g).1 (split_facet P h g).2).1.next x = P.next x ∧
      (join_facet (split_facet P h g).1 (split_facet P h g).2).1.prev x = P.prev x ∧
      (join_facet (split_facet P h g).1 (split_facet P h g).2).1.opp x = P.opp x ∧
      (join_facet (split_facet P h g).1 (split_facet P h g).2).1.vtx x = P.vtx x ∧
      (join_facet (split_facet P h g).1 (split_facet P h g).2).1.fct x = P.fct x) := by
  obtain ⟨r1, r2, r3, r4, r5⟩ := split_join_roundtrip hv hh hg hne hsame
  refine ⟨r1, ?_, ?_, ?_, r2, r3, r4, r5⟩
  · show (join_facet (split_facet P h g).1 (split_facet P h g).2).1.verts.length =
      P.verts.length
    rw [r3]
  · show (halfedges (join_facet (split_facet P h g).1 (split_facet P h g).2).1).length =
      (halfedges P).length
    rw [halfedges, halfedges, r2]
  · show (join_facet (split_facet P h g).1 (split_facet P h g).2).1.facets.length =
      P.facets.length
    rw [r4]

/-- Witness for claim C2: splitting the first quadrilateral of the
two-quad sphere along its diagonal and joining again. -/
theorem claim_C2_witness :
    (join_facet (split_facet quadSphere 1 3).1 (split_facet quadSphere 1 3).2).2 = 1 ∧
    size_of_vertices
        (join_facet (split_facet quadSphere 1 3).1 (split_facet quadSphere 1 3).2).1 =
      size_of_vertices quadSphere ∧
    size_of_halfedges
        (join_facet (split_facet quadSphere 1 3).1 (split_facet quadSphere 1 3).2).1 =
      size_of_halfedges quadSphere ∧
    size_of_facets
        (join_facet (split_facet quadSphere 1 3).1 (split_facet quadSphere 1 3).2).1 =
      size_of_facets quadSphere ∧
    (join_facet (split_facet quadSphere 1 3).1
        (split_facet quadSphere 1 3).2).1.edges = quadSphere.edges ∧
    (join_facet (split_facet quadSphere 1 3).1
        (split_facet quadSphere 1 3).2).1.verts = quadSphere.verts ∧
    (join_facet (split_facet quadSphere 1 3).1
        (split_facet quadSphere 1 3).2).1.facets = quadSphere.facets ∧
    (∀ x ∈ halfedges quadSphere,
      (join_facet (split_facet quadSphere 1 3).1
          (split_facet quadSphere 1 3).2).1.next x = quadSphere.next x ∧
      (join_facet (split_facet quadSphere 1 3).1
          (split_facet quadSphere 1 3).2).1.prev x = quadSphere.prev x ∧
      (join_facet (split_facet quadSphere 1 3).1
          (split_facet quadSphere 1 3).2).1.opp x = quadSphere.opp x ∧
      (join_facet (split_facet quadSphere 1 3).1
          (split_facet quadSphere 1 3).2).1.vtx x = quadSphere.vtx x ∧
      (join_facet (split_facet quadSphere 1 3).1
          (split_facet quadSphere 1 3).2).1.fct x = quadSphere.fct x) :=
  claim_C2 quadSphere 1 3 (by decide) (by decide) (by decide) (by decide) (by decide)
    (by decide) ⟨1, by decide⟩

/-- Claim C3: under `split_facet`'s precondition the operation inserts
one new edge between the vertices of `h` and `g`, duplicates the facet
with the fresh facet on the right of the diagonal (the side of the
diagonal's opposite) and the old facet on the left, and returns the
halfedge `h->next()` as evaluated after the operation, i.e. the new
diagonal. -/
theorem claim_C3 (P : Poly) (h g : Nat) (hv : Valid P)
    (hh : h ∈ halfedges P) (hg : g ∈ halfedges P) (hne : h ≠ g)
    (_h1 : P.next h ≠ g) (_h2 : P.next g ≠ h)
    (hsame : ∃ m, P.next^[m + 1] h = g) :
    (split_facet P h g).2 = (split_facet P h g).1.next h ∧
    (split_facet P h g).2 ∉ halfedges P ∧
    (split_facet P h g).2 ∈ halfedges (split_facet P h g).1 ∧
    (split_facet P h g).1.vtx (split_facet P h g).2 = P.vtx g ∧
    (split_facet P h g).1.vtx ((split_facet P h g).1.opp (split_facet P h g).2) = P.vtx h ∧
    size_of_halfedges (split_facet P h g).1 = size_of_halfedges P + 2 ∧
    size_of_facets (split_facet P h g).1 = size_of_facets P + 1 ∧
    size_of_vertices (split_facet P h g).1 = size_of_vertices P ∧
    (split_facet P h g).1.fct ((split_facet P h g).2) = P.fct h ∧
    (∃ f, (split_facet P h g).1.fct
        ((split_facet P h g).1.opp (split_facet P h g).2) = some f ∧ f ∉ P.facets) := by
  have hhu : h ≠ maxHandle P + 1 := maxHandle_lt_fresh P 0 h hh
  have hhv : h ≠ maxHandle P + 2 := maxHandle_lt_fresh P 1 h hh
  rw [split_facet_ret]
  refine ⟨?_, fresh1_not_mem P, ?_, ?_, ?_, ?_, ?_, ?_, ?_, ?_⟩
  · rw [split_facet_next, insertEdge_next, if_neg hhv, if_neg hhu, if_neg hne, if_pos rfl]
  · rw [halfedges_split_facet]
    simp
  · rw [split_facet_vtx, upd_ne _ _ _ _ (by omega : maxHandle P + 1 ≠ maxHandle P + 2),
      upd_self]
  · rw [split_opp_u, split_facet_vtx, upd_self]
  · show (halfedges (split_facet P h g).1).length = (halfedges P).length + 2
    rw [halfedges_split_facet, List.length_append]
    rfl
  · show (split_facet P h g).1.facets.length = P.facets.length + 1
    rw [split_facet_facets, List.length_append]
    rfl
  · rfl
  · exact split_fct_u hv hh hg hne hsame
  · refine ⟨maxFacet P + 1, ?_, maxFacet_not_mem P⟩
    rw [split_opp_u]
    exact split_fct_v P h g

/-- Witness for claim C3 on the two-quad sphere. -/
theorem claim_C3_witness :
    (split_facet quadSphere 1 3).2 = (split_facet quadSphere 1 3).1.next 1 ∧
    (split_facet quadSphere 1 3).2 ∉ halfedges quadSphere ∧
    (split_facet quadSphere 1 3).2 ∈ halfedges (split_facet quadSphere 1 3).1 ∧
    (split_facet quadSphere 1 3).1.vtx (split_facet quadSphere 1 3).2 =
      quadSphere.vtx 3 ∧
    (split_facet quadSphere 1 3).1.vtx
        ((split_facet quadSphere 1 3).1.opp (split_facet quadSphere 1 3).2) =
      quadSphere.vtx 1 ∧
    size_of_halfedges (split_facet quadSphere 1 3).1 = size_of_halfedges quadSphere + 2 ∧
    size_of_facets (split_facet quadSphere 1 3).1 = size_of_facets quadSphere + 1 ∧
    size_of_vertices (split_facet quadSphere 1 3).1 = size_of_vertices quadSphere ∧
    (split_facet quadSphere 1 3).1.fct ((split_facet quadSphere 1 3).2) =
      quadSphere.fct 1 ∧
    (∃ f, (split_facet quadSphere 1 3).1.fct
        ((split_facet quadSphere 1 3).1.opp (split_facet quadSphere 1 3).2) = some f ∧
      f ∉ quadSphere.facets) :=
  claim_C3 quadSphere 1 3 (by decide) (by decide) (by decide) (by decide) (by decide)
    (by decide) ⟨1, by decide⟩

/-- Claim C4, counterexample: on the valid two-triangle sphere, the
precondition stated by the claim holds at halfedge `1` — removal
support is active and the merged facet has degree `4 ≥ 3` — yet
`join_facet` produces a surface that fails the structural audit: the
non-border edge `{2, 5}` ends up with the same facet on both sides, so
the operation is not defined there.  The documented precondition that
actually excludes this input is vertex degree at least three, and
indeed the vertices of halfedge `1` have degree `2`. -/
theorem claim_C4_counterexample :
    Valid twoTriSphere ∧
    facet_degree (join_facet twoTriSphere 1).1 (join_facet twoTriSphere 1).2 = 4 ∧
    isBorder (join_facet twoTriSphere 1).1 2 = false ∧
    (join_facet twoTriSphere 1).1.fct 2 =
      (join_facet twoTriSphere 1).1.fct ((join_facet twoTriSphere 1).1.opp 2) ∧
    ¬Valid (join_facet twoTriSphere 1).1 ∧
    vertex_degree twoTriSphere 1 = 2 := by
  refine ⟨by decide, by decide, by decide, by decide, ?_, by decide⟩
  decide

/-- Claim C4 (amended): `join_facet`'s precondition is removal support
(always active in this embedding) plus the documented requirement that
both vertices incident to `h` have degree at least three; under that
hypothesis `join_facet` removes the facet incident to `h->opposite()`,
merges the two facets into one, returns the predecessor of `h` around
the merged facet, and preserves the halfedge invariants. -/
theorem claim_C4 (P : Poly) (h f : Nat) (hv : Valid P) (hh : h ∈ halfedges P)
    (hdeg1 : 3 ≤ vertex_degree P h) (hdeg2 : 3 ≤ vertex_degree P (P.opp h))
    (hf : P.fct (P.opp h) = some f) :
    (join_facet P h).2 = P.prev h ∧
    (join_facet P h).1.facets = P.facets.filter (fun x => x ≠ f) ∧
    size_of_facets (join_facet P h).1 + 1 = size_of_facets P ∧
    size_of_halfedges (join_facet P h).1 + 2 = size_of_halfedges P ∧
    (∀ x, P.fct x = some f → (join_facet P h).1.fct x = P.fct h) ∧
    invC1 (join_facet P h).1 :=
  join_facet_amended hv hh hdeg1 hdeg2 hf

/-- Witness for the amended claim C4 on the tetrahedron. -/
theorem claim_C4_witness :
    (join_facet tetra 1).2 = tetra.prev 1 ∧
    (join_facet tetra 1).1.facets = tetra.facets.filter (fun x => x ≠ 2) ∧
    size_of_facets (join_facet tetra 1).1 + 1 = size_of_facets tetra ∧
    size_of_halfedges (join_facet tetra 1).1 + 2 = size_of_halfedges tetra ∧
    (∀ x, tetra.fct x = some 2 → (join_facet tetra 1).1.fct x = tetra.fct 1) ∧
    invC1 (join_facet tetra 1).1 :=
  claim_C4 tetra 1 2 (by decide) (by decide) (by decide) (by decide) (by decide)

/-- Claim C5: `split_edge h` agrees with
`split_vertex (h->prev()) (h->opposite())` (up to taking the opposite
of the returned handle); it inserts one fresh vertex subdividing `h` —
the source vertex of `h` is re-pointed to the fresh vertex — raises the
vertex count by one and the halfedge count by two, keeps the facet
count, and returns a halfedge `hnew` pointing to the inserted vertex
with `hnew->next() == h`. -/
theorem claim_C5 (P : Poly) (h : Nat) (hv : Valid P) (hh : h ∈ halfedges P) :
    split_edge P h =
      ((split_vertex P (P.prev h) (P.opp h)).1,
        (split_vertex P (P.prev h) (P.opp h)).1.opp
          (split_vertex P (P.prev h) (P.opp h)).2) ∧
    size_of_vertices (split_edge P h).1 = size_of_vertices P + 1 ∧
    size_of_halfedges (split_edge P h).1 = size_of_halfedges P + 2 ∧
    size_of_facets (split_edge P h).1 = size_of_facets P ∧
    (split_edge P h).1.next (split_edge P h).2 = h ∧
    (split_edge P h).1.vtx (split_edge P h).2 = maxVert P + 1 ∧
    (split_edge P h).1.vtx (P.opp h) = maxVert P + 1 ∧
    maxVert P + 1 ∉ P.verts ∧
    maxVert P + 1 ∈ (split_edge P h).1.verts := by
  have hbv : P.opp h ≠ maxHandle P + 2 :=
    maxHandle_lt_fresh P 1 _ (opp_mem (vInv hv) hh)
  refine ⟨split_edge_eq_split_vertex hv hh, ?_, ?_, rfl, ?_, ?_, ?_, maxVert_not_mem P, ?_⟩
  · show (split_edge P h).1.verts.length = P.verts.length + 1
    rw [(split_edge_parts P h).2.1, List.length_append]
    rfl
  · show (halfedges (split_edge P h).1).length = (halfedges P).length + 2
    rw [length_halfedges, length_halfedges, (split_edge_parts P h).1, List.length_append]
    simp
    omega
  · rw [(split_edge_parts P h).2.2.2, split_edge_next, insertEdge_next,
      if_neg (by omega : maxHandle P + 2 ≠ maxHandle P + 1), if_pos rfl]
  · rw [(split_edge_parts P h).2.2.2, split_edge_vtx, if_pos rfl]
  · rw [split_edge_vtx, if_neg hbv, if_pos rfl]
  · rw [(split_edge_parts P h).2.1]
    simp

/-- Witness for claim C5 on the tetrahedron. -/
theorem claim_C5_witness :
    split_edge tetra 1 =
      ((split_vertex tetra (tetra.prev 1) (tetra.opp 1)).1,
        (split_vertex tetra (tetra.prev 1) (tetra.opp 1)).1.opp
          (split_vertex tetra (tetra.prev 1) (tetra.opp 1)).2) ∧
    size_of_vertices (split_edge tetra 1).1 = size_of_vertices tetra + 1 ∧
    size_of_halfedges (split_edge tetra 1).1 = size_of_halfedges tetra + 2 ∧
    size_of_facets (split_edge tetra 1).1 = size_of_facets tetra ∧
    (split_edge tetra 1).1.next (split_edge tetra 1).2 = 1 ∧
    (split_edge tetra 1).1.vtx (split_edge tetra 1).2 = maxVert tetra + 1 ∧
    (split_edge tetra 1).1.vtx (tetra.opp 1) = maxVert tetra + 1 ∧
    maxVert tetra + 1 ∉ tetra.verts ∧
    maxVert tetra + 1 ∈ (split_edge tetra 1).1.verts :=
  claim_C5 tetra 1 (by decide) (by decide)

/-- Claim C6: after `normalize_border` the halfedge sequence is all
non-border edges followed by all border edges; within each border edge
the facet-incident halfedge precedes the hole-incident one; the
recorded border-edge and border-halfedge counts agree; and the recorded
count is zero iff the surface is closed. -/
theorem claim_C6 (P : Poly) (hv : Valid P) :
    (∃ A B, halfedges (normalize_border P) = A ++ B ∧
      (∀ x ∈ A, isBorderEdge (normalize_border P) x = false) ∧
      (∀ x ∈ B, isBorderEdge (normalize_border P) x = true)) ∧
    (∀ e ∈ (normalize_border P).edges,
      (isBorder (normalize_border P) e.1 || isBorder (normalize_border P) e.2) = true →
        isBorder (normalize_border P) e.1 = false ∧
          isBorder (normalize_border P) e.2 = true) ∧
    size_of_border_edges (normalize_border P) =
      size_of_border_halfedges (normalize_border P) ∧
    (size_of_border_edges (normalize_border P) = 0 ↔
      is_closed (normalize_border P) = true) := by
  refine ⟨?_, ?_, normalize_counts hv, normalize_zero_iff P⟩
  · obtain ⟨A, B, hAB, hA, hB⟩ := normalize_partition hv
    exact ⟨A, B, hAB, hA, hB⟩
  · intro e he hb
    exact normalize_pair_order hv e he hb

/-- Witness for claim C6 on the bordered triangle. -/
theorem claim_C6_witness :
    (∃ A B, halfedges (normalize_border triangle) = A ++ B ∧
      (∀ x ∈ A, isBorderEdge (normalize_border triangle) x = false) ∧
      (∀ x ∈ B, isBorderEdge (normalize_border triangle) x = true)) ∧
    (∀ e ∈ (normalize_border triangle).edges,
      (isBorder (normalize_border triangle) e.1 ||
          isBorder (normalize_border triangle) e.2) = true →
        isBorder (normalize_border triangle) e.1 = false ∧
          isBorder (normalize_border triangle) e.2 = true) ∧
    size_of_border_edges (normalize_border triangle) =
      size_of_border_halfedges (normalize_border triangle) ∧
    (size_of_border_edges (normalize_border triangle) = 0 ↔
      is_closed (normalize_border triangle) = true) :=
  claim_C6 triangle (by decide)

/-- Claim C7: on the empty polyhedron `make_tetrahedron` produces 4
vertices, 12 halfedges, 4 facets, a closed pure-triangle surface, and
the returned halfedge denotes a tetrahedron component. -/
theorem claim_C7 :
    size_of_vertices (make_tetrahedron emptyPoly).1 = 4 ∧
    size_of_halfedges (make_tetrahedron emptyPoly).1 = 12 ∧
    size_of_facets (make_tetrahedron emptyPoly).1 = 4 ∧
    is_closed (make_tetrahedron emptyPoly).1 = true ∧
    is_pure_triangle (make_tetrahedron emptyPoly).1 = true ∧
    is_tetrahedron (make_tetrahedron emptyPoly).1 (make_tetrahedron emptyPoly).2 = true := by
  decide

/-- Claim C8: on the empty polyhedron `make_triangle` produces 3
vertices, 6 halfedges of which 3 are border and 3 are not, and one
facet; the returned halfedge is a live non-border halfedge; the surface
is not closed and `normalize_border` records 3 border edges. -/
theorem claim_C8 :
    size_of_vertices (make_triangle emptyPoly).1 = 3 ∧
    size_of_halfedges (make_triangle emptyPoly).1 = 6 ∧
    (halfedges (make_triangle emptyPoly).1).countP
        (fun h => isBorder (make_triangle emptyPoly).1 h) = 3 ∧
    (halfedges (make_triangle emptyPoly).1).countP
        (fun h => !isBorder (make_triangle emptyPoly).1 h) = 3 ∧
    size_of_facets (make_triangle emptyPoly).1 = 1 ∧
    (make_triangle emptyPoly).2 ∈ halfedges (make_triangle emptyPoly).1 ∧
    isBorder (make_triangle emptyPoly).1 (make_triangle emptyPoly).2 = false ∧
    is_closed (make_triangle emptyPoly).1 = false ∧
    size_of_border_edges (normalize_border (make_triangle emptyPoly).1) = 3 := by
  decide

/-- Claim C10: `next_on_vertex` is `h->next()->opposite()` and
`prev_on_vertex` is `h->opposite()->prev()`, so iterating
`next_on_vertex` stays among the halfedges incident to the vertex of
`h` (the clockwise vertex circulator). -/
theorem claim_C10 :
    (∀ (P : Poly) (h : Nat), next_on_vertex P h = P.opp (P.next h)) ∧
    (∀ (P : Poly) (h : Nat), prev_on_vertex P h = P.prev (P.opp h)) ∧
    (∀ (P : Poly) (h : Nat), Valid P → h ∈ halfedges P →
      ∀ k, (fun y => next_on_vertex P y)^[k] h ∈ halfedges P ∧
        P.vtx ((fun y => next_on_vertex P y)^[k] h) = P.vtx h) := by
  refine ⟨fun _ _ => rfl, fun _ _ => rfl, ?_⟩
  intro P h hv hh k
  induction k with
  | zero => exact ⟨hh, rfl⟩
  | succ n ihn =>
    obtain ⟨hm, he⟩ := ihn
    constructor
    · rw [Function.iterate_succ_apply']
      show P.opp (P.next _) ∈ halfedges P
      exact opp_mem (vInv hv) (next_mem (vInv hv) hm)
    · rw [Function.iterate_succ_apply']
      show P.vtx (P.opp (P.next _)) = _
      rw [vVtxCoh hv _ hm, he]

/-- Witness for claim C10: three clockwise steps around a tetrahedron
vertex stay on the vertex of the start halfedge. -/
theorem claim_C10_witness :
    (fun y => next_on_vertex tetra y)^[3] 1 ∈ halfedges tetra ∧
    tetra.vtx ((fun y => next_on_vertex tetra y)^[3] 1) = tetra.vtx 1 :=
  claim_C10.2.2 tetra 1 (by decide) (by decide) 3

end HalfedgeDS
